import Mathlib

/-!
Verification of the combinator core of the uasat package (relation.py,
operation.py, algebra.py).  Tables of SAT literals are modelled by their
boolean values: on constant tables the SAT engine combinators described in
the specification (bool and/or, fold_any/all/one/amo) are the corresponding
boolean functions, and every derived table is built pointwise from them, so
boolean tables capture the table semantics exactly.  The solver layer used
by the functionality invariant is modelled separately as a constraint store.
-/

/-- Tup sz n x states that x is a valid coordinate tuple: length n, every
entry below sz (the universe size). -/
def Tup (sz n : Nat) (x : List Nat) : Prop :=
  x.length = n ∧ ∀ c ∈ x, c < sz

instance (sz n : Nat) (x : List Nat) : Decidable (Tup sz n x) := by
  unfold Tup; infer_instance

/-- encodeTup is the flat mixed-radix index of a coordinate tuple, with
coordinate 0 least significant; this is the convention computed by
Relation.new_singleton (pos = sum of coord[i] * size^i). -/
def encodeTup (sz : Nat) : List Nat → Nat
  | [] => 0
  | c :: cs => c + sz * encodeTup sz cs

/-- digitsLE recovers the n least-significant base-sz digits of a flat
index, coordinate 0 first. -/
def digitsLE (sz : Nat) : Nat → Nat → List Nat
  | 0, _ => []
  | n + 1, p => p % sz :: digitsLE sz n (p / sz)

@[simp] theorem length_digitsLE (sz n p : Nat) : (digitsLE sz n p).length = n := by
  induction n generalizing p with
  | zero => rfl
  | succ n ih => simp [digitsLE, ih]

theorem mem_digitsLE_lt (sz n p : Nat) (hsz : 0 < sz) :
    ∀ c ∈ digitsLE sz n p, c < sz := by
  induction n generalizing p with
  | zero => simp [digitsLE]
  | succ n ih =>
    intro c hc
    simp only [digitsLE, List.mem_cons] at hc
    rcases hc with h | h
    · exact h ▸ Nat.mod_lt _ hsz
    · exact ih _ c h

theorem tup_digitsLE (sz n p : Nat) (hsz : 0 < sz) : Tup sz n (digitsLE sz n p) :=
  ⟨length_digitsLE sz n p, mem_digitsLE_lt sz n p hsz⟩

theorem encodeTup_lt (sz : Nat) (x : List Nat) (hx : ∀ c ∈ x, c < sz) :
    encodeTup sz x < sz ^ x.length := by
  induction x with
  | nil => simp [encodeTup]
  | cons c cs ih =>
    have hc : c < sz := hx c (List.mem_cons_self _ _)
    have hcs : encodeTup sz cs < sz ^ cs.length :=
      ih (fun d hd => hx d (List.mem_cons_of_mem _ hd))
    have h1 : sz * (encodeTup sz cs + 1) ≤ sz * sz ^ cs.length :=
      Nat.mul_le_mul_left sz (Nat.succ_le_of_lt hcs)
    have h2 : sz * (encodeTup sz cs + 1) = sz * encodeTup sz cs + sz := Nat.mul_succ sz _
    simp only [encodeTup, List.length_cons, pow_succ]
    calc c + sz * encodeTup sz cs < sz * (encodeTup sz cs + 1) := by omega
    _ ≤ sz * sz ^ cs.length := h1
    _ = sz ^ cs.length * sz := Nat.mul_comm _ _

theorem digitsLE_encodeTup (sz n : Nat) (x : List Nat)
    (hlen : x.length = n) (hx : ∀ c ∈ x, c < sz) :
    digitsLE sz n (encodeTup sz x) = x := by
  induction n generalizing x with
  | zero => cases x with
    | nil => rfl
    | cons c cs => simp at hlen
  | succ n ih =>
    cases x with
    | nil => simp at hlen
    | cons c cs =>
      have hc : c < sz := hx c (List.mem_cons_self _ _)
      have hsz : 0 < sz := Nat.pos_of_ne_zero (by intro h; omega)
      have hmod : (c + sz * encodeTup sz cs) % sz = c := by
        rw [Nat.add_mul_mod_self_left, Nat.mod_eq_of_lt hc]
      have hdiv : (c + sz * encodeTup sz cs) / sz = encodeTup sz cs := by
        rw [Nat.add_mul_div_left _ _ hsz, Nat.div_eq_of_lt hc, Nat.zero_add]
      simp only [encodeTup, digitsLE, hmod, hdiv]
      rw [ih cs (by simpa using hlen) (fun d hd => hx d (List.mem_cons_of_mem _ hd))]

theorem encodeTup_digitsLE (sz n p : Nat) (hp : p < sz ^ n) :
    encodeTup sz (digitsLE sz n p) = p := by
  induction n generalizing p with
  | zero =>
    have hp0 : p = 0 := Nat.lt_one_iff.mp (by simpa using hp)
    subst hp0; rfl
  | succ n ih =>
    have hsz : 0 < sz := by
      rcases Nat.eq_zero_or_pos sz with h | h
      · subst h; simp at hp
      · exact h
    have hdiv : p / sz < sz ^ n := by
      rw [Nat.div_lt_iff_lt_mul hsz]
      calc p < sz ^ (n + 1) := hp
      _ = sz ^ n * sz := pow_succ sz n
    simp only [digitsLE, encodeTup, ih (p / sz) hdiv]
    exact Nat.mod_add_div p sz

theorem encodeTup_append (sz : Nat) (xs ys : List Nat) :
    encodeTup sz (xs ++ ys) = encodeTup sz xs + sz ^ xs.length * encodeTup sz ys := by
  induction xs with
  | nil => simp [encodeTup]
  | cons c cs ih =>
    simp only [List.cons_append, encodeTup, List.append_eq, ih, List.length_cons, pow_succ]
    ring

@[simp] theorem digitsLE_zero (sz n : Nat) : digitsLE sz n 0 = List.replicate n 0 := by
  induction n with
  | zero => rfl
  | succ n ih => simp [digitsLE, ih, List.replicate_succ]

/-- dotPos is the dot product of a stride list with a coordinate tuple,
truncating at the shorter list. -/
def dotPos : List Nat → List Nat → Nat
  | s :: ss, x :: xs => s * x + dotPos ss xs
  | _, _ => 0

@[simp] theorem dotPos_nil_left (x : List Nat) : dotPos [] x = 0 := by
  cases x <;> rfl

@[simp] theorem dotPos_nil_right (s : List Nat) : dotPos s [] = 0 := by
  cases s <;> rfl

@[simp] theorem dotPos_cons (s x : Nat) (ss xs : List Nat) :
    dotPos (s :: ss) (x :: xs) = s * x + dotPos ss xs := rfl

theorem dotPos_replicate_zero (n : Nat) (x : List Nat) :
    dotPos (List.replicate n 0) x = 0 := by
  induction n generalizing x with
  | zero => simp
  | succ n ih =>
    cases x with
    | nil => simp
    | cons c cs => simp [List.replicate_succ, ih]

/-- posOf computes the flat source position addressed by the stride list at
a given flat target index, digit by digit. -/
def posOf (sz : Nat) : List Nat → Nat → Nat
  | [], _ => 0
  | s :: ss, p => s * (p % sz) + posOf sz ss (p / sz)

theorem posOf_eq_dot (sz : Nat) (ss : List Nat) (p : Nat) :
    posOf sz ss p = dotPos ss (digitsLE sz ss.length p) := by
  induction ss generalizing p with
  | nil => rfl
  | cons s ss ih => simp [posOf, digitsLE, ih]

@[simp] theorem posOf_zero (sz : Nat) (ss : List Nat) : posOf sz ss 0 = 0 := by
  induction ss with
  | nil => rfl
  | cons s ss ih => simp [posOf, ih]

/-- bumpLoop is the carry loop inside Relation.polymer: it advances the
mixed-radix counter by one and updates the source position accordingly,
exactly as the inner for loop over idx does. -/
def bumpLoop (sz : Nat) : List Nat → List Nat → Nat → Nat × List Nat
  | s :: ss, i :: is, pos =>
    if i + 1 < sz then (pos + s, (i + 1) :: is)
    else
      let r := bumpLoop sz ss is (pos + s - s * sz)
      (r.1, 0 :: r.2)
  | _, _, pos => (pos, [])

theorem bumpLoop_spec (sz : Nat) (hsz : 0 < sz) :
    ∀ (ss : List Nat) (p : Nat),
      bumpLoop sz ss (digitsLE sz ss.length p) (posOf sz ss p) =
        (posOf sz ss (p + 1), digitsLE sz ss.length (p + 1)) := by
  intro ss
  induction ss with
  | nil => intro p; rfl
  | cons s ss ih =>
    intro p
    have hplt : p % sz < sz := Nat.mod_lt _ hsz
    by_cases hcase : p % sz + 1 < sz
    · have hmod : (p + 1) % sz = p % sz + 1 := by
        conv_lhs => rw [← Nat.mod_add_div p sz]
        rw [Nat.add_right_comm, Nat.add_mul_mod_self_left, Nat.mod_eq_of_lt hcase]
      have hdiv : (p + 1) / sz = p / sz := by
        conv_lhs => rw [← Nat.mod_add_div p sz]
        rw [Nat.add_right_comm, Nat.add_mul_div_left _ _ hsz,
          Nat.div_eq_of_lt hcase, Nat.zero_add]
      simp only [digitsLE, posOf, List.length_cons, bumpLoop, if_pos hcase, hmod, hdiv,
        Prod.mk.injEq]
      exact ⟨by ring, trivial⟩
    · have hful : p % sz + 1 = sz := by omega
      have hsplit : p + 1 = sz * (p / sz + 1) := by
        conv_lhs => rw [← Nat.mod_add_div p sz]
        rw [Nat.add_right_comm, hful]
        ring
      have hmod : (p + 1) % sz = 0 := by rw [hsplit, Nat.mul_mod_right]
      have hdiv : (p + 1) / sz = p / sz + 1 := by
        rw [hsplit, Nat.mul_div_cancel_left _ hsz]
      have hpos : s * (p % sz) + posOf sz ss (p / sz) + s - s * sz
          = posOf sz ss (p / sz) := by
        have hss : s * (p % sz) + s = s * sz := by
          calc s * (p % sz) + s = s * (p % sz + 1) := by ring
          _ = s * sz := by rw [hful]
        omega
      simp only [digitsLE, posOf, List.length_cons, bumpLoop, if_neg hcase, hpos, ih (p / sz),
        hmod, hdiv, Prod.mk.injEq]
      exact ⟨by omega, trivial⟩

/-- polymerLoop is the main loop of Relation.polymer: one pass over the
flattened target index space, reading the source cell at the running
position and bumping the counter. -/
def polymerLoop (sz : Nat) (tbl : List Bool) (strides : List Nat) :
    Nat → Nat → List Nat → List Bool
  | 0, _, _ => []
  | n + 1, pos, indices =>
    let r := bumpLoop sz strides indices pos
    tbl.getD pos false :: polymerLoop sz tbl strides n r.1 r.2

theorem polymerLoop_spec (sz : Nat) (hsz : 0 < sz) (tbl : List Bool) (ss : List Nat) :
    ∀ (n p : Nat),
      polymerLoop sz tbl ss n (posOf sz ss p) (digitsLE sz ss.length p) =
        (List.range n).map (fun t => tbl.getD (posOf sz ss (p + t)) false) := by
  intro n
  induction n with
  | zero => intro p; rfl
  | succ n ih =>
    intro p
    rw [List.range_succ_eq_map]
    simp only [polymerLoop, bumpLoop_spec sz hsz ss p, List.map_cons, List.map_map,
      Nat.add_zero]
    rw [ih (p + 1)]
    congr 1
    apply List.map_congr_left
    intro t ht
    simp only [Function.comp_apply]
    have harg : p + 1 + t = p + (t + 1) := by omega
    rw [harg]

/-- getD of a map over a range below the bound is the mapped value. -/
theorem getD_map_range {α : Type} (f : Nat → α) (n i : Nat) (d : α) (h : i < n) :
    ((List.range n).map f).getD i d = f i := by
  rw [List.getD_eq_getElem _ d (by simpa using h)]
  simp

/-- stridesLoop is the stride accumulation loop at the top of
Relation.polymer: strides[var] += length; length *= size. -/
def stridesLoop (sz : Nat) : List Nat → Nat → List Nat → List Nat
  | [], _, strides => strides
  | v :: vs, len, strides => stridesLoop sz vs (len * sz) (strides.set v (strides.getD v 0 + len))

theorem length_stridesLoop (sz : Nat) (nv : List Nat) (len : Nat) (st : List Nat) :
    (stridesLoop sz nv len st).length = st.length := by
  induction nv generalizing len st with
  | nil => rfl
  | cons v vs ih => simp [stridesLoop, ih, List.length_set]

theorem dotPos_set (st x : List Nat) (v add : Nat) (hv : v < st.length)
    (hx : x.length = st.length) :
    dotPos (st.set v (st.getD v 0 + add)) x = dotPos st x + add * x.getD v 0 := by
  induction st generalizing v x with
  | nil => simp at hv
  | cons s ss ih =>
    cases x with
    | nil => simp at hx
    | cons c cs =>
      cases v with
      | zero => simp [List.set, List.getD_cons_zero]; ring
      | succ v =>
        have hv2 : v < ss.length := by simpa using hv
        have hx2 : cs.length = ss.length := by simpa using hx
        simp only [List.set, List.getD_cons_succ, dotPos_cons]
        rw [ih cs v hv2 hx2]
        ring

theorem dotPos_stridesLoop (sz : Nat) (nv : List Nat) :
    ∀ (len : Nat) (st x : List Nat), (∀ v ∈ nv, v < st.length) → x.length = st.length →
      dotPos (stridesLoop sz nv len st) x
        = dotPos st x + len * encodeTup sz (nv.map fun i => x.getD i 0) := by
  induction nv with
  | nil => intro len st x hnv hx; simp [stridesLoop, encodeTup]
  | cons v vs ih =>
    intro len st x hnv hx
    have hv : v < st.length := hnv v (List.mem_cons_self _ _)
    have hlen : (st.set v (st.getD v 0 + len)).length = st.length := List.length_set st v _
    rw [stridesLoop, ih (len * sz) _ x
      (fun w hw => by rw [hlen]; exact hnv w (List.mem_cons_of_mem _ hw)) (by rw [hlen]; exact hx),
      dotPos_set st x v len hv hx]
    simp only [List.map_cons, encodeTup]
    ring

/-- Relation models uasat Relation over constant tables: a size^arity cell
boolean truth table (relation.py, class Relation). -/
structure Relation where
  size : Nat
  arity : Nat
  table : List Bool
deriving DecidableEq, Repr

/-- WF states the Relation constructor invariant: positive size and table
length exactly size^arity. -/
def Relation.WF (R : Relation) : Prop :=
  0 < R.size ∧ R.table.length = R.size ^ R.arity

instance (R : Relation) : Decidable R.WF := by
  unfold Relation.WF; infer_instance

/-- cell reads the table entry addressed by a coordinate tuple, using the
flat mixed-radix index convention of new_singleton. -/
def Relation.cell (R : Relation) (x : List Nat) : Bool :=
  R.table.getD (encodeTup R.size x) false

/-- new_const builds a constant table (relation.py Relation.new_const). -/
def Relation.new_const (size arity : Nat) (value : Bool) : Relation :=
  ⟨size, arity, List.replicate (size ^ arity) value⟩

/-- new_full is the all-true relation (relation.py Relation.new_full). -/
def Relation.new_full (size arity : Nat) : Relation :=
  Relation.new_const size arity true

/-- new_empty is the all-false relation (relation.py Relation.new_empty). -/
def Relation.new_empty (size arity : Nat) : Relation :=
  Relation.new_const size arity false

/-- new_singleton builds the relation true at exactly one tuple; the flat
position is accumulated over the reversed coordinate list as in the
source. -/
def Relation.new_singleton (size : Nat) (coord : List Nat) : Relation :=
  ⟨size, coord.length,
    (List.replicate (size ^ coord.length) false).set
      (coord.reverse.foldl (fun pos c => pos * size + c) 0) true⟩

theorem singleton_pos_eq_encodeTup (size : Nat) (coord : List Nat) :
    coord.reverse.foldl (fun pos c => pos * size + c) 0 = encodeTup size coord := by
  rw [List.foldl_reverse]
  induction coord with
  | nil => rfl
  | cons c cs ih => simp only [List.foldr_cons, encodeTup, ih]; ring

/-- polymer is the reindexing primitive translated from
relation.py Relation.polymer: stride accumulation, then one pass over the
flattened target index space with the carry loop. -/
def Relation.polymer (R : Relation) (new_vars : List Nat) (new_arity : Nat) : Relation :=
  let strides := stridesLoop R.size new_vars 1 (List.replicate new_arity 0)
  ⟨R.size, new_arity,
    polymerLoop R.size R.table strides (R.size ^ new_arity) 0 (List.replicate new_arity 0)⟩

@[simp] theorem Relation.size_polymer (R : Relation) (nv : List Nat) (na : Nat) :
    (R.polymer nv na).size = R.size := rfl

@[simp] theorem Relation.arity_polymer (R : Relation) (nv : List Nat) (na : Nat) :
    (R.polymer nv na).arity = na := rfl

theorem length_polymerLoop (sz : Nat) (tbl : List Bool) (ss : List Nat) :
    ∀ (n : Nat) (pos : Nat) (ind : List Nat),
      (polymerLoop sz tbl ss n pos ind).length = n := by
  intro n
  induction n with
  | zero => intro pos ind; rfl
  | succ n ih => intro pos ind; simp [polymerLoop, ih]

@[simp] theorem Relation.length_table_polymer (R : Relation) (nv : List Nat) (na : Nat) :
    (R.polymer nv na).table.length = R.size ^ na :=
  length_polymerLoop _ _ _ _ _ _

theorem Relation.wf_polymer (R : Relation) (nv : List Nat) (na : Nat) (hsz : 0 < R.size) :
    (R.polymer nv na).WF :=
  ⟨hsz, Relation.length_table_polymer R nv na⟩

/-- polymer_table_spec gives the closed form of the polymer main loop
started from position 0 and the all-zero counter. -/
theorem polymer_table_spec (sz : Nat) (hsz : 0 < sz) (tbl : List Bool) (ss : List Nat)
    (na : Nat) (hss : ss.length = na) :
    polymerLoop sz tbl ss (sz ^ na) 0 (List.replicate na 0)
      = (List.range (sz ^ na)).map (fun t => tbl.getD (posOf sz ss t) false) := by
  have h := polymerLoop_spec sz hsz tbl ss (sz ^ na) 0
  simp only [posOf_zero, digitsLE_zero, hss, Nat.zero_add] at h
  exact h

/-- Core correctness of polymer: the cell of the reindexed table at a
target tuple is the source cell at the tuple read off through new_vars. -/
theorem Relation.cell_polymer (R : Relation) (nv : List Nat) (na : Nat)
    (hsz : 0 < R.size) (hnv : ∀ v ∈ nv, v < na) (x : List Nat) (hx : Tup R.size na x) :
    (R.polymer nv na).cell x = R.cell (nv.map fun i => x.getD i 0) := by
  obtain ⟨hxlen, hxmem⟩ := hx
  have hstlen : (stridesLoop R.size nv 1 (List.replicate na 0)).length = na := by
    rw [length_stridesLoop, List.length_replicate]
  have henc : encodeTup R.size x < R.size ^ na := by
    have := encodeTup_lt R.size x hxmem
    rwa [hxlen] at this
  unfold Relation.polymer Relation.cell
  simp only
  rw [polymer_table_spec R.size hsz R.table _ na hstlen,
    getD_map_range _ _ _ _ henc, posOf_eq_dot, hstlen,
    digitsLE_encodeTup R.size na x hxlen hxmem,
    dotPos_stridesLoop R.size nv 1 (List.replicate na 0) x
      (fun v hv => by rw [List.length_replicate]; exact hnv v hv)
      (by rw [List.length_replicate]; exact hxlen),
    dotPos_replicate_zero, Nat.zero_add, Nat.one_mul]

theorem getD_drop {α : Type} (l : List α) (m i : Nat) (d : α) :
    (l.drop m).getD i d = l.getD (m + i) d := by
  induction l generalizing m with
  | nil => simp
  | cons c cs ih =>
    cases m with
    | zero => simp
    | succ m =>
      have h1 : m + 1 + i = (m + i) + 1 := by omega
      rw [List.drop_succ_cons, h1, List.getD_cons_succ, ih m]

theorem getD_take {α : Type} (l : List α) (m i : Nat) (d : α) (h : i < m) :
    (l.take m).getD i d = l.getD i d := by
  induction l generalizing m i with
  | nil => simp
  | cons c cs ih =>
    cases m with
    | zero => omega
    | succ m =>
      cases i with
      | zero => simp
      | succ i => simpa using ih m i (by omega)

theorem map_getD_range {α : Type} (x : List α) (d : α) :
    (List.range x.length).map (fun i => x.getD i d) = x := by
  induction x with
  | nil => rfl
  | cons c cs ih =>
    rw [List.length_cons, List.range_succ_eq_map, List.map_cons, List.map_map]
    simp only [List.getD_cons_zero, Function.comp_def, List.getD_cons_succ]
    rw [ih]

theorem map_getD_range_take {α : Type} (x : List α) (m : Nat) (d : α) (hm : m ≤ x.length) :
    (List.range m).map (fun i => x.getD i d) = x.take m := by
  have hlen : (x.take m).length = m := by simp [hm]
  have := map_getD_range (x.take m) d
  rw [hlen] at this
  rw [← this]
  apply List.map_congr_left
  intro i hi
  rw [getD_take x m i d (List.mem_range.mp hi)]

theorem map_getD_range_drop {α : Type} (x : List α) (a : Nat) (d : α) :
    (List.range (x.length - a)).map (fun i => x.getD (a + i) d) = x.drop a := by
  have hlen : (x.drop a).length = x.length - a := by simp
  have := map_getD_range (x.drop a) d
  rw [hlen] at this
  rw [← this]
  apply List.map_congr_left
  intro i hi
  rw [getD_drop]

/-- polymer_rotate cyclically shifts the coordinates (relation.py
Relation.polymer_rotate), returning self when the offset is a multiple of
the arity. -/
def Relation.polymer_rotate (R : Relation) (offset : Int) : Relation :=
  if offset % (R.arity : Int) == 0 then R
  else R.polymer ((List.range R.arity).map
    (fun (i : Nat) => (((i : Int) + offset) % (R.arity : Int)).toNat)) R.arity

/-- polymer_insert broadcasts over a fresh coordinate inserted at position
var (relation.py Relation.polymer_insert). -/
def Relation.polymer_insert (R : Relation) (var : Nat) : Relation :=
  R.polymer ((List.range R.arity).map (fun i => if i < var then i else i + 1)) (R.arity + 1)

/-- Modelled from the spec: the BitVec AND of the external SAT engine is,
on constant literals, the boolean conjunction applied elementwise to two
equal-length literal vectors. -/
def bvAnd (a b : List Bool) : List Bool := a.zipWith (fun p q => p && q) b

/-- Relation.and is the intersection of two same-shape relations
(relation.py Relation.__and__). -/
def Relation.and (A B : Relation) : Relation := ⟨A.size, A.arity, bvAnd A.table B.table⟩

@[simp] theorem Relation.size_and (A B : Relation) : (A.and B).size = A.size := rfl

@[simp] theorem Relation.arity_and (A B : Relation) : (A.and B).arity = A.arity := rfl

theorem Relation.length_table_and (A B : Relation) (h : B.table.length = A.table.length) :
    (A.and B).table.length = A.table.length := by
  simp [Relation.and, bvAnd, h]

theorem getD_bvAnd (a b : List Bool) (p : Nat) (hlen : b.length = a.length)
    (hp : p < a.length) :
    (bvAnd a b).getD p false = (a.getD p false && b.getD p false) := by
  have hz : (bvAnd a b).length = a.length := by simp [bvAnd, hlen]
  rw [List.getD_eq_getElem _ _ (by rw [hz]; exact hp),
    List.getD_eq_getElem _ _ hp, List.getD_eq_getElem _ _ (by rw [hlen]; exact hp)]
  simp [bvAnd]

theorem Relation.cell_and (A B : Relation) (hA : A.WF) (hsz : B.size = A.size)
    (har : B.arity = A.arity) (hlen : B.table.length = A.table.length)
    (x : List Nat) (hx : Tup A.size A.arity x) :
    (A.and B).cell x = (A.cell x && B.cell x) := by
  obtain ⟨hxlen, hxmem⟩ := hx
  have henc : encodeTup A.size x < A.table.length := by
    rw [hA.2, ← hxlen]
    exact encodeTup_lt A.size x hxmem
  unfold Relation.cell Relation.and
  simp only [hsz]
  exact getD_bvAnd A.table B.table _ hlen henc

/-- foldChunks applies a literal-level fold combinator to each contiguous
block of step cells, one output literal per block, as the fold loops of
relation.py do (for idx in range(0, length, step): fold(table[idx:idx+step])). -/
def foldChunks (g : List Bool → Bool) (step : Nat) (tbl : List Bool) : List Bool :=
  (List.range ((tbl.length + step - 1) / step)).map
    (fun r => g ((tbl.drop (r * step)).take step))

/-- foldWith is the shared body of Relation.fold_any/fold_all/fold_one/
fold_amo: the four methods differ only in the solver combinator applied to
each block. -/
def Relation.foldWith (R : Relation) (g : List Bool → Bool) (count : Nat) : Relation :=
  ⟨R.size, R.arity - count, foldChunks g (R.size ^ count) R.table⟩

/-- Modelled from the spec: anyB is the SAT engine combinator behind
fold_any on constant literals; existential quantification is disjunction. -/
def anyB (l : List Bool) : Bool := l.any id

/-- Modelled from the spec: allB is the SAT engine combinator behind
fold_all on constant literals; universal quantification is conjunction. -/
def allB (l : List Bool) : Bool := l.all id

/-- Modelled from the spec: oneB is the SAT engine combinator behind
fold_one on constant literals; exactly one true bit. -/
def oneB (l : List Bool) : Bool := l.countP (fun b => b) == 1

/-- Modelled from the spec: amoB is the SAT engine combinator behind
fold_amo on constant literals; at most one true bit. -/
def amoB (l : List Bool) : Bool := decide (l.countP (fun b => b) ≤ 1)

/-- fold_any compiles existential quantification blockwise
(relation.py Relation.fold_any). -/
def Relation.fold_any (R : Relation) (count : Nat) : Relation := R.foldWith anyB count

/-- fold_all compiles universal quantification blockwise
(relation.py Relation.fold_all). -/
def Relation.fold_all (R : Relation) (count : Nat) : Relation := R.foldWith allB count

/-- fold_one compiles exactly-one quantification blockwise
(relation.py Relation.fold_one). -/
def Relation.fold_one (R : Relation) (count : Nat) : Relation := R.foldWith oneB count

/-- fold_amo compiles at-most-one quantification blockwise
(relation.py Relation.fold_amo). -/
def Relation.fold_amo (R : Relation) (count : Nat) : Relation := R.foldWith amoB count

theorem length_foldChunks (g : List Bool → Bool) (step : Nat) (tbl : List Bool) :
    (foldChunks g step tbl).length = (tbl.length + step - 1) / step := by
  simp [foldChunks]

theorem numChunks_exact (L step q : Nat) (hstep : 0 < step) (hq : L = step * q) :
    (L + step - 1) / step = q := by
  subst hq
  have h1 : step * q + step - 1 = (step - 1) + step * q := by omega
  rw [h1, Nat.add_mul_div_left _ _ hstep, Nat.div_eq_of_lt (by omega), Nat.zero_add]

theorem Relation.length_table_foldWith (R : Relation) (g : List Bool → Bool) (count : Nat)
    (hWF : R.WF) (hc : count ≤ R.arity) :
    (R.foldWith g count).table.length = R.size ^ (R.arity - count) := by
  have hstep : 0 < R.size ^ count := Nat.pos_pow_of_pos count hWF.1
  have hsplit : R.size ^ R.arity = R.size ^ count * R.size ^ (R.arity - count) := by
    rw [← pow_add]
    congr 1
    omega
  unfold Relation.foldWith
  simp only
  rw [length_foldChunks, hWF.2]
  exact numChunks_exact _ _ _ hstep hsplit

/-- allTups enumerates every valid tuple of the given length, in flat
index order. -/
def allTups (sz n : Nat) : List (List Nat) := (List.range (sz ^ n)).map (digitsLE sz n)

theorem mem_allTups (sz n : Nat) (hsz : 0 < sz) (z : List Nat) :
    z ∈ allTups sz n ↔ Tup sz n z := by
  constructor
  · intro hz
    obtain ⟨q, hq, rfl⟩ := List.mem_map.mp hz
    exact tup_digitsLE sz n q hsz
  · intro hz
    apply List.mem_map.mpr
    refine ⟨encodeTup sz z, ?_, ?_⟩
    · apply List.mem_range.mpr
      have := encodeTup_lt sz z hz.2
      rwa [hz.1] at this
    · exact digitsLE_encodeTup sz n z hz.1 hz.2

theorem drop_take_eq_map_range {α : Type} (tbl : List α) (d : α) (a b : Nat)
    (h : a + b ≤ tbl.length) :
    (tbl.drop a).take b = (List.range b).map (fun q => tbl.getD (a + q) d) := by
  have hlen : ((tbl.drop a).take b).length = b := by
    simp
    omega
  have heq := map_getD_range ((tbl.drop a).take b) d
  rw [hlen] at heq
  rw [← heq]
  apply List.map_congr_left
  intro q hq
  rw [getD_take _ _ _ _ (List.mem_range.mp hq), getD_drop]

/-- cell_foldWith: the folded cell at a remaining tuple y is the combinator
applied to the list of source cells over all tuples z of the collapsed
leading coordinates. -/
theorem Relation.cell_foldWith (R : Relation) (g : List Bool → Bool) (count : Nat)
    (hWF : R.WF) (hc : count ≤ R.arity) (y : List Nat)
    (hy : Tup R.size (R.arity - count) y) :
    (R.foldWith g count).cell y = g ((allTups R.size count).map (fun z => R.cell (z ++ y))) := by
  obtain ⟨hylen, hymem⟩ := hy
  have hsz : 0 < R.size := hWF.1
  have hstep : 0 < R.size ^ count := Nat.pos_pow_of_pos count hsz
  have hency : encodeTup R.size y < R.size ^ (R.arity - count) := by
    have := encodeTup_lt R.size y hymem
    rwa [hylen] at this
  have hsplit : R.size ^ R.arity = R.size ^ count * R.size ^ (R.arity - count) := by
    rw [← pow_add]
    congr 1
    omega
  have hblock : encodeTup R.size y * R.size ^ count + R.size ^ count ≤ R.table.length := by
    rw [hWF.2, hsplit]
    have h1 : encodeTup R.size y + 1 ≤ R.size ^ (R.arity - count) := hency
    calc encodeTup R.size y * R.size ^ count + R.size ^ count
        = (encodeTup R.size y + 1) * R.size ^ count := by ring
    _ ≤ R.size ^ (R.arity - count) * R.size ^ count := Nat.mul_le_mul_right _ h1
    _ = R.size ^ count * R.size ^ (R.arity - count) := Nat.mul_comm _ _
  have hnum : (R.table.length + R.size ^ count - 1) / R.size ^ count
      = R.size ^ (R.arity - count) := by
    rw [hWF.2]
    exact numChunks_exact _ _ _ hstep hsplit
  unfold Relation.foldWith Relation.cell
  simp only
  unfold foldChunks
  rw [getD_map_range _ _ _ _ (by rw [hnum]; exact hency),
    drop_take_eq_map_range _ false _ _ hblock]
  congr 1
  unfold allTups
  rw [List.map_map]
  apply List.map_congr_left
  intro q hq
  have hqlt : q < R.size ^ count := List.mem_range.mp hq
  simp only [Function.comp_apply]
  rw [encodeTup_append, length_digitsLE, encodeTup_digitsLE R.size count q hqlt]
  congr 1
  ring

theorem Relation.cell_fold_any (R : Relation) (count : Nat) (hWF : R.WF)
    (hc : count ≤ R.arity) (y : List Nat) (hy : Tup R.size (R.arity - count) y) :
    ((R.fold_any count).cell y = true)
      ↔ ∃ z, Tup R.size count z ∧ R.cell (z ++ y) = true := by
  rw [Relation.fold_any, Relation.cell_foldWith R anyB count hWF hc y hy]
  unfold anyB
  constructor
  · intro h
    obtain ⟨b, hb, hbt⟩ := List.any_eq_true.mp h
    obtain ⟨z, hz, rfl⟩ := List.mem_map.mp hb
    exact ⟨z, (mem_allTups _ _ hWF.1 z).mp hz, by simpa using hbt⟩
  · rintro ⟨z, hz, hcz⟩
    apply List.any_eq_true.mpr
    exact ⟨R.cell (z ++ y), List.mem_map.mpr ⟨z, (mem_allTups _ _ hWF.1 z).mpr hz, rfl⟩,
      by simpa using hcz⟩

theorem Relation.cell_fold_all (R : Relation) (count : Nat) (hWF : R.WF)
    (hc : count ≤ R.arity) (y : List Nat) (hy : Tup R.size (R.arity - count) y) :
    ((R.fold_all count).cell y = true)
      ↔ ∀ z, Tup R.size count z → R.cell (z ++ y) = true := by
  rw [Relation.fold_all, Relation.cell_foldWith R allB count hWF hc y hy]
  unfold allB
  constructor
  · intro h z hz
    have := List.all_eq_true.mp h (R.cell (z ++ y))
      (List.mem_map.mpr ⟨z, (mem_allTups _ _ hWF.1 z).mpr hz, rfl⟩)
    simpa using this
  · intro h
    apply List.all_eq_true.mpr
    intro b hb
    obtain ⟨z, hz, rfl⟩ := List.mem_map.mp hb
    simpa using h z ((mem_allTups _ _ hWF.1 z).mp hz)

theorem Relation.cell_fold_one (R : Relation) (count : Nat) (hWF : R.WF)
    (hc : count ≤ R.arity) (y : List Nat) (hy : Tup R.size (R.arity - count) y) :
    ((R.fold_one count).cell y = true)
      ↔ (allTups R.size count).countP (fun z => R.cell (z ++ y)) = 1 := by
  rw [Relation.fold_one, Relation.cell_foldWith R oneB count hWF hc y hy]
  unfold oneB
  rw [List.countP_map]
  have hfun : ((fun b => b) ∘ fun z => R.cell (z ++ y)) = fun z => R.cell (z ++ y) := rfl
  rw [hfun, beq_iff_eq]

theorem Relation.cell_fold_amo (R : Relation) (count : Nat) (hWF : R.WF)
    (hc : count ≤ R.arity) (y : List Nat) (hy : Tup R.size (R.arity - count) y) :
    ((R.fold_amo count).cell y = true)
      ↔ (allTups R.size count).countP (fun z => R.cell (z ++ y)) ≤ 1 := by
  rw [Relation.fold_amo, Relation.cell_foldWith R amoB count hWF hc y hy]
  unfold amoB
  rw [List.countP_map]
  have hfun : ((fun b => b) ∘ fun z => R.cell (z ++ y)) = fun z => R.cell (z ++ y) := rfl
  rw [hfun, decide_eq_true_eq]

@[simp] theorem Relation.size_foldWith (R : Relation) (g : List Bool → Bool) (count : Nat) :
    (R.foldWith g count).size = R.size := rfl

@[simp] theorem Relation.arity_foldWith (R : Relation) (g : List Bool → Bool) (count : Nat) :
    (R.foldWith g count).arity = R.arity - count := rfl

theorem Relation.wf_foldWith (R : Relation) (g : List Bool → Bool) (count : Nat)
    (hWF : R.WF) (hc : count ≤ R.arity) : (R.foldWith g count).WF :=
  ⟨hWF.1, by rw [Relation.length_table_foldWith R g count hWF hc]; rfl⟩

/-- product is the cartesian product of two relations over one size
(relation.py Relation.product), built from two polymers and an
intersection. -/
def Relation.product (A B : Relation) : Relation :=
  (A.polymer (List.range A.arity) (A.arity + B.arity)).and
    (B.polymer ((List.range B.arity).map (fun i => A.arity + i)) (A.arity + B.arity))

@[simp] theorem Relation.size_product (A B : Relation) : (A.product B).size = A.size := rfl

@[simp] theorem Relation.arity_product (A B : Relation) :
    (A.product B).arity = A.arity + B.arity := rfl

theorem Relation.length_table_product (A B : Relation) (hsz : B.size = A.size) :
    (A.product B).table.length = A.size ^ (A.arity + B.arity) := by
  unfold Relation.product
  rw [Relation.length_table_and _ _ (by simp [hsz])]
  simp

theorem Relation.wf_product (A B : Relation) (hA : 0 < A.size) (hsz : B.size = A.size) :
    (A.product B).WF :=
  ⟨hA, by rw [Relation.length_table_product A B hsz]; rfl⟩

theorem Relation.cell_product (A B : Relation) (hA : A.WF) (hB : B.WF)
    (hsz : B.size = A.size) (x : List Nat) (hx : Tup A.size (A.arity + B.arity) x) :
    (A.product B).cell x = (A.cell (x.take A.arity) && B.cell (x.drop A.arity)) := by
  unfold Relation.product
  rw [Relation.cell_and _ _ (Relation.wf_polymer A _ _ hA.1) (by simp [hsz]) (by simp)
    (by simp [hsz]) x hx]
  rw [Relation.cell_polymer A _ _ hA.1 (fun v hv => by
      have := List.mem_range.mp hv
      omega) x hx]
  rw [Relation.cell_polymer B _ _ hB.1 (fun v hv => by
      obtain ⟨i, hi, rfl⟩ := List.mem_map.mp hv
      have := List.mem_range.mp hi
      omega) x (by rw [hsz]; exact hx)]
  congr 1
  · congr 1
    rw [map_getD_range_take x A.arity 0 (by rw [hx.1]; omega)]
  · congr 1
    rw [List.map_map]
    have hdrop := map_getD_range_drop x A.arity 0
    rw [hx.1, show A.arity + B.arity - A.arity = B.arity by omega] at hdrop
    rw [← hdrop]
    apply List.map_congr_left
    intro i hi
    rfl

theorem Relation.cell_polymer_insert_zero (R : Relation) (hsz : 0 < R.size)
    (x : List Nat) (hx : Tup R.size (R.arity + 1) x) :
    (R.polymer_insert 0).cell x = R.cell (x.drop 1) := by
  unfold Relation.polymer_insert
  rw [Relation.cell_polymer R _ _ hsz (fun v hv => by
      obtain ⟨i, hi, rfl⟩ := List.mem_map.mp hv
      have := List.mem_range.mp hi
      split <;> omega) x hx]
  congr 1
  rw [List.map_map]
  have hdrop := map_getD_range_drop x 1 0
  rw [hx.1, show R.arity + 1 - 1 = R.arity by omega] at hdrop
  rw [← hdrop]
  apply List.map_congr_left
  intro i hi
  simp only [Function.comp_apply, Nat.not_lt_zero, if_false]
  rw [Nat.add_comm 1 i]

theorem Relation.cell_polymer_insert_one (R : Relation) (hsz : 0 < R.size)
    (har : 1 ≤ R.arity) (x : List Nat) (hx : Tup R.size (R.arity + 1) x) :
    (R.polymer_insert 1).cell x = R.cell (x.getD 0 0 :: x.drop 2) := by
  unfold Relation.polymer_insert
  rw [Relation.cell_polymer R _ _ hsz (fun v hv => by
      obtain ⟨i, hi, rfl⟩ := List.mem_map.mp hv
      have := List.mem_range.mp hi
      split <;> omega) x hx]
  congr 1
  rw [List.map_map]
  obtain ⟨t, ht⟩ : ∃ t, R.arity = t + 1 := ⟨R.arity - 1, by omega⟩
  rw [ht, List.range_succ_eq_map, List.map_cons, List.map_map]
  simp only [Function.comp_apply, Nat.lt_irrefl, Nat.zero_lt_one, if_true]
  congr 1
  have hdrop := map_getD_range_drop x 2 0
  rw [hx.1, ht, show t + 1 + 1 - 2 = t by omega] at hdrop
  rw [← hdrop]
  apply List.map_congr_left
  intro i hi
  have hcase : ¬ (i + 1 < 1) := by omega
  simp only [Function.comp_apply, hcase, if_false]
  congr 1
  omega

@[simp] theorem Relation.size_polymer_rotate (R : Relation) (off : Int) :
    (R.polymer_rotate off).size = R.size := by
  unfold Relation.polymer_rotate
  split <;> rfl

@[simp] theorem Relation.arity_polymer_rotate (R : Relation) (off : Int) :
    (R.polymer_rotate off).arity = R.arity := by
  unfold Relation.polymer_rotate
  split <;> rfl

theorem Relation.length_table_polymer_rotate (R : Relation) (off : Int) (hWF : R.WF) :
    (R.polymer_rotate off).table.length = R.size ^ R.arity := by
  unfold Relation.polymer_rotate
  split
  · exact hWF.2
  · simp

theorem Relation.wf_polymer_rotate (R : Relation) (off : Int) (hWF : R.WF) :
    (R.polymer_rotate off).WF :=
  ⟨by simpa using hWF.1, by
    rw [Relation.length_table_polymer_rotate R off hWF, Relation.size_polymer_rotate,
      Relation.arity_polymer_rotate]⟩

@[simp] theorem Relation.size_polymer_insert (R : Relation) (v : Nat) :
    (R.polymer_insert v).size = R.size := rfl

@[simp] theorem Relation.arity_polymer_insert (R : Relation) (v : Nat) :
    (R.polymer_insert v).arity = R.arity + 1 := rfl

theorem Relation.wf_polymer_insert (R : Relation) (v : Nat) (hsz : 0 < R.size) :
    (R.polymer_insert v).WF :=
  Relation.wf_polymer R _ _ hsz

theorem emod_rot_low (i j a : Nat) (hij : i < j) (hja : j ≤ a) :
    (((i : Int) + -(j : Int)) % (a : Int)).toNat = a - j + i := by
  have ha : 0 < a := by omega
  have hcast : ((a - j + i : Nat) : Int) = (i : Int) + -(j : Int) + (a : Int) := by
    push_cast [Nat.cast_sub hja]
    ring
  have h1 : (i : Int) + -(j : Int) = ((a - j + i : Nat) : Int) + (a : Int) * (-1) := by
    rw [hcast]
    ring
  rw [h1, Int.add_mul_emod_self_left,
    Int.emod_eq_of_lt (Int.natCast_nonneg _) (by exact_mod_cast (by omega : a - j + i < a))]
  exact Int.toNat_natCast _

theorem emod_rot_high (t j a : Nat) (hta : t < a) :
    ((((j + t : Nat) : Int) + -(j : Int)) % (a : Int)).toNat = t := by
  have h1 : (((j + t : Nat) : Int) + -(j : Int)) = ((t : Nat) : Int) := by
    push_cast
    ring
  rw [h1, Int.emod_eq_of_lt (Int.natCast_nonneg _) (by exact_mod_cast hta)]
  exact Int.toNat_natCast _

/-- cell_polymer_rotate_neg: rotating by a negative offset j moves the
last j coordinates of the target tuple to the front of the tuple read by
the source. -/
theorem Relation.cell_polymer_rotate_neg (R : Relation) (j : Nat) (hj : j ≤ R.arity)
    (hsz : 0 < R.size) (x : List Nat) (hx : Tup R.size R.arity x) :
    (R.polymer_rotate (-(j : Int))).cell x
      = R.cell (x.drop (R.arity - j) ++ x.take (R.arity - j)) := by
  by_cases hguard : (-(j : Int)) % (R.arity : Int) = 0
  · have hid : x.drop (R.arity - j) ++ x.take (R.arity - j) = x := by
      have hdvd : (R.arity : Int) ∣ (-(j : Int)) := Int.dvd_of_emod_eq_zero hguard
      have hdvd2 : R.arity ∣ j := Int.natCast_dvd_natCast.mp (dvd_neg.mp hdvd)
      rcases Nat.eq_zero_or_pos R.arity with haz | hap
      · have hj0 : j = 0 := by omega
        subst hj0
        have hx0 : x = [] := List.eq_nil_of_length_eq_zero (by rw [hx.1, haz])
        subst hx0
        simp
      · have hcase : j = 0 ∨ j = R.arity := by
          rcases Nat.lt_or_ge j R.arity with h | h
          · left
            exact Nat.eq_zero_of_dvd_of_lt hdvd2 h
          · right
            omega
        rcases hcase with h | h
        · subst h
          rw [Nat.sub_zero, ← hx.1, List.drop_length, List.take_length, List.nil_append]
        · subst h
          rw [Nat.sub_self, List.drop_zero, List.take_zero, List.append_nil]
    unfold Relation.polymer_rotate
    rw [if_pos (beq_iff_eq.mpr hguard), hid]
  · have hjpos : 0 < j := by
      by_contra h
      have hj0 : j = 0 := by omega
      subst hj0
      simp at hguard
    have hjlt : j < R.arity := by
      rcases Nat.lt_or_ge j R.arity with h | h
      · exact h
      · exfalso
        have hje : j = R.arity := by omega
        apply hguard
        rw [← hje, show (-(j : Int)) = (j : Int) * (-1) by ring, Int.mul_emod_right]
    have hap : 0 < R.arity := by omega
    unfold Relation.polymer_rotate
    rw [if_neg (by simpa using hguard)]
    rw [Relation.cell_polymer R _ _ hsz (fun v hv => by
        obtain ⟨i, hi, rfl⟩ := List.mem_map.mp hv
        have h1 : (0 : Int) ≤ ((i : Int) + -(j : Int)) % (R.arity : Int) :=
          Int.emod_nonneg _ (by exact_mod_cast Nat.pos_iff_ne_zero.mp hap)
        have h2 : ((i : Int) + -(j : Int)) % (R.arity : Int) < (R.arity : Int) :=
          Int.emod_lt_of_pos _ (by exact_mod_cast hap)
        omega) x hx]
    rw [List.map_map]
    rw [show R.arity = j + (R.arity - j) from by omega] at hx ⊢
    rw [List.range_add, List.map_append, List.map_map]
    congr 1
    rw [show j + (R.arity - j) - j = R.arity - j from by omega]
    congr 1
    · have hdrop := map_getD_range_drop x (R.arity - j) 0
      rw [hx.1, show j + (R.arity - j) - (R.arity - j) = j from by omega] at hdrop
      rw [← hdrop]
      apply List.map_congr_left
      intro i hi
      have hij : i < j := List.mem_range.mp hi
      simp only [Function.comp_apply]
      rw [emod_rot_low i j (j + (R.arity - j)) hij (by omega),
        show j + (R.arity - j) - j = R.arity - j from by omega]
    · rw [← map_getD_range_take x (R.arity - j) 0 (by rw [hx.1]; omega)]
      apply List.map_congr_left
      intro t ht
      have hta : t < R.arity - j := List.mem_range.mp ht
      simp only [Function.comp_apply]
      rw [emod_rot_high t j (j + (R.arity - j)) (by omega)]

theorem tup_getD_lt (sz n : Nat) (x : List Nat) (h : Tup sz n x) (i : Nat) (hi : i < n) :
    x.getD i 0 < sz := by
  have hi2 : i < x.length := by rw [h.1]; exact hi
  rw [List.getD_eq_getElem x 0 hi2]
  exact h.2 _ (List.getElem_mem hi2)

theorem tup_take (sz n m : Nat) (x : List Nat) (h : Tup sz n x) (hm : m ≤ n) :
    Tup sz m (x.take m) :=
  ⟨by rw [List.length_take, h.1]; omega,
   fun c hc => h.2 c (List.mem_of_mem_take hc)⟩

theorem tup_drop (sz n m : Nat) (x : List Nat) (h : Tup sz n x) :
    Tup sz (n - m) (x.drop m) :=
  ⟨by rw [List.length_drop, h.1],
   fun c hc => h.2 c (List.mem_of_mem_drop hc)⟩

theorem tup_append (sz a b : Nat) (xs ys : List Nat) (hx : Tup sz a xs) (hy : Tup sz b ys) :
    Tup sz (a + b) (xs ++ ys) :=
  ⟨by rw [List.length_append, hx.1, hy.1],
   fun c hc => (List.mem_append.mp hc).elim (hx.2 c) (hy.2 c)⟩

theorem tup_cons (sz n c : Nat) (x : List Nat) (hc : c < sz) (hx : Tup sz n x) :
    Tup sz (n + 1) (c :: x) :=
  ⟨by rw [List.length_cons, hx.1], fun d hd => by
    rcases List.mem_cons.mp hd with h | h
    · omega
    · exact hx.2 d h⟩

theorem take_one_eq_getD (x : List Nat) (h : 0 < x.length) : x.take 1 = [x.getD 0 0] := by
  cases x with
  | nil => simp at h
  | cons c cs => simp

theorem take_succ_drop_self (x : List Nat) (a : Nat) (h : a < x.length) :
    (x.take (a + 1)).drop a = [x.getD a 0] := by
  rw [List.drop_take, show a + 1 - a = 1 from by omega,
    drop_take_eq_map_range x 0 a 1 (by omega), List.range_succ]
  simp

/-- pyRange start stop step lists the elements of the python expression
range(start, stop, step) for a positive step. -/
def pyRange (start stop step : Nat) : List Nat :=
  (List.range ((stop - start + step - 1) / step)).map (fun t => start + t * step)

/-- junkRel is the placeholder value produced by list accesses that the
source asserts to be in range. -/
def junkRel : Relation := ⟨1, 0, [false]⟩

/-- evaluate_n1 handles operation arity 1 by an iterated product
(relation.py Relation._evaluate_n1); self is unused beyond the asserts. -/
def Relation.evaluate_n1 (R : Relation) (opers : List Relation) : Relation :=
  (opers.drop 1).foldl (fun rel oper => rel.product oper) (opers.getD 0 junkRel)

/-- loop1m is the while loop of _evaluate_1m with explicit fuel; the loop
shrinks the operation arity by one per iteration, so any fuel at least the
starting arity runs it to completion. -/
def Relation.loop1m (R : Relation) : Nat → Relation → Relation
  | 0, oper => oper
  | fuel + 1, oper =>
    if 1 < oper.arity then
      Relation.loop1m R fuel ((oper.and (R.polymer [0] oper.arity)).fold_any 1)
    else oper

/-- evaluate_1m handles relation arity 1 (relation.py
Relation._evaluate_1m). -/
def Relation.evaluate_1m (R : Relation) (oper : Relation) : Relation :=
  R.loop1m (oper.polymer_rotate (-(1 : Int))).arity (oper.polymer_rotate (-(1 : Int)))

/-- stepN2 is the loop body of _evaluate_n2: insert a fresh leading
coordinate, intersect with the operation graph on the first two
coordinates, rotate by -1 and fold the leading coordinate away. -/
def stepN2 (oper rel : Relation) : Relation :=
  (((rel.polymer_insert 0).and
    (oper.polymer [0, 1] (rel.polymer_insert 0).arity)).polymer_rotate
      (-(1 : Int))).fold_any 1

/-- evaluate_n2 handles operation arity 2 (relation.py
Relation._evaluate_n2): one stepN2 round per operation. -/
def Relation.evaluate_n2 (R : Relation) (opers : List Relation) : Relation :=
  opers.foldl (fun rel oper => stepN2 oper rel) R

/-- loop2m is the counted inner loop of _evaluate_2m. -/
def Relation.loop2m (rel : Relation) : Relation → Nat → Relation
  | test, 0 => test
  | test, n + 1 =>
    Relation.loop2m rel
      ((((test.polymer_insert 1).and rel).fold_any 1).polymer_rotate (-(1 : Int))) n

/-- evaluate_2m handles relation arity 2 (relation.py
Relation._evaluate_2m). -/
def Relation.evaluate_2m (R oper0 oper1 : Relation) : Relation :=
  (((((Relation.loop2m (R.polymer [0, 1] (oper0.arity + 1))
      (oper0.polymer_rotate (-(1 : Int))) (oper0.arity - 1)).polymer_insert 1).and
    (oper1.polymer_insert 0)).polymer_rotate (-(2 : Int))).fold_any (oper0.arity - 1))

/-- stepN3 is the loop body of _evaluate_n3: like stepN2 but intersecting
with a ternary graph and folding two leading coordinates away. -/
def stepN3 (oper rel : Relation) : Relation :=
  (((rel.polymer_insert 0).and
    (oper.polymer [0, 1, 2] (rel.polymer_insert 0).arity)).polymer_rotate
      (-(1 : Int))).fold_any 2

/-- evaluate_n3 handles operation arity 3 (relation.py
Relation._evaluate_n3): the seed is the conjunction of two interleaved
copies of self, then one stepN3 round per operation. -/
def Relation.evaluate_n3 (R : Relation) (opers : List Relation) : Relation :=
  opers.foldl (fun rel oper => stepN3 oper rel)
    ((R.polymer (pyRange 0 (2 * R.arity) 2) (2 * R.arity)).and
      (R.polymer (pyRange 1 (2 * R.arity) 2) (2 * R.arity)))

/-- evaluate_nm is the generic fallback (relation.py Relation._evaluate_nm):
an intermediate table of arity k*m intersected with every operation graph
and with m - 1 copies of self, then rotated and folded. -/
def Relation.evaluate_nm (R : Relation) (opers : List Relation) : Relation :=
  let oper_arity := (opers.getD 0 junkRel).arity
  let rel0 := Relation.new_full R.size (R.arity * oper_arity)
  let rel1 := opers.enum.foldl (fun rel p =>
    rel.and (p.2.polymer (pyRange p.1 rel.arity R.arity) rel.arity)) rel0
  let rel2 := (pyRange R.arity rel1.arity R.arity).foldl (fun rel idx =>
    rel.and (R.polymer (pyRange idx (idx + R.arity) 1) rel.arity)) rel1
  ((rel2.polymer_rotate (-(R.arity : Int))).fold_any (R.arity * (oper_arity - 1)))

/-- evaluate is the dispatching entry point (relation.py
Relation.evaluate); the final branch models the NotImplementedError
raise. -/
def Relation.evaluate (R : Relation) (operations : List Relation) : Except Unit Relation :=
  let oper_arity := (operations.getD 0 junkRel).arity
  if oper_arity == 1 then Except.ok (R.evaluate_n1 operations)
  else if R.arity == 1 then Except.ok (R.evaluate_1m (operations.getD 0 junkRel))
  else if oper_arity == 2 then Except.ok (R.evaluate_n2 operations)
  else if R.arity == 2 then Except.ok
    (R.evaluate_2m (operations.getD 0 junkRel) (operations.getD 1 junkRel))
  else if oper_arity == 3 then Except.ok (R.evaluate_n3 operations)
  else Except.error ()

/-- EvalSpec is the image semantics of evaluate over operation-graph
relations of arity m: E(y) holds iff there are m - 1 tuples, each related
by R, such that for every coordinate i the i-th graph relates y_i (output
coordinate first) to the i-th entries of those tuples. -/
def EvalSpec (R : Relation) (opers : List Relation) (m : Nat) (y : List Nat) : Prop :=
  ∃ vs : List (List Nat), vs.length = m - 1 ∧
    (∀ v ∈ vs, Tup R.size R.arity v ∧ R.cell v = true) ∧
    ∀ i < R.arity, (opers.getD i junkRel).cell
      (y.getD i 0 :: vs.map (fun v => v.getD i 0)) = true

theorem foldl_product_shape (os : List Relation) :
    ∀ (acc : Relation), acc.WF → (∀ o ∈ os, o.WF ∧ o.size = acc.size) →
      (os.foldl (fun rel oper => rel.product oper) acc).size = acc.size ∧
      (os.foldl (fun rel oper => rel.product oper) acc).arity
        = acc.arity + (os.map Relation.arity).sum ∧
      (os.foldl (fun rel oper => rel.product oper) acc).WF := by
  induction os with
  | nil =>
    intro acc hacc hos
    exact ⟨rfl, by simp, hacc⟩
  | cons o os ih =>
    intro acc hacc hos
    have ho := hos o (List.mem_cons_self _ _)
    have hacc2 : (acc.product o).WF := Relation.wf_product acc o hacc.1 ho.2
    have hos2 : ∀ p ∈ os, p.WF ∧ p.size = (acc.product o).size := fun p hp =>
      ⟨(hos p (List.mem_cons_of_mem _ hp)).1, (hos p (List.mem_cons_of_mem _ hp)).2⟩
    obtain ⟨h1, h2, h3⟩ := ih (acc.product o) hacc2 hos2
    refine ⟨by rw [List.foldl_cons, h1]; rfl, ?_, by rw [List.foldl_cons]; exact h3⟩
    rw [List.foldl_cons, h2, Relation.arity_product, List.map_cons, List.sum_cons]
    omega

theorem foldl_product_cell (os : List Relation) :
    ∀ (acc : Relation) (x : List Nat), acc.WF →
      (∀ o ∈ os, o.WF ∧ o.size = acc.size ∧ o.arity = 1) →
      Tup acc.size (acc.arity + os.length) x →
      ((os.foldl (fun rel oper => rel.product oper) acc).cell x = true ↔
        (acc.cell (x.take acc.arity) = true ∧
          ∀ i < os.length, (os.getD i junkRel).cell [x.getD (acc.arity + i) 0] = true)) := by
  induction os with
  | nil =>
    intro acc x hacc hos hx
    have hxx : x.take acc.arity = x := by
      have hxl : x.length = acc.arity := by simpa using hx.1
      rw [← hxl, List.take_length]
    simp only [List.foldl_nil, hxx, List.length_nil]
    constructor
    · intro h
      exact ⟨h, fun i hi => by omega⟩
    · intro h
      exact h.1
  | cons o os ih =>
    intro acc x hacc hos hx
    have ho := hos o (List.mem_cons_self _ _)
    have hacc2 : (acc.product o).WF := Relation.wf_product acc o hacc.1 ho.2.1
    have harx : (acc.product o).arity = acc.arity + 1 := by
      rw [Relation.arity_product, ho.2.2]
    have hos2 : ∀ p ∈ os, p.WF ∧ p.size = (acc.product o).size ∧ p.arity = 1 := fun p hp =>
      ⟨(hos p (List.mem_cons_of_mem _ hp)).1, (hos p (List.mem_cons_of_mem _ hp)).2.1,
        (hos p (List.mem_cons_of_mem _ hp)).2.2⟩
    have hxlen : x.length = acc.arity + (os.length + 1) := by
      rw [hx.1]
      simp
    have hx2 : Tup (acc.product o).size ((acc.product o).arity + os.length) x := by
      rw [harx, Relation.size_product]
      exact ⟨by rw [hxlen]; omega, hx.2⟩
    rw [List.foldl_cons, ih (acc.product o) x hacc2 hos2 hx2]
    have htk : Tup acc.size (acc.arity + o.arity) (x.take (acc.arity + 1)) := by
      rw [ho.2.2]
      exact tup_take _ _ _ x hx (by simp)
    have hprod := Relation.cell_product acc o hacc ho.1 ho.2.1 (x.take (acc.arity + 1)) htk
    have htt : (x.take (acc.arity + 1)).take acc.arity = x.take acc.arity := by
      rw [List.take_take]
      congr 1
      omega
    have htd : (x.take (acc.arity + 1)).drop acc.arity = [x.getD acc.arity 0] :=
      take_succ_drop_self x acc.arity (by rw [hxlen]; omega)
    rw [harx, hprod, htt, htd, Bool.and_eq_true]
    constructor
    · rintro ⟨⟨h1, h2⟩, h3⟩
      refine ⟨h1, fun i hi => ?_⟩
      cases i with
      | zero => simpa using h2
      | succ i =>
        have := h3 i (by simpa using hi)
        rw [List.getD_cons_succ]
        rw [show acc.arity + (i + 1) = acc.arity + 1 + i from by omega]
        exact this
    · rintro ⟨h1, h2⟩
      refine ⟨⟨h1, by simpa using h2 0 (by simp)⟩, fun i hi => ?_⟩
      have := h2 (i + 1) (by simpa using Nat.add_lt_add_right hi 1)
      rw [List.getD_cons_succ] at this
      rw [show acc.arity + 1 + i = acc.arity + (i + 1) from by omega]
      exact this

theorem shape_evaluate_n1 (R : Relation) (opers : List Relation)
    (hlen : opers.length = R.arity) (hk : 1 ≤ R.arity) (hWF : R.WF)
    (hops : ∀ o ∈ opers, o.WF ∧ o.size = R.size ∧ o.arity = 1) :
    (R.evaluate_n1 opers).size = R.size ∧ (R.evaluate_n1 opers).arity = R.arity ∧
      (R.evaluate_n1 opers).WF := by
  cases opers with
  | nil => simp at hlen; omega
  | cons o0 rest =>
    have ho0 := hops o0 (List.mem_cons_self _ _)
    have hrest : ∀ o ∈ rest, o.WF ∧ o.size = o0.size := fun o hm =>
      ⟨(hops o (List.mem_cons_of_mem _ hm)).1, by
        rw [(hops o (List.mem_cons_of_mem _ hm)).2.1, ho0.2.1]⟩
    have hsum : (rest.map Relation.arity).sum = rest.length := by
      clear hlen
      induction rest with
      | nil => rfl
      | cons p ps ih =>
        rw [List.map_cons, List.sum_cons, List.length_cons,
          (hops p (by simp)).2.2, ih (fun o hm => hops o (by
            rcases List.mem_cons.mp hm with h | h
            · exact h ▸ List.mem_cons_self _ _
            · exact List.mem_cons_of_mem _ (List.mem_cons_of_mem _ h)))
          (fun o hm => hrest o (List.mem_cons_of_mem _ hm))]
        omega
    unfold Relation.evaluate_n1
    simp only [List.getD_cons_zero, List.drop_succ_cons, List.drop_zero]
    obtain ⟨h1, h2, h3⟩ := foldl_product_shape rest o0 ho0.1 hrest
    refine ⟨by rw [h1, ho0.2.1], ?_, h3⟩
    rw [h2, hsum, ho0.2.2]
    have : rest.length + 1 = R.arity := by simpa using hlen
    omega

theorem cell_evaluate_n1 (R : Relation) (opers : List Relation)
    (hlen : opers.length = R.arity) (hk : 1 ≤ R.arity) (hWF : R.WF)
    (hops : ∀ o ∈ opers, o.WF ∧ o.size = R.size ∧ o.arity = 1)
    (y : List Nat) (hy : Tup R.size R.arity y) :
    ((R.evaluate_n1 opers).cell y = true) ↔ EvalSpec R opers 1 y := by
  cases opers with
  | nil =>
    exfalso
    simp at hlen
    omega
  | cons o0 rest =>
    have ho0 := hops o0 (List.mem_cons_self _ _)
    have hrlen : rest.length + 1 = R.arity := by simpa using hlen
    have hrest : ∀ o ∈ rest, o.WF ∧ o.size = o0.size ∧ o.arity = 1 := fun o hm =>
      ⟨(hops o (List.mem_cons_of_mem _ hm)).1,
       by rw [(hops o (List.mem_cons_of_mem _ hm)).2.1, ho0.2.1],
       (hops o (List.mem_cons_of_mem _ hm)).2.2⟩
    have hycast : Tup o0.size (o0.arity + rest.length) y := by
      rw [ho0.2.1, ho0.2.2]
      exact ⟨by rw [hy.1]; omega, hy.2⟩
    unfold Relation.evaluate_n1
    simp only [List.getD_cons_zero, List.drop_succ_cons, List.drop_zero]
    rw [foldl_product_cell rest o0 y ho0.1 hrest hycast]
    have htake1 : y.take o0.arity = [y.getD 0 0] := by
      rw [ho0.2.2]
      exact take_one_eq_getD y (by rw [hy.1]; omega)
    rw [htake1]
    unfold EvalSpec
    constructor
    · rintro ⟨h0, hr⟩
      refine ⟨[], rfl, by simp, fun i hi => ?_⟩
      cases i with
      | zero => simpa using h0
      | succ i =>
        have hi2 : i < rest.length := by omega
        have := hr i hi2
        rw [ho0.2.2] at this
        rw [List.getD_cons_succ, List.map_nil]
        rw [show i + 1 = 1 + i from by omega]
        exact this
    · rintro ⟨vs, hvlen, hvmem, hcell⟩
      have hvs : vs = [] := List.length_eq_zero.mp (by simpa using hvlen)
      subst hvs
      constructor
      · have := hcell 0 (by omega)
        simpa using this
      · intro i hi
        have := hcell (i + 1) (by omega)
        rw [List.getD_cons_succ, List.map_nil] at this
        rw [ho0.2.2, show 1 + i = i + 1 from by omega]
        exact this

theorem cell_loop1m (R : Relation) (hR : R.WF) (hR1 : R.arity = 1) :
    ∀ (fuel : Nat) (T : Relation), T.WF → T.size = R.size → 1 ≤ T.arity →
      T.arity ≤ fuel + 1 →
      (Relation.loop1m R fuel T).size = R.size ∧ (Relation.loop1m R fuel T).arity = 1 ∧
      (Relation.loop1m R fuel T).WF ∧
      ∀ y, Tup R.size 1 y →
        ((Relation.loop1m R fuel T).cell y = true ↔
          ∃ zs, Tup R.size (T.arity - 1) zs ∧ (∀ z ∈ zs, R.cell [z] = true) ∧
            T.cell (zs ++ y) = true) := by
  intro fuel
  induction fuel with
  | zero =>
    intro T hT hTsz hT1 hTf
    have ht1 : T.arity = 1 := by omega
    unfold Relation.loop1m
    refine ⟨by rw [hTsz], ht1, hT, fun y hy => ?_⟩
    constructor
    · intro h
      refine ⟨[], by rw [ht1]; exact ⟨rfl, by simp⟩, by simp, by simpa using h⟩
    · rintro ⟨zs, hzs, hzmem, hcell⟩
      have hzs0 : zs = [] := List.length_eq_zero.mp (by rw [hzs.1, ht1])
      subst hzs0
      simpa using hcell
  | succ fuel ih =>
    intro T hT hTsz hT1 hTf
    by_cases hguard : 1 < T.arity
    · have hP : (R.polymer [0] T.arity).WF := Relation.wf_polymer R _ _ hR.1
      have hlenP : (R.polymer [0] T.arity).table.length = T.table.length := by
        rw [Relation.length_table_polymer, hT.2, hTsz]
      have hand : (T.and (R.polymer [0] T.arity)).WF :=
        ⟨hT.1, by rw [Relation.length_table_and _ _ hlenP, hT.2]; rfl⟩
      have hT2 : ((T.and (R.polymer [0] T.arity)).fold_any 1).WF :=
        Relation.wf_foldWith _ _ _ hand (le_of_lt hguard)
      have hT2sz : ((T.and (R.polymer [0] T.arity)).fold_any 1).size = R.size := by
        rw [Relation.fold_any, Relation.size_foldWith, Relation.size_and, hTsz]
      have hT2ar : ((T.and (R.polymer [0] T.arity)).fold_any 1).arity = T.arity - 1 := rfl
      have step := ih ((T.and (R.polymer [0] T.arity)).fold_any 1) hT2 hT2sz
        (by rw [hT2ar]; omega) (by rw [hT2ar]; omega)
      unfold Relation.loop1m
      rw [if_pos hguard]
      refine ⟨step.1, step.2.1, step.2.2.1, fun y hy => ?_⟩
      rw [step.2.2.2 y hy, hT2ar]
      have hcells : ∀ zs, Tup R.size (T.arity - 1 - 1) zs →
          (((T.and (R.polymer [0] T.arity)).fold_any 1).cell (zs ++ y) = true ↔
            ∃ c, c < R.size ∧ T.cell (c :: (zs ++ y)) = true ∧ R.cell [c] = true) := by
        intro zs hzs
        have hzy : Tup T.size (T.arity - 1) (zs ++ y) := by
          have h2 := tup_append R.size (T.arity - 1 - 1) 1 zs y hzs hy
          rw [hTsz]
          rwa [show T.arity - 1 - 1 + 1 = T.arity - 1 from by omega] at h2
        have hfold := Relation.cell_fold_any (T.and (R.polymer [0] T.arity)) 1 hand
          (by rw [Relation.arity_and]; omega) (zs ++ y) hzy
        rw [hfold]
        constructor
        · rintro ⟨z, hz, hcz⟩
          obtain ⟨c, rfl⟩ : ∃ c, z = [c] := by
            cases z with
            | nil => exact absurd hz.1 (by simp)
            | cons c cs =>
              cases cs with
              | nil => exact ⟨c, rfl⟩
              | cons d ds => exact absurd hz.1 (by simp)
          have hc : c < T.size := hz.2 c (by simp)
          have hx : Tup T.size T.arity (c :: (zs ++ y)) := by
            have := tup_cons T.size (T.arity - 1) c (zs ++ y) hc hzy
            rwa [show T.arity - 1 + 1 = T.arity from by omega] at this
          rw [List.cons_append, List.nil_append] at hcz
          rw [Relation.cell_and T (R.polymer [0] T.arity) hT
            (by rw [Relation.size_polymer, hTsz]) rfl hlenP _ hx,
            Bool.and_eq_true] at hcz
          refine ⟨c, by rwa [hTsz] at hc, hcz.1, ?_⟩
          have hpc := Relation.cell_polymer R [0] T.arity hR.1
            (by intro v hv; simp at hv; omega) (c :: (zs ++ y)) (by rwa [← hTsz])
          rw [hpc] at hcz
          simpa using hcz.2
        · rintro ⟨c, hc, hTc, hRc⟩
          refine ⟨[c], ⟨by simp, ?_⟩, ?_⟩
          · intro d hd
            simp at hd
            rw [hd]
            show c < T.size
            rwa [hTsz]
          rw [List.cons_append, List.nil_append]
          have hx : Tup T.size T.arity (c :: (zs ++ y)) := by
            have := tup_cons T.size (T.arity - 1) c (zs ++ y) (by rwa [hTsz]) hzy
            rwa [show T.arity - 1 + 1 = T.arity from by omega] at this
          rw [Relation.cell_and T (R.polymer [0] T.arity) hT
            (by rw [Relation.size_polymer, hTsz]) rfl hlenP _ hx, Bool.and_eq_true]
          refine ⟨hTc, ?_⟩
          have hpc := Relation.cell_polymer R [0] T.arity hR.1
            (by intro v hv; simp at hv; omega) (c :: (zs ++ y)) (by rwa [← hTsz])
          rw [hpc]
          simpa using hRc
      constructor
      · rintro ⟨zs, hzs, hzmem, hcell⟩
        obtain ⟨c, hc, hTc, hRc⟩ := (hcells zs hzs).mp hcell
        refine ⟨c :: zs, ?_, ?_, ?_⟩
        · have := tup_cons R.size (T.arity - 1 - 1) c zs hc hzs
          exact ⟨by rw [this.1]; omega, this.2⟩
        · intro z hz
          rcases List.mem_cons.mp hz with h | h
          · exact h ▸ hRc
          · exact hzmem z h
        · rwa [List.cons_append]
      · rintro ⟨zs, hzs, hzmem, hcell⟩
        obtain ⟨c, zs2, rfl⟩ : ∃ c zs2, zs = c :: zs2 := by
          cases zs with
          | nil =>
            exfalso
            have := hzs.1
            simp at this
            omega
          | cons c zs2 => exact ⟨c, zs2, rfl⟩
        have hzs2 : Tup R.size (T.arity - 1 - 1) zs2 :=
          ⟨by have := hzs.1; simp at this; omega,
           fun d hd => hzs.2 d (List.mem_cons_of_mem _ hd)⟩
        refine ⟨zs2, hzs2, fun z hz => hzmem z (List.mem_cons_of_mem _ hz), ?_⟩
        apply (hcells zs2 hzs2).mpr
        refine ⟨c, hzs.2 c (List.mem_cons_self _ _), by rwa [List.cons_append] at hcell,
          hzmem c (List.mem_cons_self _ _)⟩
    · have ht1 : T.arity = 1 := by omega
      unfold Relation.loop1m
      rw [if_neg hguard]
      refine ⟨by rw [hTsz], ht1, hT, fun y hy => ?_⟩
      constructor
      · intro h
        refine ⟨[], by rw [ht1]; exact ⟨rfl, by simp⟩, by simp, by simpa using h⟩
      · rintro ⟨zs, hzs, hzmem, hcell⟩
        have hzs0 : zs = [] := List.length_eq_zero.mp (by rw [hzs.1, ht1])
        subst hzs0
        simpa using hcell

theorem map_singleton_getD (zs : List Nat) :
    (zs.map (fun z => [z])).map (fun v => v.getD 0 0) = zs := by
  induction zs with
  | nil => rfl
  | cons z zs ih =>
    rw [List.map_cons, List.map_cons, ih]
    rfl

theorem shape_evaluate_1m (R oper : Relation) (hR : R.WF) (hR1 : R.arity = 1)
    (ho : oper.WF) (hosz : oper.size = R.size) (hm : 1 ≤ oper.arity) :
    (R.evaluate_1m oper).size = R.size ∧ (R.evaluate_1m oper).arity = R.arity ∧
      (R.evaluate_1m oper).WF := by
  have hrotWF : (oper.polymer_rotate (-(1 : Int))).WF := Relation.wf_polymer_rotate oper _ ho
  have hrotsz : (oper.polymer_rotate (-(1 : Int))).size = R.size := by
    rw [Relation.size_polymer_rotate, hosz]
  have hrotar : (oper.polymer_rotate (-(1 : Int))).arity = oper.arity :=
    Relation.arity_polymer_rotate oper _
  have hloop := cell_loop1m R hR hR1 (oper.polymer_rotate (-(1 : Int))).arity
    (oper.polymer_rotate (-(1 : Int))) hrotWF hrotsz (by rw [hrotar]; exact hm) (by omega)
  unfold Relation.evaluate_1m
  exact ⟨hloop.1, by rw [hloop.2.1, hR1], hloop.2.2.1⟩

theorem cell_evaluate_1m (R oper : Relation) (hR : R.WF) (hR1 : R.arity = 1)
    (ho : oper.WF) (hosz : oper.size = R.size) (hm : 1 ≤ oper.arity)
    (y : List Nat) (hy : Tup R.size 1 y) :
    ((R.evaluate_1m oper).cell y = true) ↔ EvalSpec R [oper] oper.arity y := by
  have hrotWF : (oper.polymer_rotate (-(1 : Int))).WF := Relation.wf_polymer_rotate oper _ ho
  have hrotsz : (oper.polymer_rotate (-(1 : Int))).size = R.size := by
    rw [Relation.size_polymer_rotate, hosz]
  have hrotar : (oper.polymer_rotate (-(1 : Int))).arity = oper.arity :=
    Relation.arity_polymer_rotate oper _
  have hloop := cell_loop1m R hR hR1 (oper.polymer_rotate (-(1 : Int))).arity
    (oper.polymer_rotate (-(1 : Int))) hrotWF hrotsz (by rw [hrotar]; exact hm) (by omega)
  unfold Relation.evaluate_1m
  rw [hloop.2.2.2 y hy, hrotar]
  obtain ⟨a, rfl⟩ : ∃ a, y = [a] := List.length_eq_one.mp hy.1
  have ha : a < R.size := hy.2 a (by simp)
  have hrotcell : ∀ zs, Tup R.size (oper.arity - 1) zs →
      ((oper.polymer_rotate (-(1 : Int))).cell (zs ++ [a]) = true ↔
        oper.cell (a :: zs) = true) := by
    intro zs hzs
    have hx : Tup oper.size oper.arity (zs ++ [a]) := by
      rw [hosz]
      have := tup_append R.size (oper.arity - 1) 1 zs [a] hzs ⟨rfl, by simpa⟩
      rwa [show oper.arity - 1 + 1 = oper.arity from by omega] at this
    have hrn := Relation.cell_polymer_rotate_neg oper 1 hm ho.1 (zs ++ [a]) hx
    rw [Nat.cast_one] at hrn
    rw [hrn]
    have hdrop : (zs ++ [a]).drop (oper.arity - 1) = [a] := by
      rw [← hzs.1]
      exact List.drop_left zs [a]
    have htake : (zs ++ [a]).take (oper.arity - 1) = zs := by
      rw [← hzs.1]
      exact List.take_left zs [a]
    rw [hdrop, htake, List.singleton_append]
  constructor
  · rintro ⟨zs, hzs, hmem, hcell⟩
    rw [hrotcell zs hzs] at hcell
    refine ⟨zs.map (fun z => [z]), by simp [hzs.1], ?_, ?_⟩
    · intro v hv
      obtain ⟨z, hzm, rfl⟩ := List.mem_map.mp hv
      refine ⟨⟨by simp [hR1], fun c hc => by
        simp at hc
        rw [hc]
        exact hzs.2 z hzm⟩, hmem z hzm⟩
    · intro i hi
      rw [hR1] at hi
      have hi0 : i = 0 := by omega
      subst hi0
      rw [List.getD_cons_zero]
      have hmm : (zs.map (fun z => [z])).map (fun v => v.getD 0 0) = zs :=
        map_singleton_getD zs
      rw [hmm]
      simpa using hcell
  · rintro ⟨vs, hvlen, hvmem, hvc⟩
    have hvcell := hvc 0 (by omega)
    rw [List.getD_cons_zero] at hvcell
    simp only [List.getD_cons_zero] at hvcell
    have htup : Tup R.size (oper.arity - 1) (vs.map (fun v => v.getD 0 0)) := by
      refine ⟨by simp [hvlen], fun c hc => ?_⟩
      obtain ⟨v, hvm, rfl⟩ := List.mem_map.mp hc
      have := (hvmem v hvm).1
      exact tup_getD_lt R.size R.arity v this 0 (by omega)
    refine ⟨vs.map (fun v => v.getD 0 0), htup, ?_, ?_⟩
    · intro z hz
      obtain ⟨v, hvm, rfl⟩ := List.mem_map.mp hz
      have hv1 := (hvmem v hvm).1
      rw [hR1] at hv1
      obtain ⟨b, hb⟩ := List.length_eq_one.mp hv1.1
      have h2 := (hvmem v hvm).2
      rw [hb] at h2 ⊢
      simpa using h2
    · rw [hrotcell _ htup]
      exact hvcell

theorem drop_eq_getD_singleton (u : List Nat) (k : Nat) (h : u.length = k + 1) :
    u.drop k = [u.getD k 0] := by
  have h1 : u.drop k = (u.drop k).take 1 :=
    (List.take_of_length_le (by simp [h])).symm
  rw [h1, drop_take_eq_map_range u 0 k 1 (by omega), List.range_succ]
  simp

theorem exists_tup_one (sz : Nat) (Q : List Nat → Prop) :
    (∃ z, Tup sz 1 z ∧ Q z) ↔ ∃ c, c < sz ∧ Q [c] := by
  constructor
  · rintro ⟨z, hz, hq⟩
    obtain ⟨c, hc⟩ := List.length_eq_one.mp hz.1
    subst hc
    exact ⟨c, hz.2 c (by simp), hq⟩
  · rintro ⟨c, hc, hq⟩
    exact ⟨[c], ⟨rfl, by simpa⟩, hq⟩

theorem exists_tup_two (sz : Nat) (Q : List Nat → Prop) :
    (∃ z, Tup sz 2 z ∧ Q z) ↔ ∃ c d, c < sz ∧ d < sz ∧ Q [c, d] := by
  constructor
  · rintro ⟨z, hz, hq⟩
    obtain ⟨c, d, hcd⟩ := List.length_eq_two.mp hz.1
    subst hcd
    exact ⟨c, d, hz.2 c (by simp), hz.2 d (by simp), hq⟩
  · rintro ⟨c, d, hc, hd, hq⟩
    refine ⟨[c, d], ⟨rfl, ?_⟩, hq⟩
    intro e he
    simp at he
    rcases he with h | h <;> omega


theorem cell_stepN2 (oper rel : Relation) (hrel : rel.WF) (hk : 1 ≤ rel.arity)
    (ho : oper.WF) (hosz : oper.size = rel.size) (hoar : oper.arity = 2) :
    (stepN2 oper rel).size = rel.size ∧ (stepN2 oper rel).arity = rel.arity ∧
    (stepN2 oper rel).WF ∧
    ∀ u, Tup rel.size rel.arity u →
      ((stepN2 oper rel).cell u = true ↔
        ∃ c, c < rel.size ∧ rel.cell (c :: u.take (rel.arity - 1)) = true ∧
          oper.cell [u.getD (rel.arity - 1) 0, c] = true) := by
  have hA : (rel.polymer_insert 0).WF := Relation.wf_polymer_insert rel 0 hrel.1
  have hAar : (rel.polymer_insert 0).arity = rel.arity + 1 := rfl
  have hlenP : (oper.polymer [0, 1] (rel.polymer_insert 0).arity).table.length
      = (rel.polymer_insert 0).table.length := by
    rw [Relation.length_table_polymer, hA.2, hosz, Relation.size_polymer_insert, hAar]
  have hand : ((rel.polymer_insert 0).and
      (oper.polymer [0, 1] (rel.polymer_insert 0).arity)).WF :=
    ⟨hA.1, by rw [Relation.length_table_and _ _ hlenP, hA.2]; rfl⟩
  have handar : ((rel.polymer_insert 0).and
      (oper.polymer [0, 1] (rel.polymer_insert 0).arity)).arity = rel.arity + 1 := rfl
  have hrot : (((rel.polymer_insert 0).and
      (oper.polymer [0, 1] (rel.polymer_insert 0).arity)).polymer_rotate (-(1 : Int))).WF :=
    Relation.wf_polymer_rotate _ _ hand
  have hrotar : (((rel.polymer_insert 0).and
      (oper.polymer [0, 1] (rel.polymer_insert 0).arity)).polymer_rotate
        (-(1 : Int))).arity = rel.arity + 1 := by
    rw [Relation.arity_polymer_rotate, handar]
  have hrotsz : (((rel.polymer_insert 0).and
      (oper.polymer [0, 1] (rel.polymer_insert 0).arity)).polymer_rotate
        (-(1 : Int))).size = rel.size := by
    rw [Relation.size_polymer_rotate, Relation.size_and, Relation.size_polymer_insert]
  have hstepar : (stepN2 oper rel).arity = rel.arity := by
    unfold stepN2
    rw [Relation.fold_any, Relation.arity_foldWith, hrotar]
    omega
  have hstepsz : (stepN2 oper rel).size = rel.size := by
    unfold stepN2
    rw [Relation.fold_any, Relation.size_foldWith, hrotsz]
  have hstepwf : (stepN2 oper rel).WF := by
    unfold stepN2
    exact Relation.wf_foldWith _ _ _ hrot (by rw [hrotar]; omega)
  refine ⟨hstepsz, hstepar, hstepwf, fun u hu => ?_⟩
  have hfc := Relation.cell_fold_any (((rel.polymer_insert 0).and
      (oper.polymer [0, 1] (rel.polymer_insert 0).arity)).polymer_rotate
        (-(1 : Int))) 1 hrot (by rw [hrotar]; omega) u
    (by rw [hrotsz, hrotar, Nat.add_sub_cancel]; exact hu)
  rw [hrotsz] at hfc
  unfold stepN2
  rw [hfc, exists_tup_one rel.size]
  apply exists_congr
  intro c
  rcases Nat.lt_or_ge c rel.size with hc | hc
  case inr =>
    constructor
    · rintro ⟨h, _⟩; omega
    · rintro ⟨h, _⟩; omega
  have key : ((((rel.polymer_insert 0).and
      (oper.polymer [0, 1] (rel.polymer_insert 0).arity)).polymer_rotate
        (-(1 : Int))).cell ([c] ++ u) = true ↔
      (rel.cell (c :: u.take (rel.arity - 1)) = true ∧
        oper.cell [u.getD (rel.arity - 1) 0, c] = true)) := by
    rw [List.singleton_append]
    have hx : Tup rel.size (rel.arity + 1) (c :: u) := tup_cons _ _ c u hc hu
    have hrn := Relation.cell_polymer_rotate_neg
      ((rel.polymer_insert 0).and (oper.polymer [0, 1] (rel.polymer_insert 0).arity))
      1 (by rw [handar]; omega) hand.1 (c :: u)
      (by rw [handar, Relation.size_and, Relation.size_polymer_insert]; exact hx)
    rw [Nat.cast_one, handar, Nat.add_sub_cancel] at hrn
    have hdrop : (c :: u).drop rel.arity = [u.getD (rel.arity - 1) 0] := by
      conv_lhs => rw [show rel.arity = (rel.arity - 1) + 1 from by omega,
        List.drop_succ_cons]
      exact drop_eq_getD_singleton u (rel.arity - 1) (by rw [hu.1]; omega)
    have htake : (c :: u).take rel.arity = c :: u.take (rel.arity - 1) := by
      conv_lhs => rw [show rel.arity = (rel.arity - 1) + 1 from by omega,
        List.take_succ_cons]
    rw [hrn, hdrop, htake, List.singleton_append]
    have hw : Tup rel.size (rel.arity + 1)
        (u.getD (rel.arity - 1) 0 :: c :: u.take (rel.arity - 1)) := by
      have ht1 := tup_take rel.size rel.arity (rel.arity - 1) u hu (by omega)
      have ht2 := tup_cons _ _ c _ hc ht1
      have ht3 := tup_cons _ _ (u.getD (rel.arity - 1) 0) _
        (tup_getD_lt _ _ u hu (rel.arity - 1) (by omega)) ht2
      rwa [show rel.arity - 1 + 1 + 1 = rel.arity + 1 from by omega] at ht3
    rw [Relation.cell_and (rel.polymer_insert 0)
      (oper.polymer [0, 1] (rel.polymer_insert 0).arity) hA
      (by rw [Relation.size_polymer, Relation.size_polymer_insert, hosz])
      rfl hlenP _ (by rw [Relation.size_polymer_insert, hAar]; exact hw),
      Bool.and_eq_true]
    rw [Relation.cell_polymer_insert_zero rel hrel.1 _ hw]
    rw [List.drop_one, List.tail_cons]
    have hpc := Relation.cell_polymer oper [0, 1] (rel.polymer_insert 0).arity ho.1
      (by intro v hv; simp at hv; rcases hv with h | h <;> (rw [h, hAar]; omega))
      _ (by rw [hosz]; exact hw)
    rw [hpc]
    simp only [List.map_cons, List.map_nil, List.getD_cons_zero, List.getD_cons_succ]
  rw [key]

theorem foldl_stepN2 (R : Relation) (hR : R.WF) (hk : 1 ≤ R.arity) :
    ∀ (os : List Relation) (rel : Relation), rel.WF → rel.size = R.size →
      rel.arity = R.arity → os.length ≤ R.arity →
      (∀ o ∈ os, o.WF ∧ o.size = R.size ∧ o.arity = 2) →
      (os.foldl (fun rel oper => stepN2 oper rel) rel).size = R.size ∧
      (os.foldl (fun rel oper => stepN2 oper rel) rel).arity = R.arity ∧
      (os.foldl (fun rel oper => stepN2 oper rel) rel).WF ∧
      ∀ u, Tup R.size R.arity u →
        ((os.foldl (fun rel oper => stepN2 oper rel) rel).cell u = true ↔
          ∃ zs, Tup R.size os.length zs ∧
            rel.cell (zs ++ u.take (R.arity - os.length)) = true ∧
            ∀ i < os.length, (os.getD i junkRel).cell
              [u.getD (R.arity - os.length + i) 0, zs.getD i 0] = true) := by
  intro os
  induction os with
  | nil =>
    intro rel hrel hrsz hrar hoslen hos
    refine ⟨hrsz, hrar, hrel, fun u hu => ?_⟩
    simp only [List.foldl_nil, List.length_nil, Nat.sub_zero]
    have hutake : u.take R.arity = u := by
      rw [← hu.1, List.take_length]
    constructor
    · intro h
      exact ⟨[], ⟨rfl, by simp⟩, by rwa [List.nil_append, hutake], fun i hi => by omega⟩
    · rintro ⟨zs, hzs, hcell, _⟩
      have hzs0 : zs = [] := List.length_eq_zero.mp hzs.1
      subst hzs0
      rwa [List.nil_append, hutake] at hcell
  | cons o os2 ih =>
    intro rel hrel hrsz hrar hoslen hos
    have ho := hos o (List.mem_cons_self _ _)
    have hrar1 : 1 ≤ rel.arity := by omega
    have hstep := cell_stepN2 o rel hrel hrar1 ho.1 (by rw [ho.2.1, hrsz]) ho.2.2
    have hj2 : os2.length + 1 ≤ R.arity := by simpa using hoslen
    rw [List.foldl_cons]
    have hrec := ih (stepN2 o rel) hstep.2.2.1 (by rw [hstep.1, hrsz])
      (by rw [hstep.2.1, hrar]) (by omega) (fun p hp => hos p (List.mem_cons_of_mem _ hp))
    refine ⟨hrec.1, hrec.2.1, hrec.2.2.1, fun u hu => ?_⟩
    rw [hrec.2.2.2 u hu]
    have hkey : ∀ zs2, Tup R.size os2.length zs2 →
        ((stepN2 o rel).cell (zs2 ++ u.take (R.arity - os2.length)) = true ↔
          ∃ c, c < R.size ∧
            rel.cell ((c :: zs2) ++ u.take (R.arity - (os2.length + 1))) = true ∧
            o.cell [u.getD (R.arity - (os2.length + 1)) 0, c] = true) := by
      intro zs2 hzs2
      have hw : Tup R.size R.arity (zs2 ++ u.take (R.arity - os2.length)) := by
        have h1 := tup_append R.size os2.length (R.arity - os2.length) zs2
          (u.take (R.arity - os2.length)) hzs2
          (tup_take R.size R.arity _ u hu (by omega))
        rwa [show os2.length + (R.arity - os2.length) = R.arity from by omega] at h1
      have hcw := hstep.2.2.2 (zs2 ++ u.take (R.arity - os2.length))
        (by rw [hrsz, hrar]; exact hw)
      rw [hcw]
      have htake2 : (zs2 ++ u.take (R.arity - os2.length)).take (rel.arity - 1)
          = zs2 ++ u.take (R.arity - (os2.length + 1)) := by
        rw [List.take_append_eq_append_take, hrar,
          List.take_of_length_le (by rw [hzs2.1]; omega), hzs2.1, List.take_take]
        have hmin : min (R.arity - 1 - os2.length) (R.arity - os2.length)
            = R.arity - (os2.length + 1) := by omega
        rw [hmin]
      have hgd2 : (zs2 ++ u.take (R.arity - os2.length)).getD (rel.arity - 1) 0
          = u.getD (R.arity - (os2.length + 1)) 0 := by
        rw [List.getD_append_right _ _ _ _ (by rw [hzs2.1, hrar]; omega), hzs2.1, hrar,
          getD_take _ _ _ _ (by omega)]
        congr 1
        omega
      rw [htake2, hgd2]
      apply exists_congr
      intro c
      rw [List.cons_append]
      constructor
      · rintro ⟨h1, h2, h3⟩
        exact ⟨by rwa [hrsz] at h1, h2, h3⟩
      · rintro ⟨h1, h2, h3⟩
        exact ⟨by rwa [← hrsz] at h1, h2, h3⟩
    constructor
    · rintro ⟨zs2, hzs2, hcell, hrest⟩
      obtain ⟨c, hc, h1, h2⟩ := (hkey zs2 hzs2).mp hcell
      refine ⟨c :: zs2, ?_, ?_, ?_⟩
      · have := tup_cons R.size os2.length c zs2 hc hzs2
        exact ⟨by rw [this.1]; simp, this.2⟩
      · rwa [show (o :: os2).length = os2.length + 1 from rfl]
      · intro i hi
        rw [show (o :: os2).length = os2.length + 1 from rfl]
        cases i with
        | zero =>
          simpa using h2
        | succ i =>
          have hi2 : i < os2.length := by simpa using hi
          have := hrest i hi2
          simp only [List.getD_cons_succ]
          rw [show R.arity - (os2.length + 1) + (i + 1)
            = R.arity - os2.length + i from by omega]
          exact this
    · rintro ⟨zs, hzs, hcell, hall⟩
      obtain ⟨c, zs2, rfl⟩ : ∃ c zs2, zs = c :: zs2 := by
        cases zs with
        | nil =>
          exfalso
          have := hzs.1
          simp at this
        | cons c zs2 => exact ⟨c, zs2, rfl⟩
      have hzs2 : Tup R.size os2.length zs2 :=
        ⟨by have := hzs.1; simpa using this,
         fun d hd => hzs.2 d (List.mem_cons_of_mem _ hd)⟩
      refine ⟨zs2, hzs2, ?_, ?_⟩
      · apply (hkey zs2 hzs2).mpr
        refine ⟨c, hzs.2 c (List.mem_cons_self _ _), ?_, ?_⟩
        · rwa [show (o :: os2).length = os2.length + 1 from rfl] at hcell
        · have := hall 0 (by simp)
          simpa using this
      · intro i hi
        have := hall (i + 1) (by simpa using Nat.add_lt_add_right hi 1)
        simp only [List.getD_cons_succ] at this
        rw [show (o :: os2).length = os2.length + 1 from rfl] at this
        rw [show R.arity - os2.length + i
          = R.arity - (os2.length + 1) + (i + 1) from by omega]
        exact this

theorem shape_evaluate_n2 (R : Relation) (opers : List Relation)
    (hlen : opers.length = R.arity) (hk : 1 ≤ R.arity) (hR : R.WF)
    (hops : ∀ o ∈ opers, o.WF ∧ o.size = R.size ∧ o.arity = 2) :
    (R.evaluate_n2 opers).size = R.size ∧ (R.evaluate_n2 opers).arity = R.arity ∧
      (R.evaluate_n2 opers).WF := by
  have hfold := foldl_stepN2 R hR hk opers R hR rfl rfl (by omega) hops
  exact ⟨hfold.1, hfold.2.1, hfold.2.2.1⟩

theorem cell_evaluate_n2 (R : Relation) (opers : List Relation)
    (hlen : opers.length = R.arity) (hk : 1 ≤ R.arity) (hR : R.WF)
    (hops : ∀ o ∈ opers, o.WF ∧ o.size = R.size ∧ o.arity = 2)
    (y : List Nat) (hy : Tup R.size R.arity y) :
    ((R.evaluate_n2 opers).cell y = true) ↔ EvalSpec R opers 2 y := by
  have hfold := foldl_stepN2 R hR hk opers R hR rfl rfl (by omega) hops
  unfold Relation.evaluate_n2
  rw [hfold.2.2.2 y hy]
  unfold EvalSpec
  constructor
  · rintro ⟨zs, hzs, hcell, hall⟩
    rw [hlen] at hzs
    rw [hlen, Nat.sub_self, List.take_zero, List.append_nil] at hcell
    refine ⟨[zs], by simp, ?_, ?_⟩
    · intro v hv
      simp at hv
      rw [hv]
      exact ⟨hzs, hcell⟩
    · intro i hi
      have := hall i (by omega)
      rw [hlen, Nat.sub_self, Nat.zero_add] at this
      simpa using this
  · rintro ⟨vs, hvlen, hvmem, hvc⟩
    obtain ⟨v, rfl⟩ : ∃ v, vs = [v] := List.length_eq_one.mp (by simpa using hvlen)
    have hv := hvmem v (by simp)
    refine ⟨v, by rw [hlen]; exact hv.1, ?_, ?_⟩
    · rw [hlen, Nat.sub_self, List.take_zero, List.append_nil]
      exact hv.2
    · intro i hi
      have := hvc i (by omega)
      rw [hlen, Nat.sub_self, Nat.zero_add]
      simpa using this

theorem cell_stepN3 (oper rel : Relation) (hrel : rel.WF) (hk : 2 ≤ rel.arity)
    (ho : oper.WF) (hosz : oper.size = rel.size) (hoar : oper.arity = 3) :
    (stepN3 oper rel).size = rel.size ∧ (stepN3 oper rel).arity = rel.arity - 1 ∧
    (stepN3 oper rel).WF ∧
    ∀ u, Tup rel.size (rel.arity - 1) u →
      ((stepN3 oper rel).cell u = true ↔
        ∃ c d, c < rel.size ∧ d < rel.size ∧
          rel.cell (c :: d :: u.take (rel.arity - 2)) = true ∧
          oper.cell [u.getD (rel.arity - 2) 0, c, d] = true) := by
  have hA : (rel.polymer_insert 0).WF := Relation.wf_polymer_insert rel 0 hrel.1
  have hAar : (rel.polymer_insert 0).arity = rel.arity + 1 := rfl
  have hlenP : (oper.polymer [0, 1, 2] (rel.polymer_insert 0).arity).table.length
      = (rel.polymer_insert 0).table.length := by
    rw [Relation.length_table_polymer, hA.2, hosz, Relation.size_polymer_insert, hAar]
  have hand : ((rel.polymer_insert 0).and
      (oper.polymer [0, 1, 2] (rel.polymer_insert 0).arity)).WF :=
    ⟨hA.1, by rw [Relation.length_table_and _ _ hlenP, hA.2]; rfl⟩
  have handar : ((rel.polymer_insert 0).and
      (oper.polymer [0, 1, 2] (rel.polymer_insert 0).arity)).arity = rel.arity + 1 := rfl
  have hrot : (((rel.polymer_insert 0).and
      (oper.polymer [0, 1, 2] (rel.polymer_insert 0).arity)).polymer_rotate
        (-(1 : Int))).WF :=
    Relation.wf_polymer_rotate _ _ hand
  have hrotar : (((rel.polymer_insert 0).and
      (oper.polymer [0, 1, 2] (rel.polymer_insert 0).arity)).polymer_rotate
        (-(1 : Int))).arity = rel.arity + 1 := by
    rw [Relation.arity_polymer_rotate, handar]
  have hrotsz : (((rel.polymer_insert 0).and
      (oper.polymer [0, 1, 2] (rel.polymer_insert 0).arity)).polymer_rotate
        (-(1 : Int))).size = rel.size := by
    rw [Relation.size_polymer_rotate, Relation.size_and, Relation.size_polymer_insert]
  have hstepar : (stepN3 oper rel).arity = rel.arity - 1 := by
    unfold stepN3
    rw [Relation.fold_any, Relation.arity_foldWith, hrotar]
    omega
  have hstepsz : (stepN3 oper rel).size = rel.size := by
    unfold stepN3
    rw [Relation.fold_any, Relation.size_foldWith, hrotsz]
  have hstepwf : (stepN3 oper rel).WF := by
    unfold stepN3
    exact Relation.wf_foldWith _ _ _ hrot (by rw [hrotar]; omega)
  refine ⟨hstepsz, hstepar, hstepwf, fun u hu => ?_⟩
  have hfc := Relation.cell_fold_any (((rel.polymer_insert 0).and
      (oper.polymer [0, 1, 2] (rel.polymer_insert 0).arity)).polymer_rotate
        (-(1 : Int))) 2 hrot (by rw [hrotar]; omega) u
    (by rw [hrotsz, hrotar, show rel.arity + 1 - 2 = rel.arity - 1 from by omega]; exact hu)
  rw [hrotsz] at hfc
  unfold stepN3
  rw [hfc, exists_tup_two rel.size]
  apply exists_congr
  intro c
  apply exists_congr
  intro d
  rcases Nat.lt_or_ge c rel.size with hc | hc
  case inr =>
    constructor
    · rintro ⟨h, _⟩; omega
    · rintro ⟨h, _⟩; omega
  rcases Nat.lt_or_ge d rel.size with hd | hd
  case inr =>
    constructor
    · rintro ⟨_, h, _⟩; omega
    · rintro ⟨_, h, _⟩; omega
  have hx : Tup rel.size (rel.arity + 1) (c :: d :: u) := by
    have h1 := tup_cons _ _ d u hd hu
    have h2 := tup_cons _ _ c _ hc h1
    rwa [show rel.arity - 1 + 1 + 1 = rel.arity + 1 from by omega] at h2
  have key : ((((rel.polymer_insert 0).and
      (oper.polymer [0, 1, 2] (rel.polymer_insert 0).arity)).polymer_rotate
        (-(1 : Int))).cell ([c, d] ++ u) = true ↔
      (rel.cell (c :: d :: u.take (rel.arity - 2)) = true ∧
        oper.cell [u.getD (rel.arity - 2) 0, c, d] = true)) := by
    have hcd : ([c, d] ++ u) = c :: d :: u := rfl
    rw [hcd]
    have hrn := Relation.cell_polymer_rotate_neg
      ((rel.polymer_insert 0).and (oper.polymer [0, 1, 2] (rel.polymer_insert 0).arity))
      1 (by rw [handar]; omega) hand.1 (c :: d :: u)
      (by rw [handar, Relation.size_and, Relation.size_polymer_insert]; exact hx)
    rw [Nat.cast_one, handar, Nat.add_sub_cancel] at hrn
    have hdrop : (c :: d :: u).drop rel.arity = [u.getD (rel.arity - 2) 0] := by
      conv_lhs => rw [show rel.arity = (rel.arity - 2) + 1 + 1 from by omega,
        List.drop_succ_cons, List.drop_succ_cons]
      exact drop_eq_getD_singleton u (rel.arity - 2) (by rw [hu.1]; omega)
    have htake : (c :: d :: u).take rel.arity = c :: d :: u.take (rel.arity - 2) := by
      conv_lhs => rw [show rel.arity = (rel.arity - 2) + 1 + 1 from by omega,
        List.take_succ_cons, List.take_succ_cons]
    rw [hrn, hdrop, htake, List.singleton_append]
    have hw : Tup rel.size (rel.arity + 1)
        (u.getD (rel.arity - 2) 0 :: c :: d :: u.take (rel.arity - 2)) := by
      have ht1 := tup_take rel.size (rel.arity - 1) (rel.arity - 2) u hu (by omega)
      have ht2 := tup_cons _ _ d _ hd ht1
      have ht3 := tup_cons _ _ c _ hc ht2
      have ht4 := tup_cons _ _ (u.getD (rel.arity - 2) 0) _
        (tup_getD_lt _ _ u hu (rel.arity - 2) (by omega)) ht3
      rwa [show rel.arity - 2 + 1 + 1 + 1 = rel.arity + 1 from by omega] at ht4
    rw [Relation.cell_and (rel.polymer_insert 0)
      (oper.polymer [0, 1, 2] (rel.polymer_insert 0).arity) hA
      (by rw [Relation.size_polymer, Relation.size_polymer_insert, hosz])
      rfl hlenP _ (by rw [Relation.size_polymer_insert, hAar]; exact hw),
      Bool.and_eq_true]
    rw [Relation.cell_polymer_insert_zero rel hrel.1 _ hw]
    rw [List.drop_one, List.tail_cons]
    have hpc := Relation.cell_polymer oper [0, 1, 2] (rel.polymer_insert 0).arity ho.1
      (by intro v hv; simp at hv; rcases hv with h | h | h <;> (rw [h, hAar]; omega))
      _ (by rw [hosz]; exact hw)
    rw [hpc]
    simp only [List.map_cons, List.map_nil, List.getD_cons_zero, List.getD_cons_succ]
  rw [key]

/-- interleave zips two equal-length tuples into the alternating tuple
(z0, w0, z1, w1, ...), the coordinate layout used by _evaluate_n3. -/
def interleave : List Nat → List Nat → List Nat
  | z :: zs, w :: ws => z :: w :: interleave zs ws
  | _, _ => []

theorem length_interleave (zs ws : List Nat) (h : ws.length = zs.length) :
    (interleave zs ws).length = 2 * zs.length := by
  induction zs generalizing ws with
  | nil => cases ws with
    | nil => rfl
    | cons w ws => simp at h
  | cons z zs ih =>
    cases ws with
    | nil => simp at h
    | cons w ws =>
      have h2 : ws.length = zs.length := by simpa using h
      simp only [interleave, List.length_cons, ih ws h2]
      omega

theorem mem_interleave (zs ws : List Nat) (d : Nat) (hd : d ∈ interleave zs ws) :
    d ∈ zs ∨ d ∈ ws := by
  induction zs generalizing ws with
  | nil => cases ws <;> simp [interleave] at hd
  | cons z zs ih =>
    cases ws with
    | nil => simp [interleave] at hd
    | cons w ws =>
      simp only [interleave, List.mem_cons] at hd
      rcases hd with h | h | h
      · exact Or.inl (by simp [h])
      · exact Or.inr (by simp [h])
      · rcases ih ws h with h2 | h2
        · exact Or.inl (List.mem_cons_of_mem _ h2)
        · exact Or.inr (List.mem_cons_of_mem _ h2)

theorem interleave_getD_even (zs ws : List Nat) (h : ws.length = zs.length) (t : Nat) :
    (interleave zs ws).getD (t * 2) 0 = zs.getD t 0 := by
  induction zs generalizing ws t with
  | nil => cases ws with
    | nil => simp [interleave]
    | cons w ws => simp at h
  | cons z zs ih =>
    cases ws with
    | nil => simp at h
    | cons w ws =>
      have h2 : ws.length = zs.length := by simpa using h
      cases t with
      | zero => simp [interleave]
      | succ t =>
        have ht : (t + 1) * 2 = (t * 2) + 1 + 1 := by omega
        simp only [interleave, ht, List.getD_cons_succ]
        exact ih ws h2 t

theorem interleave_getD_odd (zs ws : List Nat) (h : ws.length = zs.length) (t : Nat) :
    (interleave zs ws).getD (t * 2 + 1) 0 = ws.getD t 0 := by
  induction zs generalizing ws t with
  | nil => cases ws with
    | nil => simp [interleave]
    | cons w ws => simp at h
  | cons z zs ih =>
    cases ws with
    | nil => simp at h
    | cons w ws =>
      have h2 : ws.length = zs.length := by simpa using h
      cases t with
      | zero => simp [interleave]
      | succ t =>
        have ht : (t + 1) * 2 + 1 = (t * 2 + 1) + 1 + 1 := by omega
        simp only [interleave, ht, List.getD_cons_succ]
        exact ih ws h2 t

theorem foldl_stepN3 (R : Relation) (hR : R.WF) :
    ∀ (os : List Relation) (rel : Relation), rel.WF → rel.size = R.size →
      2 * os.length ≤ rel.arity →
      (∀ o ∈ os, o.WF ∧ o.size = R.size ∧ o.arity = 3) →
      (os.foldl (fun rel oper => stepN3 oper rel) rel).size = R.size ∧
      (os.foldl (fun rel oper => stepN3 oper rel) rel).arity = rel.arity - os.length ∧
      (os.foldl (fun rel oper => stepN3 oper rel) rel).WF ∧
      ∀ u, Tup R.size (rel.arity - os.length) u →
        ((os.foldl (fun rel oper => stepN3 oper rel) rel).cell u = true ↔
          ∃ zs ws, Tup R.size os.length zs ∧ Tup R.size os.length ws ∧
            rel.cell (interleave zs ws ++ u.take (rel.arity - 2 * os.length)) = true ∧
            ∀ i < os.length, (os.getD i junkRel).cell
              [u.getD (rel.arity - 2 * os.length + i) 0, zs.getD i 0, ws.getD i 0]
                = true) := by
  intro os
  induction os with
  | nil =>
    intro rel hrel hrsz hoslen hos
    refine ⟨hrsz, by simp, hrel, fun u hu => ?_⟩
    simp only [List.foldl_nil, List.length_nil, Nat.sub_zero, Nat.mul_zero]
    have hul : u.length = rel.arity := by simpa using hu.1
    have hutake : u.take rel.arity = u := by
      rw [← hul, List.take_length]
    constructor
    · intro h
      exact ⟨[], [], ⟨rfl, by simp⟩, ⟨rfl, by simp⟩,
        by rwa [show interleave [] [] = [] from rfl, List.nil_append, hutake],
        fun i hi => by omega⟩
    · rintro ⟨zs, ws, hzs, hws, hcell, _⟩
      have hzs0 : zs = [] := List.length_eq_zero.mp hzs.1
      have hws0 : ws = [] := List.length_eq_zero.mp hws.1
      subst hzs0
      subst hws0
      rwa [show interleave [] [] = [] from rfl, List.nil_append, hutake] at hcell
  | cons o os2 ih =>
    intro rel hrel hrsz hoslen hos
    have ho := hos o (List.mem_cons_self _ _)
    have hlen2 : 2 * (os2.length + 1) ≤ rel.arity := by simpa using hoslen
    have hstep := cell_stepN3 o rel hrel (by omega) ho.1 (by rw [ho.2.1, hrsz]) ho.2.2
    rw [List.foldl_cons]
    have hrec := ih (stepN3 o rel) hstep.2.2.1 (by rw [hstep.1, hrsz])
      (by rw [hstep.2.1]; omega) (fun p hp => hos p (List.mem_cons_of_mem _ hp))
    have har2 : (stepN3 o rel).arity = rel.arity - 1 := hstep.2.1
    refine ⟨hrec.1, by rw [hrec.2.1, har2]; simp; omega, hrec.2.2.1, fun u hu => ?_⟩
    rw [hrec.2.2.2 u (by rw [har2, show rel.arity - 1 - os2.length
      = rel.arity - (o :: os2).length from by simp; omega]; exact hu)]
    have hulen : u.length = rel.arity - (os2.length + 1) := by
      rw [hu.1]
      simp
    have hkey : ∀ zs2 ws2, Tup R.size os2.length zs2 → Tup R.size os2.length ws2 →
        ((stepN3 o rel).cell (interleave zs2 ws2
            ++ u.take ((stepN3 o rel).arity - 2 * os2.length)) = true ↔
          ∃ c d, c < R.size ∧ d < R.size ∧
            rel.cell (interleave (c :: zs2) (d :: ws2)
              ++ u.take (rel.arity - 2 * (os2.length + 1))) = true ∧
            o.cell [u.getD (rel.arity - 2 * (os2.length + 1)) 0, c, d] = true) := by
      intro zs2 ws2 hzs2 hws2
      have hilvlen : (interleave zs2 ws2).length = 2 * os2.length := by
        rw [length_interleave zs2 ws2 (by rw [hws2.1, hzs2.1]), hzs2.1]
      have hw : Tup R.size (rel.arity - 1) (interleave zs2 ws2
          ++ u.take (rel.arity - 1 - 2 * os2.length)) := by
        refine ⟨?_, ?_⟩
        · rw [List.length_append, hilvlen, List.length_take, hulen]
          omega
        · intro e he
          rcases List.mem_append.mp he with h | h
          · rcases mem_interleave _ _ _ h with h2 | h2
            · exact hzs2.2 e h2
            · exact hws2.2 e h2
          · exact hu.2 e (List.mem_of_mem_take h)
      rw [har2]
      have hcw := hstep.2.2.2 (interleave zs2 ws2 ++ u.take (rel.arity - 1 - 2 * os2.length))
        (by rw [hrsz]; exact hw)
      rw [hcw]
      apply exists_congr
      intro c
      apply exists_congr
      intro d
      have htake2 : (interleave zs2 ws2 ++ u.take (rel.arity - 1 - 2 * os2.length)).take
          (rel.arity - 2) = interleave zs2 ws2
            ++ u.take (rel.arity - 2 * (os2.length + 1)) := by
        rw [List.take_append_eq_append_take,
          List.take_of_length_le (by rw [hilvlen]; omega), hilvlen, List.take_take]
        have hmin : min (rel.arity - 2 - 2 * os2.length) (rel.arity - 1 - 2 * os2.length)
            = rel.arity - 2 * (os2.length + 1) := by omega
        rw [hmin]
      have hgd2 : (interleave zs2 ws2 ++ u.take (rel.arity - 1 - 2 * os2.length)).getD
          (rel.arity - 2) 0 = u.getD (rel.arity - 2 * (os2.length + 1)) 0 := by
        rw [List.getD_append_right _ _ _ _ (by rw [hilvlen]; omega), hilvlen,
          getD_take _ _ _ _ (by omega)]
        congr 1
        omega
      rw [htake2, hgd2, show interleave (c :: zs2) (d :: ws2)
        = c :: d :: interleave zs2 ws2 from rfl, List.cons_append, List.cons_append]
      constructor
      · rintro ⟨h1, h2, h3, h4⟩
        exact ⟨by rwa [hrsz] at h1, by rwa [hrsz] at h2, h3, h4⟩
      · rintro ⟨h1, h2, h3, h4⟩
        exact ⟨by rwa [← hrsz] at h1, by rwa [← hrsz] at h2, h3, h4⟩
    constructor
    · rintro ⟨zs2, ws2, hzs2, hws2, hcell, hrest⟩
      obtain ⟨c, d, hc, hd, h1, h2⟩ := (hkey zs2 ws2 hzs2 hws2).mp hcell
      refine ⟨c :: zs2, d :: ws2, ?_, ?_, ?_, ?_⟩
      · have := tup_cons R.size os2.length c zs2 hc hzs2
        exact ⟨by rw [this.1]; simp, this.2⟩
      · have := tup_cons R.size os2.length d ws2 hd hws2
        exact ⟨by rw [this.1]; simp, this.2⟩
      · rwa [show (o :: os2).length = os2.length + 1 from rfl]
      · intro i hi
        rw [show (o :: os2).length = os2.length + 1 from rfl]
        cases i with
        | zero => simpa using h2
        | succ i =>
          have hi2 : i < os2.length := by simpa using hi
          have := hrest i hi2
          simp only [List.getD_cons_succ]
          rw [show rel.arity - 2 * (os2.length + 1) + (i + 1)
            = (stepN3 o rel).arity - 2 * os2.length + i from by rw [har2]; omega]
          exact this
    · rintro ⟨zs, ws, hzs, hws, hcell, hall⟩
      obtain ⟨c, zs2, rfl⟩ : ∃ c zs2, zs = c :: zs2 := by
        cases zs with
        | nil => exact absurd hzs.1 (by simp)
        | cons c zs2 => exact ⟨c, zs2, rfl⟩
      obtain ⟨d, ws2, rfl⟩ : ∃ d ws2, ws = d :: ws2 := by
        cases ws with
        | nil => exact absurd hws.1 (by simp)
        | cons d ws2 => exact ⟨d, ws2, rfl⟩
      have hzs2 : Tup R.size os2.length zs2 :=
        ⟨by have := hzs.1; simpa using this,
         fun e he => hzs.2 e (List.mem_cons_of_mem _ he)⟩
      have hws2 : Tup R.size os2.length ws2 :=
        ⟨by have := hws.1; simpa using this,
         fun e he => hws.2 e (List.mem_cons_of_mem _ he)⟩
      refine ⟨zs2, ws2, hzs2, hws2, ?_, ?_⟩
      · apply (hkey zs2 ws2 hzs2 hws2).mpr
        refine ⟨c, d, hzs.2 c (List.mem_cons_self _ _), hws.2 d (List.mem_cons_self _ _),
          ?_, ?_⟩
        · rwa [show (o :: os2).length = os2.length + 1 from rfl] at hcell
        · have := hall 0 (by simp)
          simpa using this
      · intro i hi
        have := hall (i + 1) (by simpa using Nat.add_lt_add_right hi 1)
        simp only [List.getD_cons_succ] at this
        rw [show (o :: os2).length = os2.length + 1 from rfl] at this
        rw [show (stepN3 o rel).arity - 2 * os2.length + i
          = rel.arity - 2 * (os2.length + 1) + (i + 1) from by rw [har2]; omega]
        exact this

theorem pyRange_even (k : Nat) :
    pyRange 0 (2 * k) 2 = (List.range k).map (fun t => 0 + t * 2) := by
  unfold pyRange
  congr 1
  congr 1
  omega

theorem pyRange_odd (k : Nat) :
    pyRange 1 (2 * k) 2 = (List.range k).map (fun t => 1 + t * 2) := by
  unfold pyRange
  congr 1
  congr 1
  omega

theorem shape_rel0N3 (R : Relation) (hR : R.WF) :
    ((R.polymer (pyRange 0 (2 * R.arity) 2) (2 * R.arity)).and
      (R.polymer (pyRange 1 (2 * R.arity) 2) (2 * R.arity))).size = R.size ∧
    ((R.polymer (pyRange 0 (2 * R.arity) 2) (2 * R.arity)).and
      (R.polymer (pyRange 1 (2 * R.arity) 2) (2 * R.arity))).arity = 2 * R.arity ∧
    ((R.polymer (pyRange 0 (2 * R.arity) 2) (2 * R.arity)).and
      (R.polymer (pyRange 1 (2 * R.arity) 2) (2 * R.arity))).WF := by
  refine ⟨rfl, rfl, hR.1, ?_⟩
  rw [Relation.length_table_and _ _ (by simp), Relation.length_table_polymer]
  rfl

theorem cell_rel0N3 (R : Relation) (hR : R.WF) (x : List Nat)
    (hx : Tup R.size (2 * R.arity) x) :
    ((R.polymer (pyRange 0 (2 * R.arity) 2) (2 * R.arity)).and
      (R.polymer (pyRange 1 (2 * R.arity) 2) (2 * R.arity))).cell x
      = (R.cell ((List.range R.arity).map (fun t => x.getD (t * 2) 0)) &&
         R.cell ((List.range R.arity).map (fun t => x.getD (t * 2 + 1) 0))) := by
  rw [Relation.cell_and (R.polymer (pyRange 0 (2 * R.arity) 2) (2 * R.arity))
    (R.polymer (pyRange 1 (2 * R.arity) 2) (2 * R.arity))
    (Relation.wf_polymer R _ _ hR.1) rfl rfl (by simp) x hx]
  rw [Relation.cell_polymer R _ _ hR.1 (fun v hv => by
      rw [pyRange_even] at hv
      obtain ⟨t, ht, rfl⟩ := List.mem_map.mp hv
      have := List.mem_range.mp ht
      omega) x hx]
  rw [Relation.cell_polymer R _ _ hR.1 (fun v hv => by
      rw [pyRange_odd] at hv
      obtain ⟨t, ht, rfl⟩ := List.mem_map.mp hv
      have := List.mem_range.mp ht
      omega) x hx]
  rw [pyRange_even, pyRange_odd, List.map_map, List.map_map]
  congr 2
  · apply List.map_congr_left
    intro t ht
    simp only [Function.comp_apply]
    rw [Nat.zero_add]
  · apply List.map_congr_left
    intro t ht
    simp only [Function.comp_apply]
    rw [Nat.add_comm 1 (t * 2)]

theorem shape_evaluate_n3 (R : Relation) (opers : List Relation)
    (hlen : opers.length = R.arity) (hk : 1 ≤ R.arity) (hR : R.WF)
    (hops : ∀ o ∈ opers, o.WF ∧ o.size = R.size ∧ o.arity = 3) :
    (R.evaluate_n3 opers).size = R.size ∧ (R.evaluate_n3 opers).arity = R.arity ∧
      (R.evaluate_n3 opers).WF := by
  have hseed := shape_rel0N3 R hR
  have hfold := foldl_stepN3 R hR opers _ hseed.2.2 hseed.1
    (by rw [hseed.2.1, hlen]) hops
  unfold Relation.evaluate_n3
  exact ⟨hfold.1, by rw [hfold.2.1, hseed.2.1, hlen]; omega, hfold.2.2.1⟩

theorem cell_evaluate_n3 (R : Relation) (opers : List Relation)
    (hlen : opers.length = R.arity) (hk : 1 ≤ R.arity) (hR : R.WF)
    (hops : ∀ o ∈ opers, o.WF ∧ o.size = R.size ∧ o.arity = 3)
    (y : List Nat) (hy : Tup R.size R.arity y) :
    ((R.evaluate_n3 opers).cell y = true) ↔ EvalSpec R opers 3 y := by
  have hseed := shape_rel0N3 R hR
  have hfold := foldl_stepN3 R hR opers _ hseed.2.2 hseed.1
    (by rw [hseed.2.1, hlen]) hops
  have h2k : 2 * R.arity - R.arity = R.arity := by omega
  unfold Relation.evaluate_n3
  rw [hfold.2.2.2 y (by rw [hseed.2.1, hlen, h2k]; exact hy)]
  unfold EvalSpec
  have hcells : ∀ zs ws, Tup R.size R.arity zs → Tup R.size R.arity ws →
      (((R.polymer (pyRange 0 (2 * R.arity) 2) (2 * R.arity)).and
        (R.polymer (pyRange 1 (2 * R.arity) 2) (2 * R.arity))).cell
          (interleave zs ws ++ y.take (2 * R.arity - 2 * R.arity)) = true ↔
        (R.cell zs = true ∧ R.cell ws = true)) := by
    intro zs ws hzs hws
    have hilvt : Tup R.size (2 * R.arity) (interleave zs ws) := by
      refine ⟨by rw [length_interleave zs ws (by rw [hws.1, hzs.1]), hzs.1], ?_⟩
      intro e he
      rcases mem_interleave _ _ _ he with h | h
      · exact hzs.2 e h
      · exact hws.2 e h
    rw [Nat.sub_self, List.take_zero, List.append_nil, cell_rel0N3 R hR _ hilvt,
      Bool.and_eq_true]
    have heq1 : (List.range R.arity).map (fun t => (interleave zs ws).getD (t * 2) 0)
        = zs := by
      have hmap : ∀ t ∈ List.range R.arity,
          (interleave zs ws).getD (t * 2) 0 = zs.getD t 0 := fun t ht =>
        interleave_getD_even zs ws (by rw [hws.1, hzs.1]) t
      rw [List.map_congr_left hmap, ← hzs.1, map_getD_range]
    have heq2 : (List.range R.arity).map (fun t => (interleave zs ws).getD (t * 2 + 1) 0)
        = ws := by
      have hmap : ∀ t ∈ List.range R.arity,
          (interleave zs ws).getD (t * 2 + 1) 0 = ws.getD t 0 := fun t ht =>
        interleave_getD_odd zs ws (by rw [hws.1, hzs.1]) t
      rw [List.map_congr_left hmap, ← hws.1, map_getD_range]
    rw [heq1, heq2]
  constructor
  · rintro ⟨zs, ws, hzs, hws, hcell, hall⟩
    rw [hlen] at hzs hws
    rw [hseed.2.1, hlen] at hcell
    rw [hcells zs ws hzs hws] at hcell
    refine ⟨[zs, ws], by simp, ?_, ?_⟩
    · intro v hv
      simp at hv
      rcases hv with h | h
      · rw [h]; exact ⟨hzs, hcell.1⟩
      · rw [h]; exact ⟨hws, hcell.2⟩
    · intro i hi
      have := hall i (by omega)
      rw [hseed.2.1, hlen, show 2 * R.arity - 2 * R.arity = 0 from by omega,
        Nat.zero_add] at this
      simpa using this
  · rintro ⟨vs, hvlen, hvmem, hvc⟩
    obtain ⟨v, w, rfl⟩ : ∃ v w, vs = [v, w] := List.length_eq_two.mp (by simpa using hvlen)
    have hv := hvmem v (by simp)
    have hw := hvmem w (by simp)
    refine ⟨v, w, by rw [hlen]; exact hv.1, by rw [hlen]; exact hw.1, ?_, ?_⟩
    · rw [hseed.2.1, hlen, hcells v w hv.1 hw.1]
      exact ⟨hv.2, hw.2⟩
    · intro i hi
      have := hvc i (by omega)
      rw [hseed.2.1, hlen, show 2 * R.arity - 2 * R.arity = 0 from by omega, Nat.zero_add]
      simpa using this

theorem getD_map_lt {α β : Type} (f : α → β) (l : List α) (i : Nat) (d : β) (de : α)
    (h : i < l.length) : (l.map f).getD i d = f (l.getD i de) := by
  rw [List.getD_eq_getElem _ _ (by simpa using h), List.getD_eq_getElem _ _ h,
    List.getElem_map]

theorem getD_reverse (l : List Nat) (i : Nat) (h : i < l.length) :
    l.reverse.getD i 0 = l.getD (l.length - 1 - i) 0 := by
  rw [List.getD_eq_getElem _ _ (by simpa using h),
    List.getD_eq_getElem _ _ (by omega), List.getElem_reverse]

theorem cell_body2m (R : Relation) (hR : R.WF) (m : Nat) (hm : 1 ≤ m)
    (test : Relation) (hT : test.WF) (hTsz : test.size = R.size) (hTar : test.arity = m) :
    ((((test.polymer_insert 1).and (R.polymer [0, 1] (m + 1))).fold_any 1).polymer_rotate
      (-(1 : Int))).size = R.size ∧
    ((((test.polymer_insert 1).and (R.polymer [0, 1] (m + 1))).fold_any 1).polymer_rotate
      (-(1 : Int))).arity = m ∧
    ((((test.polymer_insert 1).and (R.polymer [0, 1] (m + 1))).fold_any 1).polymer_rotate
      (-(1 : Int))).WF ∧
    ∀ u, Tup R.size m u →
      (((((test.polymer_insert 1).and (R.polymer [0, 1] (m + 1))).fold_any
          1).polymer_rotate (-(1 : Int))).cell u = true ↔
        ∃ z, z < R.size ∧ test.cell (z :: u.take (m - 1)) = true ∧
          R.cell [z, u.getD (m - 1) 0] = true) := by
  have hT1 : (test.polymer_insert 1).WF := Relation.wf_polymer_insert test 1 hT.1
  have hT1ar : (test.polymer_insert 1).arity = m + 1 := by
    rw [Relation.arity_polymer_insert, hTar]
  have hP : (R.polymer [0, 1] (m + 1)).WF := Relation.wf_polymer R _ _ hR.1
  have hlenP : (R.polymer [0, 1] (m + 1)).table.length
      = (test.polymer_insert 1).table.length := by
    rw [Relation.length_table_polymer, hT1.2, Relation.size_polymer_insert, hTsz, hT1ar]
  have hand : ((test.polymer_insert 1).and (R.polymer [0, 1] (m + 1))).WF :=
    ⟨hT1.1, by rw [Relation.length_table_and _ _ hlenP, hT1.2]; rfl⟩
  have handar : ((test.polymer_insert 1).and (R.polymer [0, 1] (m + 1))).arity = m + 1 := by
    rw [Relation.arity_and, hT1ar]
  have handsz : ((test.polymer_insert 1).and (R.polymer [0, 1] (m + 1))).size = R.size := by
    rw [Relation.size_and, Relation.size_polymer_insert, hTsz]
  have hF : (((test.polymer_insert 1).and (R.polymer [0, 1] (m + 1))).fold_any 1).WF :=
    Relation.wf_foldWith _ _ _ hand (by rw [handar]; omega)
  have hFar : (((test.polymer_insert 1).and (R.polymer [0, 1] (m + 1))).fold_any 1).arity
      = m := by
    rw [Relation.fold_any, Relation.arity_foldWith, handar]
    omega
  have hFsz : (((test.polymer_insert 1).and (R.polymer [0, 1] (m + 1))).fold_any 1).size
      = R.size := by
    rw [Relation.fold_any, Relation.size_foldWith, handsz]
  refine ⟨by rw [Relation.size_polymer_rotate, hFsz],
    by rw [Relation.arity_polymer_rotate, hFar],
    Relation.wf_polymer_rotate _ _ hF, fun u hu => ?_⟩
  have hrn := Relation.cell_polymer_rotate_neg
    (((test.polymer_insert 1).and (R.polymer [0, 1] (m + 1))).fold_any 1) 1
    (by rw [hFar]; omega) hF.1 u (by rw [hFsz, hFar]; exact hu)
  rw [Nat.cast_one, hFar] at hrn
  rw [hrn]
  have hdrop : u.drop (m - 1) = [u.getD (m - 1) 0] :=
    drop_eq_getD_singleton u (m - 1) (by rw [hu.1]; omega)
  rw [hdrop, List.singleton_append]
  have hv : Tup R.size m (u.getD (m - 1) 0 :: u.take (m - 1)) := by
    have h1 := tup_take R.size m (m - 1) u hu (by omega)
    have h2 := tup_cons _ _ (u.getD (m - 1) 0) _ (tup_getD_lt _ _ u hu (m - 1) (by omega)) h1
    rwa [show m - 1 + 1 = m from by omega] at h2
  have hfc := Relation.cell_fold_any
    ((test.polymer_insert 1).and (R.polymer [0, 1] (m + 1))) 1 hand
    (by rw [handar]; omega) (u.getD (m - 1) 0 :: u.take (m - 1))
    (by rw [handsz, handar, Nat.add_sub_cancel]; exact hv)
  rw [hfc, handsz, exists_tup_one R.size]
  apply exists_congr
  intro z
  rcases Nat.lt_or_ge z R.size with hz | hz
  case inr =>
    constructor
    · rintro ⟨h, _⟩; omega
    · rintro ⟨h, _⟩; omega
  have hx : Tup R.size (m + 1) (z :: u.getD (m - 1) 0 :: u.take (m - 1)) :=
    tup_cons _ _ z _ hz hv
  have key : (((test.polymer_insert 1).and (R.polymer [0, 1] (m + 1))).cell
      ([z] ++ u.getD (m - 1) 0 :: u.take (m - 1)) = true ↔
      (test.cell (z :: u.take (m - 1)) = true ∧ R.cell [z, u.getD (m - 1) 0] = true)) := by
    rw [List.singleton_append]
    rw [Relation.cell_and (test.polymer_insert 1) (R.polymer [0, 1] (m + 1)) hT1
      (by rw [Relation.size_polymer, Relation.size_polymer_insert, hTsz])
      (by rw [Relation.arity_polymer, hT1ar]) hlenP _
      (by rw [Relation.size_polymer_insert, hTsz, hT1ar]; exact hx), Bool.and_eq_true]
    rw [Relation.cell_polymer_insert_one test hT.1 (by rw [hTar]; exact hm) _
      (by rw [hTsz, hTar]; exact hx)]
    have hpc := Relation.cell_polymer R [0, 1] (m + 1) hR.1
      (by intro v hv2; simp at hv2; rcases hv2 with h | h <;> (rw [h]; omega))
      _ hx
    rw [hpc]
    simp only [List.map_cons, List.map_nil, List.getD_cons_zero, List.getD_cons_succ,
      List.drop_succ_cons, List.drop_zero]
  rw [key]

theorem tup_reverse (sz n : Nat) (x : List Nat) (h : Tup sz n x) : Tup sz n x.reverse :=
  ⟨by rw [List.length_reverse, h.1], fun c hc => h.2 c (List.mem_reverse.mp hc)⟩

theorem cell_loop2m (R : Relation) (hR : R.WF) (m : Nat) :
    ∀ (n : Nat) (test : Relation), test.WF → test.size = R.size → test.arity = m →
      n + 1 ≤ m →
      (Relation.loop2m (R.polymer [0, 1] (m + 1)) test n).size = R.size ∧
      (Relation.loop2m (R.polymer [0, 1] (m + 1)) test n).arity = m ∧
      (Relation.loop2m (R.polymer [0, 1] (m + 1)) test n).WF ∧
      ∀ u, Tup R.size m u →
        ((Relation.loop2m (R.polymer [0, 1] (m + 1)) test n).cell u = true ↔
          ∃ zs, Tup R.size n zs ∧
            test.cell (zs.reverse ++ u.take (m - n)) = true ∧
            ∀ i < n, R.cell [zs.getD i 0, u.getD (m - 1 - i) 0] = true) := by
  intro n
  induction n with
  | zero =>
    intro test hT hTsz hTar hnm
    refine ⟨by rw [Relation.loop2m, hTsz], by rw [Relation.loop2m, hTar],
      by rw [Relation.loop2m]; exact hT, fun u hu => ?_⟩
    rw [Relation.loop2m]
    constructor
    · intro h
      refine ⟨[], ⟨rfl, by intro c hc; simp at hc⟩, ?_, by intro i hi; omega⟩
      rw [List.reverse_nil, List.nil_append, Nat.sub_zero,
        List.take_of_length_le (le_of_eq hu.1)]
      exact h
    · rintro ⟨zs, hzs, hcell, _⟩
      obtain rfl : zs = [] := List.length_eq_zero.mp hzs.1
      rwa [List.reverse_nil, List.nil_append, Nat.sub_zero,
        List.take_of_length_le (le_of_eq hu.1)] at hcell
  | succ n ih =>
    intro test hT hTsz hTar hnm
    have hm : 1 ≤ m := by omega
    have hbody := cell_body2m R hR m hm test hT hTsz hTar
    rw [Relation.loop2m]
    have ihb := ih _ hbody.2.2.1 hbody.1 hbody.2.1 (by omega)
    refine ⟨ihb.1, ihb.2.1, ihb.2.2.1, fun u hu => ?_⟩
    rw [ihb.2.2.2 u hu]
    constructor
    · rintro ⟨zs, hzs, hcell, hpairs⟩
      have hw : Tup R.size m (zs.reverse ++ u.take (m - n)) := by
        have := tup_append R.size n (m - n) zs.reverse (u.take (m - n))
          (tup_reverse R.size n zs hzs)
          (tup_take R.size m (m - n) u hu (by omega))
        rwa [show n + (m - n) = m from by omega] at this
      rw [hbody.2.2.2 _ hw] at hcell
      obtain ⟨z, hzlt, hc1, hc2⟩ := hcell
      refine ⟨zs ++ [z], ⟨by simp [hzs.1], ?_⟩, ?_, ?_⟩
      · intro c hc
        rcases List.mem_append.mp hc with h | h
        · exact hzs.2 c h
        · simp at h; omega
      · rw [List.reverse_append, List.reverse_singleton, List.singleton_append]
        have htk : (zs.reverse ++ u.take (m - n)).take (m - 1) =
            zs.reverse ++ u.take (m - (n + 1)) := by
          rw [List.take_append_eq_append_take,
            List.take_of_length_le (by rw [List.length_reverse, hzs.1]; omega),
            List.length_reverse, hzs.1, List.take_take]
          have hmin : min (m - 1 - n) (m - n) = m - (n + 1) := by omega
          rw [hmin]
        rw [htk] at hc1
        exact hc1
      · intro i hi
        rcases Nat.lt_or_ge i n with hin | hin
        · rw [List.getD_append _ _ _ _ (by rw [hzs.1]; exact hin)]
          exact hpairs i hin
        · have hieq : i = n := by omega
          rw [hieq]
          rw [List.getD_append_right _ _ _ _ (by rw [hzs.1]), hzs.1, Nat.sub_self]
          have hgd : (zs.reverse ++ u.take (m - n)).getD (m - 1) 0
              = u.getD (m - 1 - n) 0 := by
            rw [List.getD_append_right _ _ _ _
                (by rw [List.length_reverse, hzs.1]; omega),
              List.length_reverse, hzs.1,
              getD_take _ _ _ _ (by omega)]
          rw [hgd] at hc2
          exact hc2
    · rintro ⟨zs, hzs, hcell, hpairs⟩
      have hlen1 : 1 ≤ zs.length := by rw [hzs.1]; omega
      obtain ⟨ys, z, hys⟩ : ∃ ys y, zs = ys ++ [y] := by
        rcases List.eq_nil_or_concat zs with h | ⟨ys, y, h⟩
        · rw [h] at hlen1; simp at hlen1
        · exact ⟨ys, y, by rw [h, List.concat_eq_append]⟩
      subst hys
      have hyslen : ys.length = n := by
        have := hzs.1
        simp at this
        omega
      have hztup : Tup R.size n ys :=
        ⟨hyslen, fun c hc => hzs.2 c (List.mem_append.mpr (Or.inl hc))⟩
      have hzlt : z < R.size := hzs.2 z (List.mem_append.mpr (Or.inr (by simp)))
      refine ⟨ys, hztup, ?_, fun i hi => ?_⟩
      · have hw : Tup R.size m (ys.reverse ++ u.take (m - n)) := by
          have := tup_append R.size n (m - n) ys.reverse (u.take (m - n))
            (tup_reverse R.size n ys hztup)
            (tup_take R.size m (m - n) u hu (by omega))
          rwa [show n + (m - n) = m from by omega] at this
        rw [hbody.2.2.2 _ hw]
        refine ⟨z, hzlt, ?_, ?_⟩
        · have htk : (ys.reverse ++ u.take (m - n)).take (m - 1) =
              ys.reverse ++ u.take (m - (n + 1)) := by
            rw [List.take_append_eq_append_take,
              List.take_of_length_le (by rw [List.length_reverse, hyslen]; omega),
              List.length_reverse, hyslen, List.take_take]
            have hmin : min (m - 1 - n) (m - n) = m - (n + 1) := by omega
            rw [hmin]
          rw [htk]
          have := hcell
          rwa [List.reverse_append, List.reverse_singleton, List.singleton_append] at this
        · have hgd : (ys.reverse ++ u.take (m - n)).getD (m - 1) 0
              = u.getD (m - 1 - n) 0 := by
            rw [List.getD_append_right _ _ _ _
                (by rw [List.length_reverse, hyslen]; omega),
              List.length_reverse, hyslen,
              getD_take _ _ _ _ (by omega)]
          rw [hgd]
          have := hpairs n (by omega)
          rwa [List.getD_append_right _ _ _ _ (by rw [hyslen]), hyslen,
            Nat.sub_self] at this
      · have := hpairs i (by omega)
        rwa [List.getD_append _ _ _ _ (by rw [hyslen]; exact hi)] at this

theorem shape_evaluate_2m (R oper0 oper1 : Relation) (hR : R.WF)
    (h0 : oper0.WF) (h1 : oper1.WF) (hs0 : oper0.size = R.size) (hs1 : oper1.size = R.size)
    (hm : 1 ≤ oper0.arity) (har : oper1.arity = oper0.arity) :
    (R.evaluate_2m oper0 oper1).size = R.size ∧
      (R.evaluate_2m oper0 oper1).arity = 2 ∧ (R.evaluate_2m oper0 oper1).WF := by
  have htest0 : (oper0.polymer_rotate (-(1 : Int))).WF := Relation.wf_polymer_rotate _ _ h0
  have hloop := cell_loop2m R hR oper0.arity (oper0.arity - 1)
    (oper0.polymer_rotate (-(1 : Int))) htest0 (by simp [hs0]) (by simp) (by omega)
  have hT5 : ((Relation.loop2m (R.polymer [0, 1] (oper0.arity + 1))
      (oper0.polymer_rotate (-(1 : Int))) (oper0.arity - 1)).polymer_insert 1).WF :=
    Relation.wf_polymer_insert _ 1 hloop.2.2.1.1
  have hT5ar : ((Relation.loop2m (R.polymer [0, 1] (oper0.arity + 1))
      (oper0.polymer_rotate (-(1 : Int))) (oper0.arity - 1)).polymer_insert 1).arity
      = oper0.arity + 1 := by
    rw [Relation.arity_polymer_insert, hloop.2.1]
  have hT5sz : ((Relation.loop2m (R.polymer [0, 1] (oper0.arity + 1))
      (oper0.polymer_rotate (-(1 : Int))) (oper0.arity - 1)).polymer_insert 1).size
      = R.size := by
    rw [Relation.size_polymer_insert, hloop.1]
  have ho1 : (oper1.polymer_insert 0).WF :=
    Relation.wf_polymer_insert _ 0 (by rw [hs1]; exact hR.1)
  have hlen : (oper1.polymer_insert 0).table.length
      = ((Relation.loop2m (R.polymer [0, 1] (oper0.arity + 1))
        (oper0.polymer_rotate (-(1 : Int))) (oper0.arity - 1)).polymer_insert 1).table.length
      := by
    rw [ho1.2, hT5.2, hT5sz, hT5ar, Relation.size_polymer_insert,
      Relation.arity_polymer_insert, hs1, har]
  have hT6 : (((Relation.loop2m (R.polymer [0, 1] (oper0.arity + 1))
      (oper0.polymer_rotate (-(1 : Int))) (oper0.arity - 1)).polymer_insert 1).and
      (oper1.polymer_insert 0)).WF :=
    ⟨hT5.1, by rw [Relation.length_table_and _ _ hlen, hT5.2]; rfl⟩
  have hT7 : ((((Relation.loop2m (R.polymer [0, 1] (oper0.arity + 1))
      (oper0.polymer_rotate (-(1 : Int))) (oper0.arity - 1)).polymer_insert 1).and
      (oper1.polymer_insert 0)).polymer_rotate (-(2 : Int))).WF :=
    Relation.wf_polymer_rotate _ _ hT6
  have hT7ar : ((((Relation.loop2m (R.polymer [0, 1] (oper0.arity + 1))
      (oper0.polymer_rotate (-(1 : Int))) (oper0.arity - 1)).polymer_insert 1).and
      (oper1.polymer_insert 0)).polymer_rotate (-(2 : Int))).arity = oper0.arity + 1 := by
    rw [Relation.arity_polymer_rotate, Relation.arity_and, hT5ar]
  have hT7sz : ((((Relation.loop2m (R.polymer [0, 1] (oper0.arity + 1))
      (oper0.polymer_rotate (-(1 : Int))) (oper0.arity - 1)).polymer_insert 1).and
      (oper1.polymer_insert 0)).polymer_rotate (-(2 : Int))).size = R.size := by
    rw [Relation.size_polymer_rotate, Relation.size_and, hT5sz]
  refine ⟨?_, ?_, ?_⟩
  · rw [Relation.evaluate_2m, Relation.fold_any, Relation.size_foldWith, hT7sz]
  · rw [Relation.evaluate_2m, Relation.fold_any, Relation.arity_foldWith, hT7ar]
    omega
  · exact Relation.wf_foldWith _ _ _ hT7 (by rw [hT7ar]; omega)

theorem cell_evaluate_2m (R oper0 oper1 : Relation) (hk : R.arity = 2) (hR : R.WF)
    (h0 : oper0.WF) (h1 : oper1.WF) (hs0 : oper0.size = R.size) (hs1 : oper1.size = R.size)
    (hm : 1 ≤ oper0.arity) (har : oper1.arity = oper0.arity)
    (y : List Nat) (hy : Tup R.size R.arity y) :
    ((R.evaluate_2m oper0 oper1).cell y = true) ↔ EvalSpec R [oper0, oper1] oper0.arity y := by
  have htest0 : (oper0.polymer_rotate (-(1 : Int))).WF := Relation.wf_polymer_rotate _ _ h0
  have hloop := cell_loop2m R hR oper0.arity (oper0.arity - 1)
    (oper0.polymer_rotate (-(1 : Int))) htest0 (by simp [hs0]) (by simp) (by omega)
  have hT5 : ((Relation.loop2m (R.polymer [0, 1] (oper0.arity + 1))
      (oper0.polymer_rotate (-(1 : Int))) (oper0.arity - 1)).polymer_insert 1).WF :=
    Relation.wf_polymer_insert _ 1 hloop.2.2.1.1
  have hT5ar : ((Relation.loop2m (R.polymer [0, 1] (oper0.arity + 1))
      (oper0.polymer_rotate (-(1 : Int))) (oper0.arity - 1)).polymer_insert 1).arity
      = oper0.arity + 1 := by
    rw [Relation.arity_polymer_insert, hloop.2.1]
  have hT5sz : ((Relation.loop2m (R.polymer [0, 1] (oper0.arity + 1))
      (oper0.polymer_rotate (-(1 : Int))) (oper0.arity - 1)).polymer_insert 1).size
      = R.size := by
    rw [Relation.size_polymer_insert, hloop.1]
  have ho1 : (oper1.polymer_insert 0).WF :=
    Relation.wf_polymer_insert _ 0 (by rw [hs1]; exact hR.1)
  have hlen : (oper1.polymer_insert 0).table.length
      = ((Relation.loop2m (R.polymer [0, 1] (oper0.arity + 1))
        (oper0.polymer_rotate (-(1 : Int))) (oper0.arity - 1)).polymer_insert 1).table.length
      := by
    rw [ho1.2, hT5.2, hT5sz, hT5ar, Relation.size_polymer_insert,
      Relation.arity_polymer_insert, hs1, har]
  have hT6 : (((Relation.loop2m (R.polymer [0, 1] (oper0.arity + 1))
      (oper0.polymer_rotate (-(1 : Int))) (oper0.arity - 1)).polymer_insert 1).and
      (oper1.polymer_insert 0)).WF :=
    ⟨hT5.1, by rw [Relation.length_table_and _ _ hlen, hT5.2]; rfl⟩
  have hT6ar : (((Relation.loop2m (R.polymer [0, 1] (oper0.arity + 1))
      (oper0.polymer_rotate (-(1 : Int))) (oper0.arity - 1)).polymer_insert 1).and
      (oper1.polymer_insert 0)).arity = oper0.arity + 1 := by
    rw [Relation.arity_and, hT5ar]
  have hT6sz : (((Relation.loop2m (R.polymer [0, 1] (oper0.arity + 1))
      (oper0.polymer_rotate (-(1 : Int))) (oper0.arity - 1)).polymer_insert 1).and
      (oper1.polymer_insert 0)).size = R.size := by
    rw [Relation.size_and, hT5sz]
  have hT7 : ((((Relation.loop2m (R.polymer [0, 1] (oper0.arity + 1))
      (oper0.polymer_rotate (-(1 : Int))) (oper0.arity - 1)).polymer_insert 1).and
      (oper1.polymer_insert 0)).polymer_rotate (-(2 : Int))).WF :=
    Relation.wf_polymer_rotate _ _ hT6
  have hT7ar : ((((Relation.loop2m (R.polymer [0, 1] (oper0.arity + 1))
      (oper0.polymer_rotate (-(1 : Int))) (oper0.arity - 1)).polymer_insert 1).and
      (oper1.polymer_insert 0)).polymer_rotate (-(2 : Int))).arity = oper0.arity + 1 := by
    rw [Relation.arity_polymer_rotate, hT6ar]
  have hT7sz : ((((Relation.loop2m (R.polymer [0, 1] (oper0.arity + 1))
      (oper0.polymer_rotate (-(1 : Int))) (oper0.arity - 1)).polymer_insert 1).and
      (oper1.polymer_insert 0)).polymer_rotate (-(2 : Int))).size = R.size := by
    rw [Relation.size_polymer_rotate, hT6sz]
  obtain ⟨y0, y1, rfl⟩ := List.length_eq_two.mp (show y.length = 2 by rw [hy.1, hk])
  have hy0 : y0 < R.size := hy.2 y0 (by simp)
  have hy1 : y1 < R.size := hy.2 y1 (by simp)
  have hy2 : Tup R.size 2 [y0, y1] :=
    tup_cons _ _ y0 _ hy0 (tup_cons _ _ y1 _ hy1
      ⟨rfl, fun c hc => absurd hc (List.not_mem_nil c)⟩)
  have hptw : ∀ ws, Tup R.size (oper0.arity - 1) ws →
      (((((Relation.loop2m (R.polymer [0, 1] (oper0.arity + 1))
          (oper0.polymer_rotate (-(1 : Int))) (oper0.arity - 1)).polymer_insert 1).and
        (oper1.polymer_insert 0)).polymer_rotate (-(2 : Int))).cell (ws ++ [y0, y1]) = true ↔
        ((∃ zs, Tup R.size (oper0.arity - 1) zs ∧
            oper0.cell (y0 :: zs.reverse) = true ∧
            ∀ i < oper0.arity - 1,
              R.cell [zs.getD i 0, ws.getD (oper0.arity - 2 - i) 0] = true) ∧
          oper1.cell (y1 :: ws) = true)) := by
    intro ws hws
    have hx : Tup R.size (oper0.arity + 1) (ws ++ [y0, y1]) := by
      have := tup_append R.size (oper0.arity - 1) 2 ws [y0, y1] hws hy2
      rwa [show oper0.arity - 1 + 2 = oper0.arity + 1 from by omega] at this
    have hrn := Relation.cell_polymer_rotate_neg
      ((((Relation.loop2m (R.polymer [0, 1] (oper0.arity + 1))
        (oper0.polymer_rotate (-(1 : Int))) (oper0.arity - 1)).polymer_insert 1).and
        (oper1.polymer_insert 0))) 2 (by rw [hT6ar]; omega) hT6.1 (ws ++ [y0, y1])
      (by rw [hT6sz, hT6ar]; exact hx)
    rw [Nat.cast_ofNat, hT6ar, show oper0.arity + 1 - 2 = oper0.arity - 1 from by omega]
      at hrn
    rw [hrn]
    have hdl : (ws ++ [y0, y1]).drop (oper0.arity - 1) = [y0, y1] := by
      rw [← hws.1]; exact List.drop_left ws [y0, y1]
    have htl : (ws ++ [y0, y1]).take (oper0.arity - 1) = ws := by
      rw [← hws.1]; exact List.take_left ws [y0, y1]
    rw [hdl, htl]
    have hx2 : Tup R.size (oper0.arity + 1) (y0 :: y1 :: ws) := by
      have := tup_cons _ _ y0 _ hy0 (tup_cons _ _ y1 _ hy1 hws)
      rwa [show oper0.arity - 1 + 1 + 1 = oper0.arity + 1 from by omega] at this
    have hca := Relation.cell_and
      ((Relation.loop2m (R.polymer [0, 1] (oper0.arity + 1))
        (oper0.polymer_rotate (-(1 : Int))) (oper0.arity - 1)).polymer_insert 1)
      (oper1.polymer_insert 0) hT5
      (by rw [Relation.size_polymer_insert, hs1, hT5sz])
      (by rw [Relation.arity_polymer_insert, har, hT5ar]) hlen (y0 :: y1 :: ws)
      (by rw [hT5sz, hT5ar]; exact hx2)
    have hc2 : [y0, y1] ++ ws = y0 :: y1 :: ws := rfl
    rw [hc2, hca, Bool.and_eq_true]
    have hins1 := Relation.cell_polymer_insert_one
      (Relation.loop2m (R.polymer [0, 1] (oper0.arity + 1))
        (oper0.polymer_rotate (-(1 : Int))) (oper0.arity - 1)) hloop.2.2.1.1
      (by rw [hloop.2.1]; exact hm) (y0 :: y1 :: ws)
      (by rw [hloop.1, hloop.2.1]; exact hx2)
    rw [hins1]
    simp only [List.getD_cons_zero, List.drop_succ_cons, List.drop_zero]
    have hins0 := Relation.cell_polymer_insert_zero oper1 (by rw [hs1]; exact hR.1)
      (y0 :: y1 :: ws) (by rw [hs1, har]; exact hx2)
    rw [hins0, List.drop_one, List.tail_cons]
    have hu : Tup R.size oper0.arity (y0 :: ws) := by
      have := tup_cons _ _ y0 _ hy0 hws
      rwa [show oper0.arity - 1 + 1 = oper0.arity from by omega] at this
    rw [hloop.2.2.2 (y0 :: ws) hu]
    constructor
    · rintro ⟨⟨zs, hzs, hc0, hp⟩, hc1⟩
      refine ⟨⟨zs, hzs, ?_, fun i hi => ?_⟩, hc1⟩
      · rw [show oper0.arity - (oper0.arity - 1) = 1 from by omega] at hc0
        have htk1 : (y0 :: ws).take 1 = [y0] := rfl
        rw [htk1] at hc0
        have hrn0 := Relation.cell_polymer_rotate_neg oper0 1 hm h0.1
          (zs.reverse ++ [y0]) (by
            rw [hs0]
            have := tup_append R.size (oper0.arity - 1) 1 zs.reverse [y0]
              (tup_reverse _ _ _ hzs) ⟨rfl, by intro c hc; simp at hc; rw [hc]; exact hy0⟩
            rwa [show oper0.arity - 1 + 1 = oper0.arity from by omega] at this)
        rw [Nat.cast_one] at hrn0
        rw [hrn0] at hc0
        have hd0 : (zs.reverse ++ [y0]).drop (oper0.arity - 1) = [y0] := by
          rw [show oper0.arity - 1 = zs.reverse.length from by
            rw [List.length_reverse, hzs.1]]
          exact List.drop_left zs.reverse [y0]
        have ht0 : (zs.reverse ++ [y0]).take (oper0.arity - 1) = zs.reverse := by
          rw [show oper0.arity - 1 = zs.reverse.length from by
            rw [List.length_reverse, hzs.1]]
          exact List.take_left zs.reverse [y0]
        rw [hd0, ht0] at hc0
        exact hc0
      · have := hp i hi
        rwa [show oper0.arity - 1 - i = (oper0.arity - 2 - i) + 1 from by omega,
          List.getD_cons_succ] at this
    · rintro ⟨⟨zs, hzs, hc0, hp⟩, hc1⟩
      refine ⟨⟨zs, hzs, ?_, fun i hi => ?_⟩, hc1⟩
      · rw [show oper0.arity - (oper0.arity - 1) = 1 from by omega]
        have htk1 : (y0 :: ws).take 1 = [y0] := rfl
        rw [htk1]
        have hrn0 := Relation.cell_polymer_rotate_neg oper0 1 hm h0.1
          (zs.reverse ++ [y0]) (by
            rw [hs0]
            have := tup_append R.size (oper0.arity - 1) 1 zs.reverse [y0]
              (tup_reverse _ _ _ hzs) ⟨rfl, by intro c hc; simp at hc; rw [hc]; exact hy0⟩
            rwa [show oper0.arity - 1 + 1 = oper0.arity from by omega] at this)
        rw [Nat.cast_one] at hrn0
        rw [hrn0]
        have hd0 : (zs.reverse ++ [y0]).drop (oper0.arity - 1) = [y0] := by
          rw [show oper0.arity - 1 = zs.reverse.length from by
            rw [List.length_reverse, hzs.1]]
          exact List.drop_left zs.reverse [y0]
        have ht0 : (zs.reverse ++ [y0]).take (oper0.arity - 1) = zs.reverse := by
          rw [show oper0.arity - 1 = zs.reverse.length from by
            rw [List.length_reverse, hzs.1]]
          exact List.take_left zs.reverse [y0]
        rw [hd0, ht0]
        exact hc0
      · have := hp i hi
        rwa [show oper0.arity - 1 - i = (oper0.arity - 2 - i) + 1 from by omega,
          List.getD_cons_succ]
  rw [Relation.evaluate_2m]
  have hfc := Relation.cell_fold_any
    ((((Relation.loop2m (R.polymer [0, 1] (oper0.arity + 1))
      (oper0.polymer_rotate (-(1 : Int))) (oper0.arity - 1)).polymer_insert 1).and
      (oper1.polymer_insert 0)).polymer_rotate (-(2 : Int))) (oper0.arity - 1) hT7
    (by rw [hT7ar]; omega) [y0, y1]
    (by
      rw [hT7sz, hT7ar, show oper0.arity + 1 - (oper0.arity - 1) = 2 from by omega]
      exact hy2)
  rw [hT7sz] at hfc
  rw [hfc]
  unfold EvalSpec
  constructor
  · rintro ⟨ws, hws, hcell⟩
    rw [hptw ws hws] at hcell
    obtain ⟨⟨zs, hzs, hc0, hp⟩, hc1⟩ := hcell
    refine ⟨(List.range (oper0.arity - 1)).map
      (fun j => [zs.reverse.getD j 0, ws.getD j 0]), by simp, ?_, ?_⟩
    · intro v hv
      obtain ⟨j, hj, rfl⟩ := List.mem_map.mp hv
      have hjlt : j < oper0.arity - 1 := List.mem_range.mp hj
      have ha : zs.reverse.getD j 0 < R.size :=
        tup_getD_lt _ _ _ (tup_reverse _ _ _ hzs) j hjlt
      have hb : ws.getD j 0 < R.size := tup_getD_lt _ _ _ hws j hjlt
      have htup2 : Tup R.size R.arity [zs.reverse.getD j 0, ws.getD j 0] := by
        rw [hk]
        exact tup_cons _ _ _ _ ha (tup_cons _ _ _ _ hb
          ⟨rfl, fun c hc => absurd hc (List.not_mem_nil c)⟩)
      refine ⟨htup2, ?_⟩
      have hrev : zs.reverse.getD j 0 = zs.getD (oper0.arity - 2 - j) 0 := by
        rw [getD_reverse zs j (by rw [hzs.1]; exact hjlt), hzs.1,
          show oper0.arity - 1 - 1 - j = oper0.arity - 2 - j from by omega]
      have := hp (oper0.arity - 2 - j) (by omega)
      rw [show oper0.arity - 2 - (oper0.arity - 2 - j) = j from by omega] at this
      rw [hrev]
      exact this
    · intro i hi
      rw [hk] at hi
      interval_cases i
      · show oper0.cell (y0 :: ((List.range (oper0.arity - 1)).map
          (fun j => [zs.reverse.getD j 0, ws.getD j 0])).map (fun v => v.getD 0 0)) = true
        have hmap : ((List.range (oper0.arity - 1)).map
            (fun j => [zs.reverse.getD j 0, ws.getD j 0])).map
            (fun v => v.getD 0 0) = zs.reverse := by
          rw [List.map_map]
          show (List.range (oper0.arity - 1)).map (fun j => zs.reverse.getD j 0)
            = zs.reverse
          rw [show (List.range (oper0.arity - 1)) = List.range zs.reverse.length from by
            rw [List.length_reverse, hzs.1]]
          exact map_getD_range zs.reverse 0
        rw [hmap]
        exact hc0
      · show oper1.cell (y1 :: ((List.range (oper0.arity - 1)).map
          (fun j => [zs.reverse.getD j 0, ws.getD j 0])).map (fun v => v.getD 1 0)) = true
        have hmap : ((List.range (oper0.arity - 1)).map
            (fun j => [zs.reverse.getD j 0, ws.getD j 0])).map
            (fun v => v.getD 1 0) = ws := by
          rw [List.map_map]
          show (List.range (oper0.arity - 1)).map (fun j => ws.getD j 0) = ws
          rw [show (List.range (oper0.arity - 1)) = List.range ws.length from by
            rw [hws.1]]
          exact map_getD_range ws 0
        rw [hmap]
        exact hc1
  · rintro ⟨vs, hvslen, hvmem, hconds⟩
    have hws : Tup R.size (oper0.arity - 1) (vs.map (fun v => v.getD 1 0)) := by
      refine ⟨by rw [List.length_map, hvslen], ?_⟩
      intro c hc
      obtain ⟨v, hv, rfl⟩ := List.mem_map.mp hc
      exact tup_getD_lt _ _ _ (hvmem v hv).1 1 (by rw [hk]; omega)
    refine ⟨vs.map (fun v => v.getD 1 0), hws, ?_⟩
    rw [hptw _ hws]
    have hzs : Tup R.size (oper0.arity - 1) (vs.map (fun v => v.getD 0 0)).reverse := by
      refine tup_reverse _ _ _ ⟨by rw [List.length_map, hvslen], ?_⟩
      intro c hc
      obtain ⟨v, hv, rfl⟩ := List.mem_map.mp hc
      exact tup_getD_lt _ _ _ (hvmem v hv).1 0 (by rw [hk]; omega)
    refine ⟨⟨(vs.map (fun v => v.getD 0 0)).reverse, hzs, ?_, fun i hi => ?_⟩, ?_⟩
    · rw [List.reverse_reverse]
      have := hconds 0 (by rw [hk]; omega)
      simpa using this
    · have hilt : i < (vs.map (fun (v : List Nat) => v.getD 0 0)).length := by
        rw [List.length_map, hvslen]
        exact hi
      have hrev : (vs.map (fun v => v.getD 0 0)).reverse.getD i 0
          = (vs.getD (oper0.arity - 2 - i) []).getD 0 0 := by
        rw [getD_reverse _ i hilt, List.length_map, hvslen,
          show oper0.arity - 1 - 1 - i = oper0.arity - 2 - i from by omega,
          getD_map_lt _ vs _ 0 [] (by rw [hvslen]; omega)]
      have hwsg : (vs.map (fun v => v.getD 1 0)).getD (oper0.arity - 2 - i) 0
          = (vs.getD (oper0.arity - 2 - i) []).getD 1 0 := by
        rw [getD_map_lt _ vs _ 0 [] (by rw [hvslen]; omega)]
      rw [hrev, hwsg]
      have hvin : vs.getD (oper0.arity - 2 - i) [] ∈ vs := by
        rw [List.getD_eq_getElem vs [] (by rw [hvslen]; omega)]
        exact List.getElem_mem _
      obtain ⟨hTv, hRv⟩ := hvmem _ hvin
      obtain ⟨a, b, hab⟩ := List.length_eq_two.mp (by rw [hTv.1, hk] : _ = 2)
      rw [hab]
      rw [hab] at hRv
      exact hRv
    · have := hconds 1 (by rw [hk]; omega)
      simpa using this

theorem Relation.cell_new_full (sz ar : Nat) (x : List Nat) (hx : Tup sz ar x) :
    (Relation.new_full sz ar).cell x = true := by
  unfold Relation.new_full Relation.new_const Relation.cell
  have henc : encodeTup sz x < sz ^ ar := by
    rw [← hx.1]
    exact encodeTup_lt sz x hx.2
  rw [List.getD_eq_getElem _ _ (by simpa using henc), List.getElem_replicate]

theorem mul_pred_add (k m : Nat) (hm : 1 ≤ m) : k * (m - 1) + k = k * m := by
  conv_rhs => rw [show m = (m - 1) + 1 from by omega]
  rw [Nat.mul_succ]

theorem col_idx_lt (k m j t : Nat) (hj : j < k) (ht : t < m) : j + t * k < k * m := by
  have h1 : t * k ≤ (m - 1) * k := Nat.mul_le_mul_right k (by omega)
  have h2 : (m - 1) * k + k = k * m := by rw [Nat.mul_comm (m - 1) k]; exact mul_pred_add k m (by omega)
  omega

theorem pyRange_stride (k m i : Nat) (hk : 1 ≤ k) (hi : i < k) (hm : 1 ≤ m) :
    pyRange i (k * m) k = (List.range m).map (fun t => i + t * k) := by
  unfold pyRange
  have hkm : k ≤ k * m := Nat.le_mul_of_pos_right k hm
  have he : k * m - i + k - 1 = k * m + (k - 1 - i) := by omega
  rw [he, Nat.mul_add_div (by omega), Nat.div_eq_of_lt (by omega), Nat.add_zero]

theorem pyRange_one (a k : Nat) : pyRange a (a + k) 1 = (List.range k).map (fun t => a + t) := by
  unfold pyRange
  rw [show a + k - a + 1 - 1 = k from by omega, Nat.div_one]
  apply List.map_congr_left
  intro t _
  rw [Nat.mul_one]

theorem pyRange_blocks (k m : Nat) (hk : 1 ≤ k) (hm : 1 ≤ m) :
    pyRange k (k * m) k = (List.range (m - 1)).map (fun t => k + t * k) := by
  unfold pyRange
  have hmul : k * m = k * (m - 1) + k := (mul_pred_add k m hm).symm
  have he : k * m - k + k - 1 = k * (m - 1) + (k - 1) := by omega
  rw [he, Nat.mul_add_div (by omega), Nat.div_eq_of_lt (by omega), Nat.add_zero]

theorem foldl_opers_nm (R : Relation) (hR : R.WF) (m : Nat) (hm : 1 ≤ m) :
    ∀ (os : List Relation) (j : Nat) (acc : Relation), acc.WF → acc.size = R.size →
      acc.arity = R.arity * m → j + os.length ≤ R.arity →
      (∀ o ∈ os, o.WF ∧ o.size = R.size ∧ o.arity = m) →
      ((os.enumFrom j).foldl (fun rel p =>
          rel.and (p.2.polymer (pyRange p.1 rel.arity R.arity) rel.arity)) acc).size
        = R.size ∧
      ((os.enumFrom j).foldl (fun rel p =>
          rel.and (p.2.polymer (pyRange p.1 rel.arity R.arity) rel.arity)) acc).arity
        = R.arity * m ∧
      ((os.enumFrom j).foldl (fun rel p =>
          rel.and (p.2.polymer (pyRange p.1 rel.arity R.arity) rel.arity)) acc).WF ∧
      ∀ x, Tup R.size (R.arity * m) x →
        ((((os.enumFrom j).foldl (fun rel p =>
            rel.and (p.2.polymer (pyRange p.1 rel.arity R.arity) rel.arity)) acc).cell x
          = true) ↔
          (acc.cell x = true ∧ ∀ i < os.length, (os.getD i junkRel).cell
            ((List.range m).map (fun t => x.getD (j + i + t * R.arity) 0)) = true)) := by
  intro os
  induction os with
  | nil =>
    intro j acc hacc haccsz haccar hjos hos
    refine ⟨haccsz, haccar, hacc, fun x hx => ?_⟩
    simp only [List.enumFrom, List.foldl_nil]
    constructor
    · intro h
      exact ⟨h, fun i hi => absurd hi (by simp)⟩
    · exact fun h => h.1
  | cons o os ih =>
    intro j acc hacc haccsz haccar hjos hos
    have hjk : j < R.arity := by
      have := hjos
      simp only [List.length_cons] at this
      omega
    have hk : 1 ≤ R.arity := by omega
    have ho := hos o (by simp)
    have hpoly : (o.polymer (pyRange j acc.arity R.arity) acc.arity).WF :=
      Relation.wf_polymer o _ _ (by rw [ho.2.1]; exact hR.1)
    have hlenp : (o.polymer (pyRange j acc.arity R.arity) acc.arity).table.length
        = acc.table.length := by
      rw [Relation.length_table_polymer, hacc.2, ho.2.1, haccsz]
    have hacc2 : (acc.and (o.polymer (pyRange j acc.arity R.arity) acc.arity)).WF :=
      ⟨hacc.1, by rw [Relation.length_table_and _ _ hlenp, hacc.2]; rfl⟩
    have hacc2sz : (acc.and (o.polymer (pyRange j acc.arity R.arity) acc.arity)).size
        = R.size := by rw [Relation.size_and, haccsz]
    have hacc2ar : (acc.and (o.polymer (pyRange j acc.arity R.arity) acc.arity)).arity
        = R.arity * m := by rw [Relation.arity_and, haccar]
    have hih := ih (j + 1) (acc.and (o.polymer (pyRange j acc.arity R.arity) acc.arity))
      hacc2 hacc2sz hacc2ar (by simp at hjos ⊢; omega) (fun o2 ho2 => hos o2 (by simp [ho2]))
    simp only [List.enumFrom, List.foldl_cons]
    refine ⟨hih.1, hih.2.1, hih.2.2.1, fun x hx => ?_⟩
    rw [hih.2.2.2 x hx]
    have hca := Relation.cell_and acc (o.polymer (pyRange j acc.arity R.arity) acc.arity)
      hacc (by rw [Relation.size_polymer, ho.2.1, haccsz])
      (by rw [Relation.arity_polymer]) hlenp x
      (by rw [haccsz, haccar]; exact hx)
    have hpyr : pyRange j acc.arity R.arity
        = (List.range m).map (fun t => j + t * R.arity) := by
      rw [haccar]
      exact pyRange_stride R.arity m j hk hjk hm
    have hpc := Relation.cell_polymer o (pyRange j acc.arity R.arity) acc.arity
      (by rw [ho.2.1]; exact hR.1)
      (by
        intro v hv
        rw [hpyr] at hv
        obtain ⟨t, ht, rfl⟩ := List.mem_map.mp hv
        rw [haccar]
        exact col_idx_lt R.arity m j t hjk (List.mem_range.mp ht)) x
      (by rw [ho.2.1, haccar]; exact hx)
    rw [hca, Bool.and_eq_true, hpc, hpyr, List.map_map]
    constructor
    · rintro ⟨⟨h1, h2⟩, h3⟩
      refine ⟨h1, fun i hi => ?_⟩
      rcases i with _ | i
      · show o.cell ((List.range m).map (fun t => x.getD (j + 0 + t * R.arity) 0)) = true
        have : ((fun i => x.getD i 0) ∘ (fun t => j + t * R.arity))
            = (fun t => x.getD (j + 0 + t * R.arity) 0) := by
          funext t
          show x.getD (j + t * R.arity) 0 = x.getD (j + 0 + t * R.arity) 0
          rw [Nat.add_zero]
        rw [← this]
        exact h2
      · have := h3 i (by simp at hi; omega)
        show (os.getD i junkRel).cell
          ((List.range m).map (fun t => x.getD (j + (i + 1) + t * R.arity) 0)) = true
        have harg : (fun t => x.getD (j + 1 + i + t * R.arity) 0)
            = (fun t => x.getD (j + (i + 1) + t * R.arity) 0) := by
          funext t
          rw [show j + 1 + i = j + (i + 1) from by omega]
        rw [← harg]
        exact this
    · rintro ⟨h1, h2⟩
      refine ⟨⟨h1, ?_⟩, fun i hi => ?_⟩
      · have := h2 0 (by simp)
        simp only [List.getD_cons_zero] at this
        have harg : ((fun i => x.getD i 0) ∘ (fun t => j + t * R.arity))
            = (fun t => x.getD (j + 0 + t * R.arity) 0) := by
          funext t
          show x.getD (j + t * R.arity) 0 = x.getD (j + 0 + t * R.arity) 0
          rw [Nat.add_zero]
        rw [harg]
        exact this
      · have := h2 (i + 1) (by simp; omega)
        simp only [List.getD_cons_succ] at this
        have harg : (fun t => x.getD (j + 1 + i + t * R.arity) 0)
            = (fun t => x.getD (j + (i + 1) + t * R.arity) 0) := by
          funext t
          rw [show j + 1 + i = j + (i + 1) from by omega]
        rw [harg]
        exact this

theorem foldl_blocks_nm (R : Relation) (hR : R.WF) (N : Nat) :
    ∀ (L : List Nat) (acc : Relation), acc.WF → acc.size = R.size → acc.arity = N →
      (∀ idx ∈ L, idx + R.arity ≤ N) →
      ((L.foldl (fun rel idx =>
          rel.and (R.polymer (pyRange idx (idx + R.arity) 1) rel.arity)) acc).size
        = R.size) ∧
      ((L.foldl (fun rel idx =>
          rel.and (R.polymer (pyRange idx (idx + R.arity) 1) rel.arity)) acc).arity = N) ∧
      ((L.foldl (fun rel idx =>
          rel.and (R.polymer (pyRange idx (idx + R.arity) 1) rel.arity)) acc).WF) ∧
      ∀ x, Tup R.size N x →
        (((L.foldl (fun rel idx =>
            rel.and (R.polymer (pyRange idx (idx + R.arity) 1) rel.arity)) acc).cell x
          = true) ↔
          (acc.cell x = true ∧ ∀ idx ∈ L, R.cell
            ((List.range R.arity).map (fun t => x.getD (idx + t) 0)) = true)) := by
  intro L
  induction L with
  | nil =>
    intro acc hacc haccsz haccar _
    refine ⟨haccsz, haccar, hacc, fun x hx => ?_⟩
    simp only [List.foldl_nil]
    constructor
    · intro h
      exact ⟨h, fun idx hidx => absurd hidx (List.not_mem_nil idx)⟩
    · exact fun h => h.1
  | cons a L ih =>
    intro acc hacc haccsz haccar hL
    have ha : a + R.arity ≤ N := hL a (by simp)
    have hpoly : (R.polymer (pyRange a (a + R.arity) 1) acc.arity).WF :=
      Relation.wf_polymer R _ _ hR.1
    have hlenp : (R.polymer (pyRange a (a + R.arity) 1) acc.arity).table.length
        = acc.table.length := by
      rw [Relation.length_table_polymer, hacc.2, haccsz]
    have hacc2 : (acc.and (R.polymer (pyRange a (a + R.arity) 1) acc.arity)).WF :=
      ⟨hacc.1, by rw [Relation.length_table_and _ _ hlenp, hacc.2]; rfl⟩
    have hih := ih (acc.and (R.polymer (pyRange a (a + R.arity) 1) acc.arity))
      hacc2 (by rw [Relation.size_and, haccsz]) (by rw [Relation.arity_and, haccar])
      (fun idx hidx => hL idx (by simp [hidx]))
    simp only [List.foldl_cons]
    refine ⟨hih.1, hih.2.1, hih.2.2.1, fun x hx => ?_⟩
    rw [hih.2.2.2 x hx]
    have hca := Relation.cell_and acc (R.polymer (pyRange a (a + R.arity) 1) acc.arity)
      hacc (by rw [Relation.size_polymer, haccsz])
      (by rw [Relation.arity_polymer]) hlenp x
      (by rw [haccsz, haccar]; exact hx)
    have hpc := Relation.cell_polymer R (pyRange a (a + R.arity) 1) acc.arity hR.1
      (by
        intro v hv
        rw [pyRange_one] at hv
        obtain ⟨t, ht, rfl⟩ := List.mem_map.mp hv
        rw [haccar]
        have := List.mem_range.mp ht
        omega) x
      (by rw [haccar]; exact hx)
    rw [hca, Bool.and_eq_true, hpc, pyRange_one, List.map_map]
    have harg : ((fun i => x.getD i 0) ∘ (fun t => a + t))
        = (fun t => x.getD (a + t) 0) := rfl
    rw [harg]
    constructor
    · rintro ⟨⟨h1, h2⟩, h3⟩
      refine ⟨h1, fun idx hidx => ?_⟩
      rcases List.mem_cons.mp hidx with h | h
      · rw [h]
        exact h2
      · exact h3 idx h
    · rintro ⟨h1, h2⟩
      exact ⟨⟨h1, h2 a (by simp)⟩, fun idx hidx => h2 idx (by simp [hidx])⟩

theorem blk_idx_le (k m s : Nat) (hs : s < m - 1) : k + s * k + k ≤ k * m := by
  have h1 : (s + 2) * k ≤ m * k := Nat.mul_le_mul_right k (by omega)
  have h2 : (s + 2) * k = s * k + 2 * k := Nat.add_mul s 2 k
  rw [Nat.mul_comm k m]
  omega

theorem shape_evaluate_nm (R : Relation) (opers : List Relation)
    (hlen : opers.length = R.arity) (hk : 1 ≤ R.arity) (hR : R.WF)
    (hm : 1 ≤ (opers.getD 0 junkRel).arity)
    (hops : ∀ o ∈ opers, o.WF ∧ o.size = R.size ∧ o.arity = (opers.getD 0 junkRel).arity) :
    (R.evaluate_nm opers).size = R.size ∧ (R.evaluate_nm opers).arity = R.arity ∧
      (R.evaluate_nm opers).WF := by
  have hrel0 : (Relation.new_full R.size (R.arity * (opers.getD 0 junkRel).arity)).WF :=
    ⟨hR.1, by simp [Relation.new_full, Relation.new_const]⟩
  have hA := foldl_opers_nm R hR (opers.getD 0 junkRel).arity hm opers 0
    (Relation.new_full R.size (R.arity * (opers.getD 0 junkRel).arity))
    hrel0 rfl rfl (by omega) hops
  have henum : opers.enum = opers.enumFrom 0 := rfl
  have hB := foldl_blocks_nm R hR (R.arity * (opers.getD 0 junkRel).arity)
    (pyRange R.arity ((opers.enum.foldl (fun rel p =>
      rel.and (p.2.polymer (pyRange p.1 rel.arity R.arity) rel.arity))
      (Relation.new_full R.size (R.arity * (opers.getD 0 junkRel).arity))).arity) R.arity)
    (opers.enum.foldl (fun rel p =>
      rel.and (p.2.polymer (pyRange p.1 rel.arity R.arity) rel.arity))
      (Relation.new_full R.size (R.arity * (opers.getD 0 junkRel).arity)))
    (by rw [henum]; exact hA.2.2.1) (by rw [henum]; exact hA.1) (by rw [henum]; exact hA.2.1)
    (by
      intro idx hidx
      rw [henum, hA.2.1, pyRange_blocks R.arity (opers.getD 0 junkRel).arity hk hm] at hidx
      obtain ⟨s, hs, rfl⟩ := List.mem_map.mp hidx
      exact blk_idx_le R.arity (opers.getD 0 junkRel).arity s (List.mem_range.mp hs))
  have hrot : (((pyRange R.arity ((opers.enum.foldl (fun rel p =>
      rel.and (p.2.polymer (pyRange p.1 rel.arity R.arity) rel.arity))
      (Relation.new_full R.size (R.arity * (opers.getD 0 junkRel).arity))).arity)
      R.arity).foldl
      (fun rel idx => rel.and (R.polymer (pyRange idx (idx + R.arity) 1) rel.arity))
      (opers.enum.foldl (fun rel p =>
        rel.and (p.2.polymer (pyRange p.1 rel.arity R.arity) rel.arity))
        (Relation.new_full R.size
          (R.arity * (opers.getD 0 junkRel).arity)))).polymer_rotate
      (-(R.arity : Int))).WF := Relation.wf_polymer_rotate _ _ hB.2.2.1
  have hE : R.evaluate_nm opers = (((pyRange R.arity ((opers.enum.foldl (fun rel p =>
      rel.and (p.2.polymer (pyRange p.1 rel.arity R.arity) rel.arity))
      (Relation.new_full R.size (R.arity * (opers.getD 0 junkRel).arity))).arity)
      R.arity).foldl
      (fun rel idx => rel.and (R.polymer (pyRange idx (idx + R.arity) 1) rel.arity))
      (opers.enum.foldl (fun rel p =>
        rel.and (p.2.polymer (pyRange p.1 rel.arity R.arity) rel.arity))
        (Relation.new_full R.size
          (R.arity * (opers.getD 0 junkRel).arity)))).polymer_rotate
      (-(R.arity : Int))).fold_any
      (R.arity * ((opers.getD 0 junkRel).arity - 1)) := rfl
  rw [hE]
  have hsub : R.arity * (opers.getD 0 junkRel).arity
      - R.arity * ((opers.getD 0 junkRel).arity - 1) = R.arity := by
    have := mul_pred_add R.arity (opers.getD 0 junkRel).arity hm
    omega
  refine ⟨?_, ?_, ?_⟩
  · rw [Relation.fold_any, Relation.size_foldWith, Relation.size_polymer_rotate, hB.1]
  · rw [Relation.fold_any, Relation.arity_foldWith, Relation.arity_polymer_rotate,
      hB.2.1, hsub]
  · refine Relation.wf_foldWith _ _ _ hrot ?_
    rw [Relation.arity_polymer_rotate, hB.2.1]
    have := mul_pred_add R.arity (opers.getD 0 junkRel).arity hm
    omega

theorem cell_evaluate_nm (R : Relation) (opers : List Relation)
    (hlen : opers.length = R.arity) (hk : 1 ≤ R.arity) (hR : R.WF)
    (hm : 1 ≤ (opers.getD 0 junkRel).arity)
    (hops : ∀ o ∈ opers, o.WF ∧ o.size = R.size ∧ o.arity = (opers.getD 0 junkRel).arity)
    (y : List Nat) (hy : Tup R.size R.arity y) :
    ((R.evaluate_nm opers).cell y = true) ↔
      EvalSpec R opers (opers.getD 0 junkRel).arity y := by
  have hrel0 : (Relation.new_full R.size (R.arity * (opers.getD 0 junkRel).arity)).WF :=
    ⟨hR.1, by simp [Relation.new_full, Relation.new_const]⟩
  have hA := foldl_opers_nm R hR (opers.getD 0 junkRel).arity hm opers 0
    (Relation.new_full R.size (R.arity * (opers.getD 0 junkRel).arity))
    hrel0 rfl rfl (by omega) hops
  have henum : opers.enum = opers.enumFrom 0 := rfl
  have hB := foldl_blocks_nm R hR (R.arity * (opers.getD 0 junkRel).arity)
    (pyRange R.arity ((opers.enum.foldl (fun rel p =>
      rel.and (p.2.polymer (pyRange p.1 rel.arity R.arity) rel.arity))
      (Relation.new_full R.size (R.arity * (opers.getD 0 junkRel).arity))).arity) R.arity)
    (opers.enum.foldl (fun rel p =>
      rel.and (p.2.polymer (pyRange p.1 rel.arity R.arity) rel.arity))
      (Relation.new_full R.size (R.arity * (opers.getD 0 junkRel).arity)))
    (by rw [henum]; exact hA.2.2.1) (by rw [henum]; exact hA.1) (by rw [henum]; exact hA.2.1)
    (by
      intro idx hidx
      rw [henum, hA.2.1, pyRange_blocks R.arity (opers.getD 0 junkRel).arity hk hm] at hidx
      obtain ⟨s, hs, rfl⟩ := List.mem_map.mp hidx
      exact blk_idx_le R.arity (opers.getD 0 junkRel).arity s (List.mem_range.mp hs))
  have hrot : (((pyRange R.arity ((opers.enum.foldl (fun rel p =>
      rel.and (p.2.polymer (pyRange p.1 rel.arity R.arity) rel.arity))
      (Relation.new_full R.size (R.arity * (opers.getD 0 junkRel).arity))).arity)
      R.arity).foldl
      (fun rel idx => rel.and (R.polymer (pyRange idx (idx + R.arity) 1) rel.arity))
      (opers.enum.foldl (fun rel p =>
        rel.and (p.2.polymer (pyRange p.1 rel.arity R.arity) rel.arity))
        (Relation.new_full R.size
          (R.arity * (opers.getD 0 junkRel).arity)))).polymer_rotate
      (-(R.arity : Int))).WF := Relation.wf_polymer_rotate _ _ hB.2.2.1
  have hrotar : (((pyRange R.arity ((opers.enum.foldl (fun rel p =>
      rel.and (p.2.polymer (pyRange p.1 rel.arity R.arity) rel.arity))
      (Relation.new_full R.size (R.arity * (opers.getD 0 junkRel).arity))).arity)
      R.arity).foldl
      (fun rel idx => rel.and (R.polymer (pyRange idx (idx + R.arity) 1) rel.arity))
      (opers.enum.foldl (fun rel p =>
        rel.and (p.2.polymer (pyRange p.1 rel.arity R.arity) rel.arity))
        (Relation.new_full R.size
          (R.arity * (opers.getD 0 junkRel).arity)))).polymer_rotate
      (-(R.arity : Int))).arity = R.arity * (opers.getD 0 junkRel).arity := by
    rw [Relation.arity_polymer_rotate, hB.2.1]
  have hrotsz : (((pyRange R.arity ((opers.enum.foldl (fun rel p =>
      rel.and (p.2.polymer (pyRange p.1 rel.arity R.arity) rel.arity))
      (Relation.new_full R.size (R.arity * (opers.getD 0 junkRel).arity))).arity)
      R.arity).foldl
      (fun rel idx => rel.and (R.polymer (pyRange idx (idx + R.arity) 1) rel.arity))
      (opers.enum.foldl (fun rel p =>
        rel.and (p.2.polymer (pyRange p.1 rel.arity R.arity) rel.arity))
        (Relation.new_full R.size
          (R.arity * (opers.getD 0 junkRel).arity)))).polymer_rotate
      (-(R.arity : Int))).size = R.size := by
    rw [Relation.size_polymer_rotate, hB.1]
  have hE : R.evaluate_nm opers = (((pyRange R.arity ((opers.enum.foldl (fun rel p =>
      rel.and (p.2.polymer (pyRange p.1 rel.arity R.arity) rel.arity))
      (Relation.new_full R.size (R.arity * (opers.getD 0 junkRel).arity))).arity)
      R.arity).foldl
      (fun rel idx => rel.and (R.polymer (pyRange idx (idx + R.arity) 1) rel.arity))
      (opers.enum.foldl (fun rel p =>
        rel.and (p.2.polymer (pyRange p.1 rel.arity R.arity) rel.arity))
        (Relation.new_full R.size
          (R.arity * (opers.getD 0 junkRel).arity)))).polymer_rotate
      (-(R.arity : Int))).fold_any
      (R.arity * ((opers.getD 0 junkRel).arity - 1)) := rfl
  have hmp := mul_pred_add R.arity (opers.getD 0 junkRel).arity hm
  rw [hE]
  have hfc := Relation.cell_fold_any (((pyRange R.arity ((opers.enum.foldl (fun rel p =>
      rel.and (p.2.polymer (pyRange p.1 rel.arity R.arity) rel.arity))
      (Relation.new_full R.size (R.arity * (opers.getD 0 junkRel).arity))).arity)
      R.arity).foldl
      (fun rel idx => rel.and (R.polymer (pyRange idx (idx + R.arity) 1) rel.arity))
      (opers.enum.foldl (fun rel p =>
        rel.and (p.2.polymer (pyRange p.1 rel.arity R.arity) rel.arity))
        (Relation.new_full R.size
          (R.arity * (opers.getD 0 junkRel).arity)))).polymer_rotate
      (-(R.arity : Int))) (R.arity * ((opers.getD 0 junkRel).arity - 1)) hrot
    (by rw [hrotar]; omega) y
    (by
      rw [hrotsz, hrotar, show R.arity * (opers.getD 0 junkRel).arity
        - R.arity * ((opers.getD 0 junkRel).arity - 1) = R.arity from by omega]
      exact hy)
  rw [hrotsz] at hfc
  rw [hfc]
  have hylen : y.length = R.arity := hy.1
  have hptw : ∀ ws, Tup R.size (R.arity * ((opers.getD 0 junkRel).arity - 1)) ws →
      ((((pyRange R.arity ((opers.enum.foldl (fun rel p =>
          rel.and (p.2.polymer (pyRange p.1 rel.arity R.arity) rel.arity))
          (Relation.new_full R.size (R.arity * (opers.getD 0 junkRel).arity))).arity)
          R.arity).foldl
          (fun rel idx => rel.and (R.polymer (pyRange idx (idx + R.arity) 1) rel.arity))
          (opers.enum.foldl (fun rel p =>
            rel.and (p.2.polymer (pyRange p.1 rel.arity R.arity) rel.arity))
            (Relation.new_full R.size
              (R.arity * (opers.getD 0 junkRel).arity)))).polymer_rotate
          (-(R.arity : Int))).cell (ws ++ y) = true ↔
        ((∀ i < opers.length, (opers.getD i junkRel).cell
            ((List.range (opers.getD 0 junkRel).arity).map
              (fun t => (y ++ ws).getD (0 + i + t * R.arity) 0)) = true) ∧
          ∀ s < (opers.getD 0 junkRel).arity - 1, R.cell ((List.range R.arity).map
            (fun t => (y ++ ws).getD (R.arity + s * R.arity + t) 0)) = true)) := by
    intro ws hws
    have hxw : Tup R.size (R.arity * (opers.getD 0 junkRel).arity) (ws ++ y) := by
      have := tup_append R.size (R.arity * ((opers.getD 0 junkRel).arity - 1)) R.arity
        ws y hws hy
      rwa [hmp] at this
    have hxy : Tup R.size (R.arity * (opers.getD 0 junkRel).arity) (y ++ ws) := by
      have := tup_append R.size R.arity (R.arity * ((opers.getD 0 junkRel).arity - 1))
        y ws hy hws
      rwa [show R.arity + R.arity * ((opers.getD 0 junkRel).arity - 1)
        = R.arity * (opers.getD 0 junkRel).arity from by omega] at this
    have hrn := Relation.cell_polymer_rotate_neg ((pyRange R.arity ((opers.enum.foldl
        (fun rel p =>
          rel.and (p.2.polymer (pyRange p.1 rel.arity R.arity) rel.arity))
        (Relation.new_full R.size (R.arity * (opers.getD 0 junkRel).arity))).arity)
        R.arity).foldl
        (fun rel idx => rel.and (R.polymer (pyRange idx (idx + R.arity) 1) rel.arity))
        (opers.enum.foldl (fun rel p =>
          rel.and (p.2.polymer (pyRange p.1 rel.arity R.arity) rel.arity))
          (Relation.new_full R.size
            (R.arity * (opers.getD 0 junkRel).arity)))) R.arity
      (by rw [hB.2.1]; exact Nat.le_mul_of_pos_right R.arity hm) hB.2.2.1.1 (ws ++ y)
      (by rw [hB.1, hB.2.1]; exact hxw)
    rw [hB.2.1, show R.arity * (opers.getD 0 junkRel).arity - R.arity
      = R.arity * ((opers.getD 0 junkRel).arity - 1) from by omega] at hrn
    rw [hrn]
    have hd : (ws ++ y).drop (R.arity * ((opers.getD 0 junkRel).arity - 1)) = y := by
      rw [← hws.1]
      exact List.drop_left ws y
    have ht : (ws ++ y).take (R.arity * ((opers.getD 0 junkRel).arity - 1)) = ws := by
      rw [← hws.1]
      exact List.take_left ws y
    rw [hd, ht]
    rw [hB.2.2.2 (y ++ ws) hxy]
    rw [henum, hA.2.2.2 (y ++ ws) hxy]
    have h0 : (Relation.new_full R.size
        (R.arity * (opers.getD 0 junkRel).arity)).cell (y ++ ws) = true :=
      Relation.cell_new_full _ _ _ hxy
    rw [iff_true_intro h0, true_and]
    rw [hA.2.1, pyRange_blocks R.arity (opers.getD 0 junkRel).arity hk hm]
    constructor
    · rintro ⟨hc, hblk⟩
      refine ⟨hc, fun s hs => ?_⟩
      exact hblk (R.arity + s * R.arity)
        (List.mem_map.mpr ⟨s, List.mem_range.mpr hs, rfl⟩)
    · rintro ⟨hc, hblk⟩
      refine ⟨hc, fun idx hidx => ?_⟩
      obtain ⟨s, hs, rfl⟩ := List.mem_map.mp hidx
      exact hblk s (List.mem_range.mp hs)
  unfold EvalSpec
  constructor
  · rintro ⟨ws, hws, hcell⟩
    rw [hptw ws hws] at hcell
    obtain ⟨hC, hBlk⟩ := hcell
    refine ⟨(List.range ((opers.getD 0 junkRel).arity - 1)).map
      (fun s => (ws.drop (s * R.arity)).take R.arity), by simp, ?_, ?_⟩
    · intro v hv
      obtain ⟨s, hsmem, rfl⟩ := List.mem_map.mp hv
      have hs : s < (opers.getD 0 junkRel).arity - 1 := List.mem_range.mp hsmem
      have hsL : s * R.arity + R.arity ≤ ws.length := by
        rw [hws.1]
        have h1 : (s + 1) * R.arity
            ≤ ((opers.getD 0 junkRel).arity - 1) * R.arity :=
          Nat.mul_le_mul_right _ (by omega)
        have h2 : (s + 1) * R.arity = s * R.arity + R.arity := Nat.succ_mul s R.arity
        rw [Nat.mul_comm R.arity ((opers.getD 0 junkRel).arity - 1)]
        omega
      have hvtup : Tup R.size R.arity ((ws.drop (s * R.arity)).take R.arity) := by
        refine ⟨by rw [List.length_take, List.length_drop]; omega, ?_⟩
        intro c hc
        exact hws.2 c (List.mem_of_mem_drop (List.mem_of_mem_take hc))
      refine ⟨hvtup, ?_⟩
      have hblk := hBlk s hs
      have hveq : (List.range R.arity).map
          (fun t => (y ++ ws).getD (R.arity + s * R.arity + t) 0)
          = (ws.drop (s * R.arity)).take R.arity := by
        conv_rhs => rw [← map_getD_range ((ws.drop (s * R.arity)).take R.arity) 0]
        rw [hvtup.1]
        apply List.map_congr_left
        intro t htm
        have htk : t < R.arity := List.mem_range.mp htm
        rw [getD_take _ _ _ _ htk, getD_drop,
          List.getD_append_right _ _ _ _ (by rw [hylen]; omega), hylen,
          show R.arity + s * R.arity + t - R.arity = s * R.arity + t from by omega]
      rw [hveq] at hblk
      exact hblk
    · intro i hi
      have hiop : i < opers.length := by rw [hlen]; exact hi
      have hc := hC i hiop
      have hleq : (List.range (opers.getD 0 junkRel).arity).map
          (fun t => (y ++ ws).getD (0 + i + t * R.arity) 0)
          = y.getD i 0 :: ((List.range ((opers.getD 0 junkRel).arity - 1)).map
            (fun s => (ws.drop (s * R.arity)).take R.arity)).map
            (fun v => v.getD i 0) := by
        rw [List.map_map]
        rw [show (opers.getD 0 junkRel).arity
          = ((opers.getD 0 junkRel).arity - 1) + 1 from by omega,
          List.range_succ_eq_map, List.map_cons, List.map_map]
        congr 1
        · rw [show 0 + i + 0 * R.arity = i from by omega]
          exact List.getD_append _ _ _ _ (by rw [hylen]; exact hi)
        · apply List.map_congr_left
          intro s hsm
          have hs : s < (opers.getD 0 junkRel).arity - 1 := List.mem_range.mp hsm
          show (y ++ ws).getD (0 + i + (s + 1) * R.arity) 0
            = ((ws.drop (s * R.arity)).take R.arity).getD i 0
          have hidx : 0 + i + (s + 1) * R.arity = R.arity + (s * R.arity + i) := by
            have h1 := Nat.add_mul s 1 R.arity
            have h2 := Nat.one_mul R.arity
            omega
          rw [hidx, getD_take _ _ _ _ hi, getD_drop,
            List.getD_append_right _ _ _ _ (by rw [hylen]; omega), hylen,
            Nat.add_sub_cancel_left]
      rw [hleq] at hc
      exact hc
  · rintro ⟨vs, hvslen, hvmem, hconds⟩
    have hwsT : Tup R.size (R.arity * ((opers.getD 0 junkRel).arity - 1))
        ((List.range (R.arity * ((opers.getD 0 junkRel).arity - 1))).map
          (fun p => (vs.getD (p / R.arity) []).getD (p % R.arity) 0)) := by
      refine ⟨by simp, ?_⟩
      intro c hc
      obtain ⟨p, hpm, rfl⟩ := List.mem_map.mp hc
      have hp : p < R.arity * ((opers.getD 0 junkRel).arity - 1) := List.mem_range.mp hpm
      have hsdiv : p / R.arity < (opers.getD 0 junkRel).arity - 1 := by
        rw [Nat.div_lt_iff_lt_mul (by omega : 0 < R.arity)]
        rw [Nat.mul_comm]
        exact hp
      have hvin : vs.getD (p / R.arity) [] ∈ vs := by
        rw [List.getD_eq_getElem vs [] (by rw [hvslen]; exact hsdiv)]
        exact List.getElem_mem _
      exact tup_getD_lt _ _ _ (hvmem _ hvin).1 (p % R.arity)
        (Nat.mod_lt p (by omega))
    have hwsg : ∀ s t, s < (opers.getD 0 junkRel).arity - 1 → t < R.arity →
        ((List.range (R.arity * ((opers.getD 0 junkRel).arity - 1))).map
          (fun p => (vs.getD (p / R.arity) []).getD (p % R.arity) 0)).getD
          (s * R.arity + t) 0 = (vs.getD s []).getD t 0 := by
      intro s t hs ht
      have hlt : s * R.arity + t < R.arity * ((opers.getD 0 junkRel).arity - 1) := by
        have := col_idx_lt R.arity ((opers.getD 0 junkRel).arity - 1) t s ht hs
        omega
      rw [getD_map_lt (fun p => (vs.getD (p / R.arity) []).getD (p % R.arity) 0)
        (List.range (R.arity * ((opers.getD 0 junkRel).arity - 1)))
        (s * R.arity + t) 0 0 (by rw [List.length_range]; exact hlt)]
      rw [List.getD_eq_getElem (List.range (R.arity * ((opers.getD 0 junkRel).arity
          - 1))) 0 (by rw [List.length_range]; exact hlt),
        List.getElem_range]
      have hdiv : (s * R.arity + t) / R.arity = s := by
        rw [show s * R.arity + t = t + R.arity * s from by ring,
          Nat.add_mul_div_left _ _ (by omega : 0 < R.arity),
          Nat.div_eq_of_lt ht, Nat.zero_add]
      have hmod : (s * R.arity + t) % R.arity = t := by
        rw [show s * R.arity + t = t + R.arity * s from by ring,
          Nat.add_mul_mod_self_left, Nat.mod_eq_of_lt ht]
      rw [hdiv, hmod]
    refine ⟨(List.range (R.arity * ((opers.getD 0 junkRel).arity - 1))).map
      (fun p => (vs.getD (p / R.arity) []).getD (p % R.arity) 0), hwsT, ?_⟩
    rw [hptw _ hwsT]
    constructor
    · intro i hiop
      have hi : i < R.arity := by rw [← hlen]; exact hiop
      have hc := hconds i hi
      have hvsmap : vs.map (fun v => v.getD i 0)
          = (List.range ((opers.getD 0 junkRel).arity - 1)).map
            (fun s => (vs.getD s []).getD i 0) := by
        conv_lhs => rw [← map_getD_range vs []]
        rw [List.map_map, hvslen]
        rfl
      rw [hvsmap] at hc
      have hleq : (List.range (opers.getD 0 junkRel).arity).map
          (fun t => (y ++ (List.range (R.arity * ((opers.getD 0 junkRel).arity
            - 1))).map
            (fun p => (vs.getD (p / R.arity) []).getD (p % R.arity) 0)).getD
            (0 + i + t * R.arity) 0)
          = y.getD i 0 :: (List.range ((opers.getD 0 junkRel).arity - 1)).map
            (fun s => (vs.getD s []).getD i 0) := by
        rw [show (opers.getD 0 junkRel).arity
          = ((opers.getD 0 junkRel).arity - 1) + 1 from by omega,
          List.range_succ_eq_map, List.map_cons, List.map_map]
        congr 1
        · rw [show 0 + i + 0 * R.arity = i from by omega]
          exact List.getD_append _ _ _ _ (by rw [hylen]; exact hi)
        · apply List.map_congr_left
          intro s hsm
          have hs : s < (opers.getD 0 junkRel).arity - 1 := List.mem_range.mp hsm
          show (y ++ (List.range (R.arity * ((opers.getD 0 junkRel).arity - 1))).map
            (fun p => (vs.getD (p / R.arity) []).getD (p % R.arity) 0)).getD
            (0 + i + (s + 1) * R.arity) 0 = (vs.getD s []).getD i 0
          have hidx : 0 + i + (s + 1) * R.arity = R.arity + (s * R.arity + i) := by
            have h1 := Nat.add_mul s 1 R.arity
            have h2 := Nat.one_mul R.arity
            omega
          rw [hidx, List.getD_append_right _ _ _ _ (by rw [hylen]; omega), hylen,
            Nat.add_sub_cancel_left]
          exact hwsg s i hs hi
      rw [hleq]
      exact hc
    · intro s hs
      have hvin : vs.getD s [] ∈ vs := by
        rw [List.getD_eq_getElem vs [] (by rw [hvslen]; exact hs)]
        exact List.getElem_mem _
      obtain ⟨hTv, hRv⟩ := hvmem _ hvin
      have hveq : (List.range R.arity).map
          (fun t => (y ++ (List.range (R.arity * ((opers.getD 0 junkRel).arity
            - 1))).map
            (fun p => (vs.getD (p / R.arity) []).getD (p % R.arity) 0)).getD
            (R.arity + s * R.arity + t) 0) = vs.getD s [] := by
        conv_rhs => rw [← map_getD_range (vs.getD s []) 0]
        rw [hTv.1]
        apply List.map_congr_left
        intro t htm
        have htk : t < R.arity := List.mem_range.mp htm
        rw [show R.arity + s * R.arity + t = R.arity + (s * R.arity + t) from by omega,
          List.getD_append_right _ _ _ _ (by rw [hylen]; omega), hylen,
          Nat.add_sub_cancel_left]
        exact hwsg s t hs htk
      rw [hveq]
      exact hRv

theorem evalspec_congr (R : Relation) (opers opers2 : List Relation) (m : Nat)
    (y : List Nat) (h : ∀ i < R.arity, opers.getD i junkRel = opers2.getD i junkRel) :
    EvalSpec R opers m y ↔ EvalSpec R opers2 m y := by
  unfold EvalSpec
  apply exists_congr
  intro vs
  constructor
  · rintro ⟨h1, h2, h3⟩
    exact ⟨h1, h2, fun i hi => by rw [← h i hi]; exact h3 i hi⟩
  · rintro ⟨h1, h2, h3⟩
    exact ⟨h1, h2, fun i hi => by rw [h i hi]; exact h3 i hi⟩

theorem rel_eq_of_cell (A B : Relation) (hsz : A.size = B.size) (har : A.arity = B.arity)
    (hA : A.WF) (hB : B.WF)
    (h : ∀ x, Tup A.size A.arity x → A.cell x = B.cell x) : A = B := by
  obtain ⟨sa, aa, ta⟩ := A
  obtain ⟨sb, ab, tb⟩ := B
  simp only at hsz har
  subst hsz
  subst har
  have hlen : ta.length = tb.length := by
    rw [hA.2, hB.2]
  have htab : ta = tb := by
    apply List.ext_getElem hlen
    intro p hpa hpb
    have hpsz : p < sa ^ aa := by
      rw [← hA.2]
      exact hpa
    have hx := tup_digitsLE sa aa p hA.1
    have := h (digitsLE sa aa p) hx
    unfold Relation.cell at this
    simp only at this
    rw [encodeTup_digitsLE sa aa p hpsz] at this
    rw [List.getD_eq_getElem ta false hpa, List.getD_eq_getElem tb false hpb] at this
    exact this
  rw [htab]

theorem opers_getD_mem (opers : List Relation) (i : Nat) (hi : i < opers.length) :
    opers.getD i junkRel ∈ opers := by
  rw [List.getD_eq_getElem opers junkRel hi]
  exact List.getElem_mem _

theorem evaluate_master (R : Relation) (opers : List Relation)
    (hlen : opers.length = R.arity) (hk : 1 ≤ R.arity) (hR : R.WF)
    (hm : 1 ≤ (opers.getD 0 junkRel).arity)
    (hops : ∀ o ∈ opers, o.WF ∧ o.size = R.size ∧ o.arity = (opers.getD 0 junkRel).arity) :
    (((opers.getD 0 junkRel).arity ≤ 3 ∨ R.arity ≤ 2) →
      ∃ E, R.evaluate opers = Except.ok E ∧ E.size = R.size ∧ E.arity = R.arity ∧ E.WF ∧
        ∀ y, Tup R.size R.arity y →
          (E.cell y = true ↔ EvalSpec R opers (opers.getD 0 junkRel).arity y)) ∧
    (¬((opers.getD 0 junkRel).arity ≤ 3 ∨ R.arity ≤ 2) →
      R.evaluate opers = Except.error ()) := by
  have hEv : R.evaluate opers =
      (if ((opers.getD 0 junkRel).arity == 1) = true
        then Except.ok (R.evaluate_n1 opers)
        else if (R.arity == 1) = true
          then Except.ok (R.evaluate_1m (opers.getD 0 junkRel))
        else if ((opers.getD 0 junkRel).arity == 2) = true
          then Except.ok (R.evaluate_n2 opers)
        else if (R.arity == 2) = true
          then Except.ok (R.evaluate_2m (opers.getD 0 junkRel) (opers.getD 1 junkRel))
        else if ((opers.getD 0 junkRel).arity == 3) = true
          then Except.ok (R.evaluate_n3 opers)
        else Except.error ()) := rfl
  have hmem0 : opers.getD 0 junkRel ∈ opers := opers_getD_mem opers 0 (by omega)
  have ho0 := hops _ hmem0
  by_cases hM1 : (opers.getD 0 junkRel).arity = 1
  · have hev : R.evaluate opers = Except.ok (R.evaluate_n1 opers) := by
      rw [hEv, if_pos (by rw [hM1]; rfl)]
    have hops1 : ∀ o ∈ opers, o.WF ∧ o.size = R.size ∧ o.arity = 1 := fun o ho =>
      ⟨(hops o ho).1, (hops o ho).2.1, by rw [(hops o ho).2.2, hM1]⟩
    have hshape := shape_evaluate_n1 R opers hlen hk hR hops1
    refine ⟨fun _ => ⟨R.evaluate_n1 opers, hev, hshape.1, hshape.2.1, hshape.2.2, ?_⟩,
      fun hno => absurd (Or.inl (by omega)) hno⟩
    intro y hy
    rw [cell_evaluate_n1 R opers hlen hk hR hops1 y hy, hM1]
  · by_cases hk1 : R.arity = 1
    · have hev : R.evaluate opers
          = Except.ok (R.evaluate_1m (opers.getD 0 junkRel)) := by
        rw [hEv, if_neg (by simp only [beq_iff_eq]; exact hM1), if_pos (by rw [hk1]; rfl)]
      have hshape := shape_evaluate_1m R (opers.getD 0 junkRel) hR hk1 ho0.1 ho0.2.1 hm
      refine ⟨fun _ => ⟨R.evaluate_1m (opers.getD 0 junkRel), hev,
        hshape.1, hshape.2.1, hshape.2.2, ?_⟩,
        fun hno => absurd (Or.inr (by omega)) hno⟩
      intro y hy
      rw [cell_evaluate_1m R (opers.getD 0 junkRel) hR hk1 ho0.1 ho0.2.1 hm y
        (by rw [← hk1]; exact hy)]
      exact evalspec_congr R [opers.getD 0 junkRel] opers _ y (by
        intro i hi
        rw [hk1] at hi
        interval_cases i
        rfl)
    · by_cases hM2 : (opers.getD 0 junkRel).arity = 2
      · have hev : R.evaluate opers = Except.ok (R.evaluate_n2 opers) := by
          rw [hEv, if_neg (by simp only [beq_iff_eq]; exact hM1),
            if_neg (by simp only [beq_iff_eq]; exact hk1), if_pos (by rw [hM2]; rfl)]
        have hops2 : ∀ o ∈ opers, o.WF ∧ o.size = R.size ∧ o.arity = 2 := fun o ho =>
          ⟨(hops o ho).1, (hops o ho).2.1, by rw [(hops o ho).2.2, hM2]⟩
        have hshape := shape_evaluate_n2 R opers hlen hk hR hops2
        refine ⟨fun _ => ⟨R.evaluate_n2 opers, hev, hshape.1, hshape.2.1, hshape.2.2, ?_⟩,
          fun hno => absurd (Or.inl (by omega)) hno⟩
        intro y hy
        rw [cell_evaluate_n2 R opers hlen hk hR hops2 y hy, hM2]
      · by_cases hk2 : R.arity = 2
        · have hmem1 : opers.getD 1 junkRel ∈ opers := opers_getD_mem opers 1 (by omega)
          have ho1 := hops _ hmem1
          have hev : R.evaluate opers = Except.ok
              (R.evaluate_2m (opers.getD 0 junkRel) (opers.getD 1 junkRel)) := by
            rw [hEv, if_neg (by simp only [beq_iff_eq]; exact hM1),
              if_neg (by simp only [beq_iff_eq]; exact hk1),
              if_neg (by simp only [beq_iff_eq]; exact hM2), if_pos (by rw [hk2]; rfl)]
          have hshape := shape_evaluate_2m R (opers.getD 0 junkRel) (opers.getD 1 junkRel)
            hR ho0.1 ho1.1 ho0.2.1 ho1.2.1 hm ho1.2.2
          refine ⟨fun _ => ⟨R.evaluate_2m (opers.getD 0 junkRel) (opers.getD 1 junkRel),
            hev, hshape.1, by rw [hshape.2.1, hk2], hshape.2.2, ?_⟩,
            fun hno => absurd (Or.inr (by omega)) hno⟩
          intro y hy
          rw [cell_evaluate_2m R (opers.getD 0 junkRel) (opers.getD 1 junkRel) hk2 hR
            ho0.1 ho1.1 ho0.2.1 ho1.2.1 hm ho1.2.2 y hy]
          exact evalspec_congr R [opers.getD 0 junkRel, opers.getD 1 junkRel] opers _ y (by
            intro i hi
            rw [hk2] at hi
            interval_cases i <;> rfl)
        · by_cases hM3 : (opers.getD 0 junkRel).arity = 3
          · have hev : R.evaluate opers = Except.ok (R.evaluate_n3 opers) := by
              rw [hEv, if_neg (by simp only [beq_iff_eq]; exact hM1),
                if_neg (by simp only [beq_iff_eq]; exact hk1),
                if_neg (by simp only [beq_iff_eq]; exact hM2),
                if_neg (by simp only [beq_iff_eq]; exact hk2), if_pos (by rw [hM3]; rfl)]
            have hops3 : ∀ o ∈ opers, o.WF ∧ o.size = R.size ∧ o.arity = 3 := fun o ho =>
              ⟨(hops o ho).1, (hops o ho).2.1, by rw [(hops o ho).2.2, hM3]⟩
            have hshape := shape_evaluate_n3 R opers hlen hk hR hops3
            refine ⟨fun _ => ⟨R.evaluate_n3 opers, hev, hshape.1, hshape.2.1,
              hshape.2.2, ?_⟩,
              fun hno => absurd (Or.inl (by omega)) hno⟩
            intro y hy
            rw [cell_evaluate_n3 R opers hlen hk hR hops3 y hy, hM3]
          · have hev : R.evaluate opers = Except.error () := by
              rw [hEv, if_neg (by simp only [beq_iff_eq]; exact hM1),
                if_neg (by simp only [beq_iff_eq]; exact hk1),
                if_neg (by simp only [beq_iff_eq]; exact hM2),
                if_neg (by simp only [beq_iff_eq]; exact hk2),
                if_neg (by simp only [beq_iff_eq]; exact hM3)]
            refine ⟨fun hdisp => absurd hdisp (by omega), fun _ => hev⟩

/-- C1 (amended): under the entry preconditions and for every dispatched
(relation arity, operation arity) pair, Relation.evaluate returns a
relation E of the SAME arity as R (not arity m) with E(y) true iff there
exist m - 1 tuples related by R whose columns, together with y, satisfy
every operation graph (output in coordinate 0). -/
theorem C1_evaluate_image (R : Relation) (opers : List Relation)
    (hlen : opers.length = R.arity) (hk : 1 ≤ R.arity) (hR : R.WF)
    (hm : 1 ≤ (opers.getD 0 junkRel).arity)
    (hops : ∀ o ∈ opers, o.WF ∧ o.size = R.size ∧ o.arity = (opers.getD 0 junkRel).arity)
    (hdisp : (opers.getD 0 junkRel).arity ≤ 3 ∨ R.arity ≤ 2) :
    ∃ E, R.evaluate opers = Except.ok E ∧ E.size = R.size ∧ E.arity = R.arity ∧ E.WF ∧
      ∀ y, Tup R.size R.arity y →
        (E.cell y = true ↔ EvalSpec R opers (opers.getD 0 junkRel).arity y) :=
  (evaluate_master R opers hlen hk hR hm hops).1 hdisp

/-- C1 counterexample: a unary relation R with a single binary operation
(m = 2) evaluates to a relation of arity 1, not the claimed arity m = 2. -/
theorem C1_counterexample :
    Relation.evaluate ⟨2, 1, [true, true]⟩ [⟨2, 2, [true, true, true, true]⟩]
        = Except.ok (⟨2, 1, [true, true]⟩ : Relation) ∧
      (⟨2, 1, [true, true]⟩ : Relation).arity ≠ 2 :=
  ⟨rfl, by decide⟩

/-- C1 witness: the amended theorem applied at a concrete input. -/
theorem C1_evaluate_image_witness :
    ∃ E, Relation.evaluate ⟨2, 1, [true, false]⟩ [⟨2, 1, [false, true]⟩]
        = Except.ok E ∧ E.size = 2 ∧ E.arity = 1 ∧ E.WF ∧
      ∀ y, Tup 2 1 y → (E.cell y = true ↔
        EvalSpec ⟨2, 1, [true, false]⟩ [⟨2, 1, [false, true]⟩] 1 y) :=
  C1_evaluate_image ⟨2, 1, [true, false]⟩ [⟨2, 1, [false, true]⟩]
    rfl (by decide) (by decide) (by decide) (by decide) (Or.inl (by decide))

/-- C3 (amended): under the entry preconditions Relation.evaluate returns a
result exactly when the operation arity is at most 3 or the relation arity
is at most 2; with operation arity at least 4 and relation arity at least 3
the NotImplementedError branch is reached. -/
theorem C3_evaluate_domain (R : Relation) (opers : List Relation)
    (hlen : opers.length = R.arity) (hk : 1 ≤ R.arity) (hR : R.WF)
    (hm : 1 ≤ (opers.getD 0 junkRel).arity)
    (hops : ∀ o ∈ opers, o.WF ∧ o.size = R.size ∧ o.arity = (opers.getD 0 junkRel).arity) :
    (∃ E, R.evaluate opers = Except.ok E) ↔
      ((opers.getD 0 junkRel).arity ≤ 3 ∨ R.arity ≤ 2) := by
  constructor
  · rintro ⟨E, hE⟩
    by_contra hno
    rw [(evaluate_master R opers hlen hk hR hm hops).2 hno] at hE
    exact Except.noConfusion hE
  · intro hdisp
    obtain ⟨E, hE, _⟩ := (evaluate_master R opers hlen hk hR hm hops).1 hdisp
    exact ⟨E, hE⟩

/-- C3 counterexample: a well-formed arity-3 relation with three arity-4
operations satisfies every entry precondition yet evaluate raises
(models the NotImplementedError branch). -/
theorem C3_counterexample :
    (Relation.WF ⟨1, 3, [true]⟩ ∧ Relation.WF ⟨1, 4, [true]⟩) ∧
    Relation.evaluate ⟨1, 3, [true]⟩ [⟨1, 4, [true]⟩, ⟨1, 4, [true]⟩, ⟨1, 4, [true]⟩]
      = Except.error () :=
  ⟨by constructor <;> exact ⟨by decide, by decide⟩, rfl⟩

/-- C3 witness: the amended theorem applied at a concrete input. -/
theorem C3_evaluate_domain_witness :
    (∃ E, Relation.evaluate ⟨2, 1, [true, false]⟩ [⟨2, 1, [false, true]⟩]
      = Except.ok E) ↔ ((1 : Nat) ≤ 3 ∨ (1 : Nat) ≤ 2) :=
  C3_evaluate_domain ⟨2, 1, [true, false]⟩ [⟨2, 1, [false, true]⟩]
    rfl (by decide) (by decide) (by decide) (by decide)

/-- C2: every specialized evaluate path returns a table equal to the
generic fallback _evaluate_nm on its whole domain (so in particular
cell-for-cell on the exhaustively tested sizes and arities). -/
theorem C2_specialized_eq_nm (R : Relation) (opers : List Relation)
    (hlen : opers.length = R.arity) (hk : 1 ≤ R.arity) (hR : R.WF)
    (hm : 1 ≤ (opers.getD 0 junkRel).arity)
    (hops : ∀ o ∈ opers, o.WF ∧ o.size = R.size ∧ o.arity = (opers.getD 0 junkRel).arity) :
    ((opers.getD 0 junkRel).arity = 1 → R.evaluate_n1 opers = R.evaluate_nm opers) ∧
    (R.arity = 1 → R.evaluate_1m (opers.getD 0 junkRel) = R.evaluate_nm opers) ∧
    ((opers.getD 0 junkRel).arity = 2 → R.evaluate_n2 opers = R.evaluate_nm opers) ∧
    (R.arity = 2 → R.evaluate_2m (opers.getD 0 junkRel) (opers.getD 1 junkRel)
      = R.evaluate_nm opers) ∧
    ((opers.getD 0 junkRel).arity = 3 → R.evaluate_n3 opers = R.evaluate_nm opers) := by
  have hmem0 : opers.getD 0 junkRel ∈ opers := opers_getD_mem opers 0 (by omega)
  have ho0 := hops _ hmem0
  have hnmS := shape_evaluate_nm R opers hlen hk hR hm hops
  have hnmC := cell_evaluate_nm R opers hlen hk hR hm hops
  refine ⟨fun hM1 => ?_, fun hk1 => ?_, fun hM2 => ?_, fun hk2 => ?_, fun hM3 => ?_⟩
  · have hops1 : ∀ o ∈ opers, o.WF ∧ o.size = R.size ∧ o.arity = 1 := fun o ho =>
      ⟨(hops o ho).1, (hops o ho).2.1, by rw [(hops o ho).2.2, hM1]⟩
    have hS := shape_evaluate_n1 R opers hlen hk hR hops1
    refine rel_eq_of_cell _ _ (by rw [hS.1, hnmS.1]) (by rw [hS.2.1, hnmS.2.1])
      hS.2.2 hnmS.2.2 (fun x hx => ?_)
    rw [hS.1, hS.2.1] at hx
    rw [Bool.eq_iff_iff, cell_evaluate_n1 R opers hlen hk hR hops1 x hx, hnmC x hx, hM1]
  · have hS := shape_evaluate_1m R (opers.getD 0 junkRel) hR hk1 ho0.1 ho0.2.1 hm
    refine rel_eq_of_cell _ _ (by rw [hS.1, hnmS.1]) (by rw [hS.2.1, hnmS.2.1])
      hS.2.2 hnmS.2.2 (fun x hx => ?_)
    rw [hS.1, hS.2.1] at hx
    rw [Bool.eq_iff_iff, cell_evaluate_1m R (opers.getD 0 junkRel) hR hk1 ho0.1 ho0.2.1
      hm x (by rw [← hk1]; exact hx), hnmC x hx]
    exact evalspec_congr R [opers.getD 0 junkRel] opers _ x (by
      intro i hi
      rw [hk1] at hi
      interval_cases i
      rfl)
  · have hops2 : ∀ o ∈ opers, o.WF ∧ o.size = R.size ∧ o.arity = 2 := fun o ho =>
      ⟨(hops o ho).1, (hops o ho).2.1, by rw [(hops o ho).2.2, hM2]⟩
    have hS := shape_evaluate_n2 R opers hlen hk hR hops2
    refine rel_eq_of_cell _ _ (by rw [hS.1, hnmS.1]) (by rw [hS.2.1, hnmS.2.1])
      hS.2.2 hnmS.2.2 (fun x hx => ?_)
    rw [hS.1, hS.2.1] at hx
    rw [Bool.eq_iff_iff, cell_evaluate_n2 R opers hlen hk hR hops2 x hx, hnmC x hx, hM2]
  · have hmem1 : opers.getD 1 junkRel ∈ opers := opers_getD_mem opers 1 (by omega)
    have ho1 := hops _ hmem1
    have hS := shape_evaluate_2m R (opers.getD 0 junkRel) (opers.getD 1 junkRel)
      hR ho0.1 ho1.1 ho0.2.1 ho1.2.1 hm ho1.2.2
    refine rel_eq_of_cell _ _ (by rw [hS.1, hnmS.1])
      (by rw [hS.2.1, hnmS.2.1, hk2]) hS.2.2 hnmS.2.2 (fun x hx => ?_)
    rw [hS.1, hS.2.1] at hx
    rw [Bool.eq_iff_iff, cell_evaluate_2m R (opers.getD 0 junkRel) (opers.getD 1 junkRel)
      hk2 hR ho0.1 ho1.1 ho0.2.1 ho1.2.1 hm ho1.2.2 x (by rw [hk2]; exact hx),
      hnmC x (by rw [hk2]; exact hx)]
    exact evalspec_congr R [opers.getD 0 junkRel, opers.getD 1 junkRel] opers _ x (by
      intro i hi
      rw [hk2] at hi
      interval_cases i <;> rfl)
  · have hops3 : ∀ o ∈ opers, o.WF ∧ o.size = R.size ∧ o.arity = 3 := fun o ho =>
      ⟨(hops o ho).1, (hops o ho).2.1, by rw [(hops o ho).2.2, hM3]⟩
    have hS := shape_evaluate_n3 R opers hlen hk hR hops3
    refine rel_eq_of_cell _ _ (by rw [hS.1, hnmS.1]) (by rw [hS.2.1, hnmS.2.1])
      hS.2.2 hnmS.2.2 (fun x hx => ?_)
    rw [hS.1, hS.2.1] at hx
    rw [Bool.eq_iff_iff, cell_evaluate_n3 R opers hlen hk hR hops3 x hx, hnmC x hx, hM3]

/-- C2 witness: the equivalence theorem applied at a concrete input. -/
theorem C2_specialized_eq_nm_witness :
    (((([⟨2, 1, [false, true]⟩] : List Relation).getD 0 junkRel).arity = 1 →
      Relation.evaluate_n1 ⟨2, 1, [true, false]⟩ [⟨2, 1, [false, true]⟩]
        = Relation.evaluate_nm ⟨2, 1, [true, false]⟩ [⟨2, 1, [false, true]⟩]) ∧
    ((Relation.arity ⟨2, 1, [true, false]⟩) = 1 →
      Relation.evaluate_1m ⟨2, 1, [true, false]⟩
          (([⟨2, 1, [false, true]⟩] : List Relation).getD 0 junkRel)
        = Relation.evaluate_nm ⟨2, 1, [true, false]⟩ [⟨2, 1, [false, true]⟩]) ∧
    ((([⟨2, 1, [false, true]⟩] : List Relation).getD 0 junkRel).arity = 2 →
      Relation.evaluate_n2 ⟨2, 1, [true, false]⟩ [⟨2, 1, [false, true]⟩]
        = Relation.evaluate_nm ⟨2, 1, [true, false]⟩ [⟨2, 1, [false, true]⟩]) ∧
    ((Relation.arity ⟨2, 1, [true, false]⟩) = 2 →
      Relation.evaluate_2m ⟨2, 1, [true, false]⟩
          (([⟨2, 1, [false, true]⟩] : List Relation).getD 0 junkRel)
          (([⟨2, 1, [false, true]⟩] : List Relation).getD 1 junkRel)
        = Relation.evaluate_nm ⟨2, 1, [true, false]⟩ [⟨2, 1, [false, true]⟩]) ∧
    ((([⟨2, 1, [false, true]⟩] : List Relation).getD 0 junkRel).arity = 3 →
      Relation.evaluate_n3 ⟨2, 1, [true, false]⟩ [⟨2, 1, [false, true]⟩]
        = Relation.evaluate_nm ⟨2, 1, [true, false]⟩ [⟨2, 1, [false, true]⟩])) :=
  C2_specialized_eq_nm ⟨2, 1, [true, false]⟩ [⟨2, 1, [false, true]⟩]
    rfl (by decide) (by decide) (by decide) (by decide)

/-- C4: polymer reindexes a table: the result has arity new_arity and its
cell at x equals the cell of T at the coordinates selected by new_vars
(repeated targets give diagonals, untargeted coordinates are broadcast). -/
theorem C4_polymer (T : Relation) (nv : List Nat) (na : Nat) (hWF : T.WF)
    (hlen : nv.length = T.arity) (htg : ∀ v ∈ nv, v < na)
    (x : List Nat) (hx : Tup T.size na x) :
    (T.polymer nv na).arity = na ∧ (T.polymer nv na).size = T.size ∧
      (T.polymer nv na).WF ∧
      (T.polymer nv na).cell x = T.cell (nv.map (fun i => x.getD i 0)) :=
  ⟨Relation.arity_polymer T nv na, Relation.size_polymer T nv na,
   Relation.wf_polymer T nv na hWF.1,
   Relation.cell_polymer T nv na hWF.1 htg x hx⟩

/-- C4 witness: polymer with the swap map on the binary inequality
relation, applied at a concrete tuple. -/
theorem C4_polymer_witness :
    (Relation.polymer ⟨2, 2, [false, true, true, false]⟩ [1, 0] 2).arity = 2 ∧
    (Relation.polymer ⟨2, 2, [false, true, true, false]⟩ [1, 0] 2).size
      = Relation.size ⟨2, 2, [false, true, true, false]⟩ ∧
    (Relation.polymer ⟨2, 2, [false, true, true, false]⟩ [1, 0] 2).WF ∧
    (Relation.polymer ⟨2, 2, [false, true, true, false]⟩ [1, 0] 2).cell [1, 0]
      = Relation.cell ⟨2, 2, [false, true, true, false]⟩
          (([1, 0] : List Nat).map (fun i => ([1, 0] : List Nat).getD i 0)) :=
  C4_polymer ⟨2, 2, [false, true, true, false]⟩ [1, 0] 2
    (by decide) (by decide) (by decide) [1, 0] (by decide)

/-- C5 (amended): the four folds collapse the LEADING count coordinates
(the count lowest-indexed, least-significant coordinates in the
new_singleton/decode convention), not the trailing ones: cell y of the
fold is the existential / universal / exactly-one / at-most-one
combination of the cells z ++ y over all count-tuples z; folding the full
arity yields a length-1 table. -/
theorem C5_folds (R : Relation) (count : Nat) (hWF : R.WF) (hc : count ≤ R.arity) :
    (R.fold_any count).arity = R.arity - count ∧
    (R.fold_all count).arity = R.arity - count ∧
    (R.fold_one count).arity = R.arity - count ∧
    (R.fold_amo count).arity = R.arity - count ∧
    (∀ y, Tup R.size (R.arity - count) y →
      (((R.fold_any count).cell y = true) ↔
        ∃ z, Tup R.size count z ∧ R.cell (z ++ y) = true) ∧
      (((R.fold_all count).cell y = true) ↔
        ∀ z, Tup R.size count z → R.cell (z ++ y) = true) ∧
      (((R.fold_one count).cell y = true) ↔
        (allTups R.size count).countP (fun z => R.cell (z ++ y)) = 1) ∧
      (((R.fold_amo count).cell y = true) ↔
        (allTups R.size count).countP (fun z => R.cell (z ++ y)) ≤ 1)) ∧
    (R.fold_any R.arity).table.length = 1 := by
  refine ⟨rfl, rfl, rfl, rfl, fun y hy =>
    ⟨Relation.cell_fold_any R count hWF hc y hy,
     Relation.cell_fold_all R count hWF hc y hy,
     Relation.cell_fold_one R count hWF hc y hy,
     Relation.cell_fold_amo R count hWF hc y hy⟩, ?_⟩
  have hwf := Relation.wf_foldWith R anyB R.arity hWF (le_refl _)
  rw [Relation.fold_any]
  rw [hwf.2, Relation.arity_foldWith, Nat.sub_self, pow_zero]

/-- C5 counterexample: for the binary relation true only at the tuple
(0, 1), folding one coordinate with fold_any quantifies over the leading
coordinate, so cell 0 of the fold is false although quantifying over the
trailing coordinate as the claim reads would make it true. -/
theorem C5_counterexample :
    (Relation.fold_any ⟨2, 2, [false, false, true, false]⟩ 1).cell [0] = false ∧
    (Relation.cell ⟨2, 2, [false, false, true, false]⟩ [0, 0] ||
      Relation.cell ⟨2, 2, [false, false, true, false]⟩ [0, 1]) = true := by
  decide

/-- C5 witness: the amended fold theorem applied at a concrete relation. -/
theorem C5_folds_witness :
    (Relation.fold_any ⟨2, 2, [false, false, true, false]⟩ 1).arity = 2 - 1 ∧
    (Relation.fold_all ⟨2, 2, [false, false, true, false]⟩ 1).arity = 2 - 1 ∧
    (Relation.fold_one ⟨2, 2, [false, false, true, false]⟩ 1).arity = 2 - 1 ∧
    (Relation.fold_amo ⟨2, 2, [false, false, true, false]⟩ 1).arity = 2 - 1 ∧
    (∀ y, Tup 2 (2 - 1) y →
      (((Relation.fold_any ⟨2, 2, [false, false, true, false]⟩ 1).cell y = true) ↔
        ∃ z, Tup 2 1 z ∧
          Relation.cell ⟨2, 2, [false, false, true, false]⟩ (z ++ y) = true) ∧
      (((Relation.fold_all ⟨2, 2, [false, false, true, false]⟩ 1).cell y = true) ↔
        ∀ z, Tup 2 1 z →
          Relation.cell ⟨2, 2, [false, false, true, false]⟩ (z ++ y) = true) ∧
      (((Relation.fold_one ⟨2, 2, [false, false, true, false]⟩ 1).cell y = true) ↔
        (allTups 2 1).countP
          (fun z => Relation.cell ⟨2, 2, [false, false, true, false]⟩ (z ++ y)) = 1) ∧
      (((Relation.fold_amo ⟨2, 2, [false, false, true, false]⟩ 1).cell y = true) ↔
        (allTups 2 1).countP
          (fun z => Relation.cell ⟨2, 2, [false, false, true, false]⟩ (z ++ y)) ≤ 1)) ∧
    (Relation.fold_any ⟨2, 2, [false, false, true, false]⟩
      (Relation.arity ⟨2, 2, [false, false, true, false]⟩)).table.length = 1 :=
  C5_folds ⟨2, 2, [false, false, true, false]⟩ 1 (by decide) (by decide)

/-- Operation is a finite operation table in the constant-literal model
(operation.py class Operation backed by a constant BitVec): a size, an
arity, and the graph table of length size ^ (arity + 1) with the output
coordinate first. -/
structure Operation where
  size : Nat
  arity : Nat
  table : List Bool
deriving DecidableEq, Repr

/-- Operation.WF is the constructor invariant: positive size and a table
of length size ^ (arity + 1). -/
def Operation.WF (f : Operation) : Prop :=
  0 < f.size ∧ f.table.length = f.size ^ (f.arity + 1)

instance (f : Operation) : Decidable f.WF := by
  unfold Operation.WF; infer_instance

/-- as_relation reinterprets the operation graph as a relation of arity
arity + 1 (operation.py Operation.as_relation). -/
def Operation.as_relation (f : Operation) : Relation :=
  ⟨f.size, f.arity + 1, f.table⟩

/-- closure passes the operation graph once to evaluate, one copy per
coordinate of R (relation.py Relation.closure). -/
def Relation.closure (R : Relation) (f : Operation) : Except Unit Relation :=
  R.evaluate (List.replicate R.arity f.as_relation)

/-- decode reads the table block by block and appends the index of the
first true literal of each block, silently skipping a block with no true
literal (operation.py Operation.decode). -/
def Operation.decode (f : Operation) : List Nat :=
  (pyRange 0 f.table.length f.size).filterMap
    (fun start => (List.range f.size).find? (fun i => f.table.getD (start + i) false))

/-- new_diag builds the diagonal relation by setting every step-th entry
of an all-false table, where step = (size^arity - 1) / (size - 1); a zero
step is the invalid python range step, modelled as an error
(relation.py Relation.new_diag). -/
def Relation.new_diag (size arity : Nat) : Except Unit Relation :=
  if size ≤ 1 then Except.ok ⟨size, arity, [true]⟩
  else if (size ^ arity - 1) / (size - 1) = 0 then Except.error ()
  else Except.ok ⟨size, arity,
    (pyRange 0 (size ^ arity) ((size ^ arity - 1) / (size - 1))).foldl
      (fun t idx => t.set idx true) (List.replicate (size ^ arity) false)⟩

/-- Modelled from the spec: constructing a fresh Operation (or PartialOp)
from a live solver allocates size ^ (arity + 1) fresh variables and posts
one constraint per length-size block; a block is the list of variable
indices it constrains (operation.py Operation.__init__ and
PartialOp.__init__, solver-backed branch). -/
def operationInitBlocks (size arity : Nat) : List (List Nat) :=
  (pyRange 0 (size ^ (arity + 1)) size).map
    (fun start => (List.range size).map (fun i => start + i))

/-- Modelled from the spec: a model satisfies an ensure_one constraint
when exactly one of the constrained literals is true in it. -/
def SatisfiesOne (f : List Bool) (blk : List Nat) : Prop :=
  blk.countP (fun i => f.getD i false) = 1

/-- Modelled from the spec: a model satisfies an ensure_amo constraint
when at most one of the constrained literals is true in it. -/
def SatisfiesAmo (f : List Bool) (blk : List Nat) : Prop :=
  blk.countP (fun i => f.getD i false) ≤ 1

instance (f : List Bool) (blk : List Nat) : Decidable (SatisfiesOne f blk) := by
  unfold SatisfiesOne; infer_instance

instance (f : List Bool) (blk : List Nat) : Decidable (SatisfiesAmo f blk) := by
  unfold SatisfiesAmo; infer_instance

theorem pyRange_size_blocks (size n : Nat) (hsz : 1 ≤ size) :
    pyRange 0 (size * n) size = (List.range n).map (fun t => t * size) := by
  unfold pyRange
  have he : size * n - 0 + size - 1 = size * n + (size - 1) := by
    have : 0 ≤ size * n := Nat.zero_le _
    omega
  rw [he, Nat.mul_add_div (by omega), Nat.div_eq_of_lt (by omega), Nat.add_zero]
  apply List.map_congr_left
  intro t _
  omega

/-- C6: every model of the constraints posted by a fresh solver-backed
Operation construction has exactly one true literal in each of the
size ^ arity output blocks, and every model of the PartialOp constraints
has at most one. -/
theorem C6_functionality (size arity : Nat) (hsz : 1 ≤ size) (f g : List Bool)
    (hone : ∀ blk ∈ operationInitBlocks size arity, SatisfiesOne f blk)
    (hamo : ∀ blk ∈ operationInitBlocks size arity, SatisfiesAmo g blk) :
    ∀ b < size ^ arity,
      ((List.range size).map (fun i => b * size + i)).countP
        (fun i => f.getD i false) = 1 ∧
      ((List.range size).map (fun i => b * size + i)).countP
        (fun i => g.getD i false) ≤ 1 := by
  intro b hb
  have hmem : ((List.range size).map (fun i => b * size + i))
      ∈ operationInitBlocks size arity := by
    unfold operationInitBlocks
    apply List.mem_map.mpr
    refine ⟨b * size, ?_, rfl⟩
    rw [show size ^ (arity + 1) = size * size ^ arity from by
        rw [pow_succ, Nat.mul_comm],
      pyRange_size_blocks size (size ^ arity) hsz]
    exact List.mem_map.mpr ⟨b, List.mem_range.mpr hb, rfl⟩
  exact ⟨hone _ hmem, hamo _ hmem⟩

/-- C6 witness: the functionality theorem applied to a concrete model of
the nullary constraints over universe size 2, at block 0. -/
theorem C6_functionality_witness :
    ((List.range 2).map (fun i => 0 * 2 + i)).countP
      (fun i => ([true, false] : List Bool).getD i false) = 1 ∧
    ((List.range 2).map (fun i => 0 * 2 + i)).countP
      (fun i => ([false, false] : List Bool).getD i false) ≤ 1 :=
  C6_functionality 2 0 (by decide) [true, false] [false, false] (by decide) (by decide)
    0 (by decide)

/-- C7 (amended): closure is a single evaluate step, the one-step image of
R under the operation graph, not an iterated fixpoint: the returned
relation E satisfies E(y) iff there exist f.arity tuples related by R
whose columns map to y under f's graph. -/
theorem C7_closure_one_step (R : Relation) (f : Operation) (hR : R.WF)
    (hk : 1 ≤ R.arity) (hf : f.WF) (hfsz : f.size = R.size)
    (hdisp : f.arity + 1 ≤ 3 ∨ R.arity ≤ 2) :
    ∃ E, R.closure f = Except.ok E ∧ E.size = R.size ∧ E.arity = R.arity ∧ E.WF ∧
      ∀ y, Tup R.size R.arity y →
        (E.cell y = true ↔
          EvalSpec R (List.replicate R.arity f.as_relation) (f.arity + 1) y) := by
  have hget : (List.replicate R.arity f.as_relation).getD 0 junkRel = f.as_relation := by
    rw [List.getD_eq_getElem _ _ (by rw [List.length_replicate]; omega),
      List.getElem_replicate]
  have h := evaluate_master R (List.replicate R.arity f.as_relation)
    (List.length_replicate _ _) hk hR
    (by rw [hget]; exact Nat.le_add_left 1 f.arity)
    (fun o ho => by
      rw [List.eq_of_mem_replicate ho, hget]
      exact ⟨⟨hf.1, hf.2⟩, hfsz, rfl⟩)
  obtain ⟨E, hE, hsz, har, hwf, hcell⟩ := h.1 (by rw [hget]; exact hdisp)
  refine ⟨E, by rw [Relation.closure]; exact hE, hsz, har, hwf, fun y hy => ?_⟩
  rw [hcell y hy, hget]
  exact Iff.rfl

/-- C7 counterexample: the seed relation is true at 0 and the operation is
boolean negation; the closure result does not contain the seed tuple, so
closure is not the least superset of R closed under the operation. -/
theorem C7_counterexample :
    Relation.closure ⟨2, 1, [true, false]⟩ ⟨2, 1, [false, true, true, false]⟩
        = Except.ok (⟨2, 1, [false, true]⟩ : Relation) ∧
      Relation.cell ⟨2, 1, [true, false]⟩ [0] = true ∧
      Relation.cell ⟨2, 1, [false, true]⟩ [0] = false :=
  ⟨rfl, by decide, by decide⟩

/-- C7 witness: the one-step image theorem applied at a concrete seed and
operation. -/
theorem C7_closure_one_step_witness :
    ∃ E, Relation.closure ⟨2, 1, [true, false]⟩ ⟨2, 1, [false, true, true, false]⟩
        = Except.ok E ∧ E.size = 2 ∧ E.arity = 1 ∧ E.WF ∧
      ∀ y, Tup 2 1 y →
        (E.cell y = true ↔
          EvalSpec ⟨2, 1, [true, false]⟩
            (List.replicate 1 (Operation.as_relation ⟨2, 1, [false, true, true, false]⟩))
            2 y) :=
  C7_closure_one_step ⟨2, 1, [true, false]⟩ ⟨2, 1, [false, true, true, false]⟩
    (by decide) (by decide) (by decide) (by decide) (Or.inl (by decide))

theorem filterMap_length_all_some {α β : Type} (g : α → Option β) :
    ∀ (l : List α), (∀ a ∈ l, (g a).isSome = true) →
      (l.filterMap g).length = l.length := by
  intro l
  induction l with
  | nil => intro _; rfl
  | cons a l ih =>
    intro h
    rw [List.filterMap_cons]
    rcases hg : g a with _ | b
    · exact absurd (h a (by simp)) (by rw [hg]; simp)
    · rw [List.length_cons, List.length_cons,
        ih (fun x hx => h x (List.mem_cons_of_mem a hx))]

theorem filterMap_getD_all_some {α β : Type} (g : α → Option β) (d : β) (da : α) :
    ∀ (l : List α) (i : Nat), (∀ a ∈ l, (g a).isSome = true) → i < l.length →
      (l.filterMap g).getD i d = (g (l.getD i da)).getD d := by
  intro l
  induction l with
  | nil =>
    intro i _ hi
    simp at hi
  | cons a l ih =>
    intro i h hi
    rw [List.filterMap_cons]
    rcases hg : g a with _ | b
    · exact absurd (h a (by simp)) (by rw [hg]; simp)
    · cases i with
      | zero =>
        rw [List.getD_cons_zero, List.getD_cons_zero, hg, Option.getD_some]
      | succ i =>
        rw [List.getD_cons_succ, List.getD_cons_succ]
        exact ih i (fun x hx => h x (List.mem_cons_of_mem a hx)) (by simpa using hi)

/-- C8 (amended): decode never raises; on a table obeying the exactly-one
functionality invariant it returns one index per block, the unique true
index (the claim's failure behaviour is wrong: a block with no true
literal is silently skipped, shortening the result, as the counterexample
shows). -/
theorem C8_decode (f : Operation) (hsz : 1 ≤ f.size)
    (hlen : f.table.length = f.size ^ (f.arity + 1))
    (hone : ∀ b < f.size ^ f.arity,
      (List.range f.size).countP (fun i => f.table.getD (b * f.size + i) false) = 1) :
    f.decode.length = f.size ^ f.arity ∧
    ∀ b < f.size ^ f.arity, f.decode.getD b 0 < f.size ∧
      f.table.getD (b * f.size + f.decode.getD b 0) false = true := by
  have hpy : pyRange 0 f.table.length f.size
      = (List.range (f.size ^ f.arity)).map (fun t => t * f.size) := by
    rw [hlen, show f.size ^ (f.arity + 1) = f.size * f.size ^ f.arity from by
      rw [pow_succ, Nat.mul_comm]]
    exact pyRange_size_blocks f.size (f.size ^ f.arity) hsz
  have hG : ∀ b ∈ List.range (f.size ^ f.arity),
      (((fun start => (List.range f.size).find?
          (fun i => f.table.getD (start + i) false)) ∘ (fun t => t * f.size)) b).isSome
        = true := by
    intro b hb
    show ((List.range f.size).find?
      (fun i => f.table.getD (b * f.size + i) false)).isSome = true
    rw [List.find?_isSome]
    have hpos : 0 < (List.range f.size).countP
        (fun i => f.table.getD (b * f.size + i) false) := by
      rw [hone b (List.mem_range.mp hb)]
      omega
    obtain ⟨i, hi, hp⟩ := List.countP_pos.mp hpos
    exact ⟨i, hi, hp⟩
  unfold Operation.decode
  rw [hpy, List.filterMap_map]
  constructor
  · rw [filterMap_length_all_some _ _ hG, List.length_range]
  · intro b hb
    have hbl : b < (List.range (f.size ^ f.arity)).length := by
      rw [List.length_range]
      exact hb
    rw [filterMap_getD_all_some _ 0 0 _ b hG hbl,
      List.getD_eq_getElem _ _ hbl, List.getElem_range]
    obtain ⟨j, hj⟩ := Option.isSome_iff_exists.mp (hG b (List.mem_range.mpr hb))
    have hj' : (List.range f.size).find?
        (fun i => f.table.getD (b * f.size + i) false) = some j := hj
    show ((List.range f.size).find?
        (fun i => f.table.getD (b * f.size + i) false)).getD 0 < f.size ∧
      f.table.getD (b * f.size + ((List.range f.size).find?
        (fun i => f.table.getD (b * f.size + i) false)).getD 0) false = true
    rw [hj', Option.getD_some]
    exact ⟨List.mem_range.mp (List.mem_of_find?_eq_some hj'),
      by simpa using List.find?_some hj'⟩

/-- C8 counterexample: a nullary table whose single block has no true
literal; decode returns the empty list instead of failing, silently
dropping the block. -/
theorem C8_counterexample :
    Operation.decode ⟨2, 0, [false, false]⟩ = ([] : List Nat) ∧
      (Operation.decode ⟨2, 0, [false, false]⟩).length ≠ 2 ^ 0 :=
  ⟨rfl, by decide⟩

/-- C8 witness: decode of the negation table returns the unique true index
of each block. -/
theorem C8_decode_witness :
    (Operation.decode ⟨2, 1, [false, true, true, false]⟩).length = 2 ^ 1 ∧
    ∀ b < 2 ^ 1, (Operation.decode ⟨2, 1, [false, true, true, false]⟩).getD b 0 < 2 ∧
      ([false, true, true, false] : List Bool).getD
        (b * 2 + (Operation.decode ⟨2, 1, [false, true, true, false]⟩).getD b 0) false
        = true :=
  C8_decode ⟨2, 1, [false, true, true, false]⟩ (by decide) (by decide) (by decide)

theorem foldl_set_length (L : List Nat) : ∀ (t : List Bool),
    (L.foldl (fun t idx => t.set idx true) t).length = t.length := by
  induction L with
  | nil => intro t; rfl
  | cons a L ih =>
    intro t
    rw [List.foldl_cons, ih, List.length_set]

theorem foldl_set_getD (L : List Nat) : ∀ (t : List Bool) (p : Nat), p < t.length →
    ((L.foldl (fun t idx => t.set idx true) t).getD p false = true ↔
      (t.getD p false = true ∨ p ∈ L)) := by
  induction L with
  | nil =>
    intro t p hp
    simp
  | cons a L ih =>
    intro t p hp
    rw [List.foldl_cons, ih (t.set a true) p (by rw [List.length_set]; exact hp)]
    have hset : (t.set a true).getD p false
        = (if a = p then true else t.getD p false) := by
      rw [List.getD_eq_getElem _ _ (by rw [List.length_set]; exact hp),
        List.getElem_set]
      by_cases hap : a = p
      · rw [if_pos hap, if_pos hap]
      · rw [if_neg hap, if_neg hap, List.getD_eq_getElem _ _ hp]
    rw [hset]
    by_cases hap : a = p
    · rw [if_pos hap]
      simp [hap.symm]
    · rw [if_neg hap]
      constructor
      · rintro (h | h)
        · exact Or.inl h
        · exact Or.inr (List.mem_cons_of_mem a h)
      · rintro (h | h)
        · exact Or.inl h
        · rcases List.mem_cons.mp h with h2 | h2
          · exact absurd h2.symm hap
          · exact Or.inr h2

theorem pow_sum_succ (s a : Nat) : ((List.range (a + 1)).map (s ^ ·)).sum
    = 1 + s * ((List.range a).map (s ^ ·)).sum := by
  rw [List.range_succ_eq_map, List.map_cons, List.sum_cons, List.map_map]
  rw [show ((fun i => s ^ i) ∘ Nat.succ) = (fun i => s * s ^ i) from
    funext (fun i => by rw [Function.comp_apply, pow_succ, Nat.mul_comm])]
  rw [pow_zero, List.sum_map_mul_left]

theorem nat_geom_sum_mul (s : Nat) (hs : 2 ≤ s) : ∀ a : Nat,
    (s - 1) * ((List.range a).map (s ^ ·)).sum = s ^ a - 1 := by
  intro a
  induction a with
  | zero => simp
  | succ a ih =>
    rw [pow_sum_succ, Nat.mul_add, Nat.mul_one]
    have h2 : (s - 1) * (s * ((List.range a).map (s ^ ·)).sum)
        = s * ((s - 1) * ((List.range a).map (s ^ ·)).sum) := by ring
    rw [h2, ih]
    have h3 : s ^ (a + 1) = s * s ^ a := by rw [pow_succ, Nat.mul_comm]
    have h4 : 1 ≤ s ^ a := Nat.one_le_pow a s (by omega)
    have hmul : s * (s ^ a - 1) + s = s * s ^ a := by
      rw [← Nat.mul_succ]
      congr 1
      omega
    omega

theorem encodeTup_replicate (s c : Nat) : ∀ a : Nat,
    encodeTup s (List.replicate a c) = c * ((List.range a).map (s ^ ·)).sum := by
  intro a
  induction a with
  | zero => simp [encodeTup]
  | succ a ih =>
    rw [List.replicate_succ]
    show c + s * encodeTup s (List.replicate a c) = _
    rw [ih, pow_sum_succ, Nat.mul_add, Nat.mul_one]
    ring

/-- C10: new_diag is the all-true length-1 table for size at most 1; for
size at least 2 it errors at arity 0 (the python range step is zero) even
though the entry assertion admits arity 0; and for size at least 2 and
arity at least 1 it returns the well-formed relation true exactly on the
constant tuples. -/
theorem C10_new_diag :
    (∀ size arity : Nat, size ≤ 1 →
      Relation.new_diag size arity = Except.ok ⟨size, arity, [true]⟩) ∧
    (∀ size : Nat, 2 ≤ size → Relation.new_diag size 0 = Except.error ()) ∧
    (∀ size arity : Nat, 2 ≤ size → 1 ≤ arity →
      ∃ E, Relation.new_diag size arity = Except.ok E ∧
        E.size = size ∧ E.arity = arity ∧ E.WF ∧
        ∀ x, Tup size arity x →
          (E.cell x = true ↔ ∃ c, c < size ∧ x = List.replicate arity c)) := by
  refine ⟨fun size arity h1 => by rw [Relation.new_diag, if_pos h1],
    fun size h2 => by
      rw [Relation.new_diag, if_neg (by omega), if_pos (by rw [pow_zero]; simp),
        ], ?_⟩
  intro s a hs ha
  have hsum1 : 1 ≤ ((List.range a).map (s ^ ·)).sum := by
    rw [show a = (a - 1) + 1 from by omega, pow_sum_succ]
    omega
  have hstep : (s ^ a - 1) / (s - 1) = ((List.range a).map (s ^ ·)).sum := by
    rw [← nat_geom_sum_mul s hs a, Nat.mul_div_cancel_left _ (by omega)]
  have hpow1 : 1 ≤ s ^ a := Nat.one_le_pow a s (by omega)
  have hcount : (s ^ a - 0 + ((List.range a).map (s ^ ·)).sum - 1)
      / ((List.range a).map (s ^ ·)).sum = s := by
    have hge := nat_geom_sum_mul s hs a
    have hmulsucc : ((List.range a).map (s ^ ·)).sum * s
        = ((List.range a).map (s ^ ·)).sum * (s - 1)
          + ((List.range a).map (s ^ ·)).sum := by
      rw [← Nat.mul_succ]
      congr 1
      omega
    have hcomm : ((List.range a).map (s ^ ·)).sum * (s - 1)
        = (s - 1) * ((List.range a).map (s ^ ·)).sum := Nat.mul_comm _ _
    have he : s ^ a - 0 + ((List.range a).map (s ^ ·)).sum - 1
        = ((List.range a).map (s ^ ·)).sum * s := by omega
    rw [he, Nat.mul_div_cancel_left _ (by omega)]
  have hpyr : pyRange 0 (s ^ a) ((s ^ a - 1) / (s - 1))
      = (List.range s).map (fun t => 0 + t * ((List.range a).map (s ^ ·)).sum) := by
    unfold pyRange
    rw [hstep, hcount]
  refine ⟨⟨s, a, (pyRange 0 (s ^ a) ((s ^ a - 1) / (s - 1))).foldl
      (fun t idx => t.set idx true) (List.replicate (s ^ a) false)⟩, ?_, rfl, rfl, ?_, ?_⟩
  · rw [Relation.new_diag]
    rw [if_neg (show ¬(s ≤ 1) from by omega)]
    rw [if_neg (show ¬((s ^ a - 1) / (s - 1) = 0) from by rw [hstep]; omega)]
  · exact ⟨show 0 < s from by omega, by
      show ((pyRange 0 (s ^ a) ((s ^ a - 1) / (s - 1))).foldl
        (fun t idx => t.set idx true) (List.replicate (s ^ a) false)).length = s ^ a
      rw [foldl_set_length, List.length_replicate]⟩
  · intro x hx
    have henc : encodeTup s x < s ^ a := by
      rw [show s ^ a = s ^ x.length from by rw [hx.1]]
      exact encodeTup_lt s x hx.2
    show ((pyRange 0 (s ^ a) ((s ^ a - 1) / (s - 1))).foldl
        (fun t idx => t.set idx true) (List.replicate (s ^ a) false)).getD
        (encodeTup s x) false = true ↔ _
    rw [foldl_set_getD _ _ _ (by rw [List.length_replicate]; exact henc)]
    have hrep : (List.replicate (s ^ a) false).getD (encodeTup s x) false = false := by
      rw [List.getD_eq_getElem _ _ (by rw [List.length_replicate]; exact henc),
        List.getElem_replicate]
    rw [hrep]
    simp only [Bool.false_eq_true, false_or]
    rw [hpyr]
    constructor
    · intro hmem
      obtain ⟨t, ht, hteq⟩ := List.mem_map.mp hmem
      have htlt : t < s := List.mem_range.mp ht
      refine ⟨t, htlt, ?_⟩
      have hxd : x = digitsLE s a (encodeTup s x) :=
        (digitsLE_encodeTup s a x hx.1 hx.2).symm
      have hrepd : digitsLE s a (encodeTup s (List.replicate a t))
          = List.replicate a t :=
        digitsLE_encodeTup s a _ (List.length_replicate a t)
          (fun c hc => by rw [List.eq_of_mem_replicate hc]; exact htlt)
      rw [hxd, show encodeTup s x = encodeTup s (List.replicate a t) from by
        rw [encodeTup_replicate]
        omega, hrepd]
    · rintro ⟨c, hc, rfl⟩
      refine List.mem_map.mpr ⟨c, List.mem_range.mpr hc, ?_⟩
      rw [encodeTup_replicate]
      omega

/-- C10 witness: new_diag applied at concrete sizes and arities, covering
the size-1 table, the arity-0 error, and the binary diagonal. -/
theorem C10_new_diag_witness :
    Relation.new_diag 1 5 = Except.ok ⟨1, 5, [true]⟩ ∧
    Relation.new_diag 2 0 = Except.error () ∧
    ∃ E, Relation.new_diag 2 2 = Except.ok E ∧
      E.size = 2 ∧ E.arity = 2 ∧ E.WF ∧
      ∀ x, Tup 2 2 x →
        (E.cell x = true ↔ ∃ c, c < 2 ∧ x = List.replicate 2 c) :=
  ⟨C10_new_diag.1 1 5 (by decide), C10_new_diag.2.1 2 (by decide),
   C10_new_diag.2.2 2 2 (by decide) (by decide)⟩
